import Mathlib

/-!
# ParaSails: parallel sparse approximate inverse, least squares

A shallow embedding of `src/distributed_linear_solvers/ParaSails/ParaSails.c`.
Global row and column numbers are C `int`s and are modelled by `Int`; `double`
values are modelled by exact rationals, or by the elements of any ordered field where
the code only copies or combines them.  The other processes of a run are a parameter of
the exchange functions: what arrives, and what comes back for each request.
Definitions come first, theorems follow.
-/

namespace Hypre

/-! ## Dense view used by `ParaSailsApply` -/

/-- Dense view of a global `n`-by-`n` matrix. -/
abbrev Dense (n : Nat) := Fin n → Fin n → ℚ

/-- A vector of length `n`. -/
abbrev Vec (n : Nat) := Fin n → ℚ

/-- Vector buffers, by address. -/
abbrev Bufs (n : Nat) := Nat → Vec n

/-- The product `M·x`. -/
def mulVec {n : Nat} (M : Dense n) (x : Vec n) : Vec n :=
  fun i => ∑ j, M i j * x j

/-- The product `Mᵀ·x`. -/
def mulVecTrans {n : Nat} (M : Dense n) (x : Vec n) : Vec n :=
  fun j => ∑ i, M i j * x i

/-- Modelled from the spec: `MatrixMatvec` of Matrix.c, which is absent.
`MatrixMatvec(M, x, y)` stores `y = M·x`; `x` and `y` are buffer addresses. -/
def MatrixMatvec {n : Nat} (M : Dense n) (x y : Nat) (mem : Bufs n) : Bufs n :=
  Function.update mem y (mulVec M (mem x))

/-- Modelled from the spec: `MatrixMatvecTrans` of Matrix.c, which is absent.
`MatrixMatvecTrans(M, x, y)` stores `y = Mᵀ·x`; `x` and `y` may be the same buffer. -/
def MatrixMatvecTrans {n : Nat} (M : Dense n) (x y : Nat) (mem : Bufs n) : Bufs n :=
  Function.update mem y (mulVecTrans M (mem x))

/-- `ParaSailsApply(ps, u, v)` with `M = ps->M`:
`MatrixMatvec(ps->M, u, v); MatrixMatvecTrans(ps->M, v, v);` -/
def ParaSailsApply {n : Nat} (M : Dense n) (u v : Nat) (mem : Bufs n) : Bufs n :=
  MatrixMatvecTrans M v v (MatrixMatvec M u v mem)

/-- A lower triangular 2-by-2 matrix with a nonzero entry below the diagonal. -/
def lowerTwo : Dense 2 := fun i j => if j.val ≤ i.val then 1 else 0

/-- Two buffers: the first unit vector at address 0, zero elsewhere. -/
def unitBufs : Bufs 2 := fun a i => if a = 0 ∧ i.val = 0 then 1 else 0

/-! ## The distributed matrix -/

/-- The fields of `Matrix` (Matrix.h is absent) that ParaSails.c reads: the local block
`[beg_row, end_row]`, the blocks `[beg_rows[p], end_rows[p]]` of all processes, and the
local rows.  Rows are keyed by their global number; the length of a row is the length of
its index list. -/
structure Matrix (K : Type) where
  beg_row : Int
  end_row : Int
  beg_rows : List Int
  end_rows : List Int
  inds : Int → List Int
  vals : Int → List K

/-- Number of processes of the communicator (`MPI_Comm_size`). -/
def Matrix.npes {K : Type} (mat : Matrix K) : Nat := mat.beg_rows.length

/-- The test `beg_rows[pe] <= row && row <= end_rows[pe]`. -/
def inBlock {K : Type} (mat : Matrix K) (pe : Nat) (row : Int) : Bool :=
  decide (mat.beg_rows.getD pe 0 ≤ row) && decide (row ≤ mat.end_rows.getD pe 0)

/-- Modelled from the spec: `MatrixRowPe` of Matrix.c, which is absent; `row_owner(idx) → pid`
where process `p` owns `[beg_rows[p], end_rows[p]]`.  The first process whose block holds
the row; `none` when no block does. -/
def MatrixRowPe {K : Type} (mat : Matrix K) (row : Int) : Option Nat :=
  (List.range mat.npes).find? (fun pe => inBlock mat pe row)

/-- Modelled from the spec: `MatrixGetRow` of Matrix.c, which is absent; row lookup
`(len, indices[], values[])`, the length being that of the index list. -/
def MatrixGetRow {K : Type} (mat : Matrix K) (row : Int) : List Int × List K :=
  (mat.inds row, mat.vals row)

/-- Modelled from the spec: `MatrixSetRow` of Matrix.c, which is absent; row allocation
(set structure / set values).  Space for `len` indices and values is allocated, the indices
are copied, and the values are copied unless `val` is `NULL` (then they read as zero). -/
def MatrixSetRow {K : Type} [Zero K] (mat : Matrix K) (row : Int) (len : Nat)
    (ind : List Int) (val : Option (List K)) : Matrix K :=
  { mat with
    inds := Function.update mat.inds row (ind.take len)
    vals := Function.update mat.vals row
      (match val with
       | none => List.replicate len 0
       | some v => v.take len) }

/-- The local rows `beg_row, ..., end_row` in loop order. -/
def localRows {K : Type} (mat : Matrix K) : List Int :=
  (List.range (mat.end_row - mat.beg_row + 1).toNat).map (fun (k : Nat) => mat.beg_row + (k : Int))

/-! ## SendRequests -/

/-- Modelled from the spec: `shell_sort` of OrderStat.c, which is absent; sorts the list of
indices ascending. -/
def shell_sort (x : List Int) : List Int := x.insertionSort (· ≤ ·)

/-- A REQ message: the destination process and the row numbers asked for. -/
structure Req where
  dest : Nat
  body : List Int
deriving DecidableEq, Repr

/-- The loop of `SendRequests` over the sorted list.  The list argument is `reqind[i..]`;
the inner loop advances `j` while `reqind[j]` lies in the block of `this_pe`.  The state
is the messages sent so far and `num_requests`.  One unit of fuel per group. -/
def SendRequests.loop {K : Type} (mat : Matrix K) :
    Nat → List Int → List Req × Nat → Option (List Req × Nat)
  | _, [], st => some st
  | 0, _ :: _, _ => none
  | fuel + 1, x :: rest, (sent, num_requests) =>
    match MatrixRowPe mat x with
    | none => none
    | some this_pe =>
      SendRequests.loop mat fuel (rest.dropWhile (inBlock mat this_pe))
        (sent ++ [⟨this_pe, x :: rest.takeWhile (inBlock mat this_pe)⟩], num_requests + 1)

/-- `SendRequests(comm, mat, reqlen, reqind, &num_requests)`: the REQ messages in send
order and `num_requests`; `none` when a row has no owner. -/
def SendRequests {K : Type} (mat : Matrix K) (reqind : List Int) : Option (List Req × Nat) :=
  SendRequests.loop mat reqind.length (shell_sort reqind) ([], 0)

/-- The blocks of distinct processes are disjoint. -/
def DisjointBlocks {K : Type} (mat : Matrix K) : Prop :=
  ∀ p q : Nat, p < mat.npes → q < mat.npes → p ≠ q →
    ∀ x : Int, ¬ (inBlock mat p x = true ∧ inBlock mat q x = true)

/-- Every index of the list lies in the block of some process. -/
def Covered {K : Type} (mat : Matrix K) (l : List Int) : Prop :=
  ∀ x ∈ l, ∃ p : Nat, p < mat.npes ∧ inBlock mat p x = true

/-- A partition into three blocks `[0,3]`, `[4,7]`, `[8,11]`, seen from process 1. -/
def threeBlocks : Matrix ℚ :=
  { beg_row := 4, end_row := 7, beg_rows := [0, 4, 8], end_rows := [3, 7, 11],
    inds := fun _ => [], vals := fun _ => [] }

/-! ## RowPatt and PrunedRows -/

/-- `#define ROWPATT_MAXLEN 50021`. -/
def ROWPATT_MAXLEN : Nat := 50021

/-- Modelled from the spec: `RowPatt` of RowPatt.c, which is absent; a set of global column
indices with a frontier.  `ind` holds the members in insertion order.  `frontier` holds the
indices added since the frontier was last taken with `RowPattPrevLevel`: the callers take it
after a series of merges ("Get list of indices that were just merged" after one merge per
local row; "the frontier after this initial merge is the level-1 set"), and the replies of
a level are merged one row at a time to "populate the next frontier". -/
structure RowPatt where
  maxlen : Nat
  ind : List Int
  frontier : List Int

/-- Modelled from the spec: `RowPattCreate`; an empty pattern of the given capacity. -/
def RowPattCreate (maxlen : Nat) : RowPatt := ⟨maxlen, [], []⟩

/-- Modelled from the spec: `RowPattReset`; `reset()` empties the set and the frontier. -/
def RowPattReset (p : RowPatt) : RowPatt := { p with ind := [], frontier := [] }

/-- Modelled from the spec: `RowPattMerge`; `merge(list)`: each index not already present is
inserted and appended to the frontier buffer, duplicates are silent no-ops, and the merge
fails (`none`, CAPACITY_EXCEEDED) when the set would exceed its capacity. -/
def RowPattMerge (p : RowPatt) : List Int → Option RowPatt
  | [] => some p
  | x :: xs =>
    if x ∈ p.ind then RowPattMerge p xs
    else if p.ind.length < p.maxlen then
      RowPattMerge { p with ind := p.ind ++ [x], frontier := p.frontier ++ [x] } xs
    else none

/-- Modelled from the spec: `RowPattMergeExt`; `merge_external(list, lo, hi)` is `merge`
skipping the indices in `[lo, hi]`. -/
def RowPattMergeExt (p : RowPatt) (ind : List Int) (beg_row end_row : Int) : Option RowPatt :=
  RowPattMerge p (ind.filter (fun x => decide (x < beg_row) || decide (end_row < x)))

/-- Modelled from the spec: `RowPattPrevLevel`; `frontier()` returns the indices just added,
and the merges that follow start a new frontier. -/
def RowPattPrevLevel (p : RowPatt) : List Int × RowPatt :=
  (p.frontier, { p with frontier := [] })

/-- Modelled from the spec: `RowPattGet`; `all()` returns all indices of the set (here in
insertion order; the spec leaves the order open). -/
def RowPattGet (p : RowPatt) : List Int := p.ind

/-- Modelled from the spec: `PrunedRows` of PrunedRows.c, which is absent; a mapping from
global row to its list of column indices. -/
structure PrunedRows where
  rows : Int → Option (List Int)

/-- Modelled from the spec: `PrunedRowsGet`; `get(row)`, `none` when the row is not bound. -/
def PrunedRowsGet (pr : PrunedRows) (row : Int) : Option (List Int) := pr.rows row

/-- Modelled from the spec: `PrunedRowsPut`; `put(row, len, slice)` binds the row to the
first `len` entries at `ind`. -/
def PrunedRowsPut (pr : PrunedRows) (row : Int) (len : Nat) (ind : List Int) : PrunedRows :=
  ⟨Function.update pr.rows row (some (ind.take len))⟩

/-! ## ConstructPatternForEachRow -/

/-- The loop `for (i=0; i<lenprev; i++)`: merge the pruned row of each index of the previous
level. -/
def mergePrevLevel (pr : PrunedRows) : RowPatt → List Int → Option RowPatt
  | p, [] => some p
  | p, i :: rest =>
    match PrunedRowsGet pr i with
    | none => none
    | some ind =>
      match RowPattMerge p ind with
      | none => none
      | some p1 => mergePrevLevel pr p1 rest

/-- The loop `for (level=1; level<=num_levels; level++)`. -/
def levelLoop (pr : PrunedRows) : Nat → RowPatt → Option RowPatt
  | 0, p => some p
  | n + 1, p =>
    match mergePrevLevel pr (RowPattPrevLevel p).2 (RowPattPrevLevel p).1 with
    | none => none
    | some p1 => levelLoop pr n p1

/-- The pattern of one row before the lower triangular part is taken: the initial merge of
the pruned row, then `num_levels` levels. -/
def rowPattern (pr : PrunedRows) (num_levels : Nat) (row_patt : RowPatt) (row : Int) :
    Option RowPatt :=
  match PrunedRowsGet pr row with
  | none => none
  | some ind =>
    match RowPattMerge (RowPattReset row_patt) ind with
    | none => none
    | some p => levelLoop pr num_levels p

/-- The loop "Update number of requests this processor expects to receive" over the indices
of one row pattern; the state is `marker` and `*num_replies`. -/
def updateReplies {K : Type} (M : Matrix K) :
    List Int → (Nat → Int) × Nat → Option ((Nat → Int) × Nat)
  | [], st => some st
  | x :: xs, (marker, num_replies) =>
    if x ≤ M.end_row then updateReplies M xs (marker, num_replies)
    else
      match MatrixRowPe M x with
      | none => none
      | some pe =>
        if marker pe = 0 then
          updateReplies M xs (Function.update marker pe 1, num_replies + 1)
        else updateReplies M xs (marker, num_replies)

/-- State of the row loop of `ConstructPatternForEachRow`. -/
structure PattState (K : Type) where
  row_patt : RowPatt
  marker : Nat → Int
  num_replies : Nat
  M : Matrix K

/-- The body of the row loop of `ConstructPatternForEachRow`. -/
def ConstructPatternRow {K : Type} [Zero K] (pr : PrunedRows) (num_levels : Nat)
    (st : PattState K) (row : Int) : Option (PattState K) :=
  match rowPattern pr num_levels st.row_patt row with
  | none => none
  | some p =>
    match updateReplies st.M (RowPattGet p) (st.marker, st.num_replies) with
    | none => none
    | some (marker, num_replies) =>
      some { row_patt := p, marker := marker, num_replies := num_replies,
             M := MatrixSetRow st.M row ((RowPattGet p).filter (fun j => decide (j ≤ row))).length
                    ((RowPattGet p).filter (fun j => decide (j ≤ row))) none }

/-- The row loop `for (row=M->beg_row; row<=M->end_row; row++)`. -/
def ConstructPatternRows {K : Type} [Zero K] (pr : PrunedRows) (num_levels : Nat) :
    PattState K → List Int → Option (PattState K)
  | st, [] => some st
  | st, row :: rest =>
    match ConstructPatternRow pr num_levels st row with
    | none => none
    | some st1 => ConstructPatternRows pr num_levels st1 rest

/-- `ConstructPatternForEachRow(pruned_rows, num_levels, M, &num_replies)`: the matrix with
the row patterns stored, and `num_replies`. -/
def ConstructPatternForEachRow {K : Type} [Zero K] (pr : PrunedRows) (num_levels : Nat)
    (M : Matrix K) : Option (Matrix K × Nat) :=
  match ConstructPatternRows pr num_levels
      { row_patt := RowPattCreate ROWPATT_MAXLEN, marker := fun _ => 0, num_replies := 0, M := M }
      (localRows M) with
  | none => none
  | some st => some (st.M, st.num_replies)

/-- The pattern of level `l` of row `r`, by steps of the pruned graph: `P_0(r) = PrunedRows[r]`
and `P_{l+1}(r) = P_l(r) ∪ ⋃ { PrunedRows[i] : i ∈ P_l(r) }`. -/
def levelPattern (pr : PrunedRows) : Nat → Int → Finset Int
  | 0, r => ((pr.rows r).getD []).toFinset
  | l + 1, r =>
    levelPattern pr l r ∪ (levelPattern pr l r).biUnion (fun i => ((pr.rows i).getD []).toFinset)

/-- Invariant of the level loop for row `r` after `l` levels: the members are distinct and
are those of the level-`l` pattern, the frontier lies in the set, and the pruned row of
every member outside the frontier has been merged. -/
def LevelInv (pr : PrunedRows) (r : Int) (l : Nat) (p : RowPatt) : Prop :=
  p.ind.Nodup ∧ (∀ j, j ∈ p.ind ↔ j ∈ levelPattern pr l r) ∧
    (∀ i ∈ p.frontier, i ∈ p.ind) ∧
    (∀ i ∈ p.ind, i ∉ p.frontier → ∀ j ∈ (pr.rows i).getD [], j ∈ p.ind)

/-- Two matrices with the same local block and the same blocks of all processes. -/
def SamePartition {K : Type} (M N : Matrix K) : Prop :=
  M.beg_row = N.beg_row ∧ M.end_row = N.end_row ∧ M.beg_rows = N.beg_rows ∧
    M.end_rows = N.end_rows

/-- What the pattern construction needs of row `r`: its pruned row and those looked up in
the levels are present, the level-`L` pattern fits the capacity of the row pattern, and
every index of it above `end_row` has an owner. -/
def RowReady {K : Type} (pr : PrunedRows) (L : Nat) (M : Matrix K) (r : Int) : Prop :=
  (pr.rows r).isSome = true ∧
    (∀ k, k < L → ∀ i ∈ levelPattern pr k r, (pr.rows i).isSome = true) ∧
    (levelPattern pr L r).card ≤ ROWPATT_MAXLEN ∧
    (∀ x ∈ levelPattern pr L r, M.end_row < x → (MatrixRowPe M x).isSome = true)

instance {K : Type} (pr : PrunedRows) (L : Nat) (M : Matrix K) (r : Int) :
    Decidable (RowReady pr L M r) := by
  unfold RowReady
  infer_instance

/-- The pruned rows of a tridiagonal matrix with rows `0..7`, diagonal first. -/
def triPruned : PrunedRows :=
  ⟨fun r => if 0 ≤ r ∧ r ≤ 7 then
      some ([r] ++ (if 0 < r then [r - 1] else []) ++ (if r < 7 then [r + 1] else []))
    else none⟩

/-- Process 0 of two, owning rows `0..3` of `0..7`, with no row stored yet. -/
def twoBlocks : Matrix ℚ :=
  { beg_row := 0, end_row := 3, beg_rows := [0, 4], end_rows := [3, 7],
    inds := fun _ => [], vals := fun _ => [] }

/-! ## Replies with pruned rows -/

/-- A send buffer of `cap` entries obtained from `MemAlloc` and filled through a moving
pointer; `data` holds the entries written so far, so `data.length` is `indbufp - indbuf`. -/
structure OutBuf (α : Type) where
  cap : Nat
  data : List α

/-- The write `*p++ = x`; `none` when it falls outside the buffer. -/
def OutBuf.put {α : Type} (b : OutBuf α) (x : α) : Option (OutBuf α) :=
  if b.data.length < b.cap then some { b with data := b.data ++ [x] } else none

/-- The copy `memcpy(p, src, sizeof(*p)*len); p += len`; `none` when it reads past `src` or
writes outside the buffer. -/
def OutBuf.memcpy {α : Type} (b : OutBuf α) (src : List α) (len : Nat) : Option (OutBuf α) :=
  if len ≤ src.length ∧ b.data.length + len ≤ b.cap then
    some { b with data := b.data ++ src.take len }
  else none

/-- The loop `*indbufp++ = buffer[j]` over the row numbers. -/
def putRowNumbers : OutBuf Int → List Int → Option (OutBuf Int)
  | b, [] => some b
  | b, row :: rest =>
    match b.put row with
    | none => none
    | some b1 => putRowNumbers b1 rest

/-- The first loop of `SendReplyPrunedRows`: `sendbacksize += (len+1)` for each row. -/
def prunedSendbacksize (pr : PrunedRows) : List Int → Nat → Option Nat
  | [], sendbacksize => some sendbacksize
  | row :: rest, sendbacksize =>
    match PrunedRowsGet pr row with
    | none => none
    | some ind => prunedSendbacksize pr rest (sendbacksize + (ind.length + 1))

/-- The last loop of `SendReplyPrunedRows`: the length of each row, then its indices. -/
def putPrunedRows (pr : PrunedRows) : OutBuf Int → List Int → Option (OutBuf Int)
  | b, [] => some b
  | b, row :: rest =>
    match PrunedRowsGet pr row with
    | none => none
    | some ind =>
      match b.put (ind.length : Int) with
      | none => none
      | some b1 =>
        match b1.memcpy ind ind.length with
        | none => none
        | some b2 => putPrunedRows pr b2 rest

/-- A reply of pruned rows: the destination, the integers sent with tag REPI
(`indbufp - indbuf` of them), and the number of integers allocated. -/
structure PrunedReply where
  dest : Nat
  indbuf : List Int
  sendbacksize : Nat

/-- `SendReplyPrunedRows(comm, dest, buffer, count, pruned_rows, mem, request)`, with
`count` the length of `buffer`. -/
def SendReplyPrunedRows (dest : Nat) (buffer : List Int) (pr : PrunedRows) :
    Option PrunedReply :=
  match prunedSendbacksize pr buffer (buffer.length + 1) with
  | none => none
  | some sendbacksize =>
    match (OutBuf.mk sendbacksize ([] : List Int)).put (buffer.length : Int) with
    | none => none
    | some b1 =>
      match putRowNumbers b1 buffer with
      | none => none
      | some b2 =>
        match putPrunedRows pr b2 buffer with
        | none => none
        | some b3 => some ⟨dest, b3.data, sendbacksize⟩

/-- The loop "Set the pointers to the individual rows" of `ReceiveReplyPrunedRows`; the
second list is what lies at `ind`.  `none` when a read leaves the message or a merge
exceeds the capacity of `patt`. -/
def parsePrunedRows {K : Type} (mat : Matrix K) :
    PrunedRows → RowPatt → List Int → List Int → Option (PrunedRows × RowPatt)
  | pr, patt, [], _ => some (pr, patt)
  | _, _, _ :: _, [] => none
  | pr, patt, row :: rest, len :: ind =>
    if len < 0 ∨ ind.length < len.toNat then none
    else
      match RowPattMergeExt patt (ind.take len.toNat) mat.beg_row mat.end_row with
      | none => none
      | some patt1 =>
        parsePrunedRows mat (PrunedRowsPut pr row len.toNat ind) patt1 rest (ind.drop len.toNat)

/-- `ReceiveReplyPrunedRows(comm, pruned_rows, patt, mat)` on the received message `msg`. -/
def ReceiveReplyPrunedRows {K : Type} (msg : List Int) (pr : PrunedRows) (patt : RowPatt)
    (mat : Matrix K) : Option (PrunedRows × RowPatt) :=
  match msg with
  | [] => none
  | num_rows :: ind =>
    if ind.length < num_rows.toNat then none
    else parsePrunedRows mat pr patt (ind.take num_rows.toNat) (ind.drop num_rows.toNat)

/-- The REPI body as section 6 of the spec words it, for the requested rows `buffer`:
`[n, row₁…rowₙ, len₁, ind_row₁…, len₂, ind_row₂…, …]`. -/
def repiFormat (rowInd : Int → List Int) (buffer : List Int) : List Int :=
  (buffer.length : Int) ::
    (buffer ++ buffer.flatMap (fun r => ((rowInd r).length : Int) :: rowInd r))

/-- The external indices of the requested rows, which a reply merges into `patt`. -/
def repliedExternal {K : Type} (mat : Matrix K) (pr : PrunedRows) (buffer : List Int) :
    List Int :=
  (buffer.flatMap (fun r => (pr.rows r).getD [])).filter
    (fun x => decide (x < mat.beg_row) || decide (mat.end_row < x))

/-! ## Replies with stored rows -/

/-- Modelled from the spec: `StoredRows` of StoredRows.c, which is absent; a mapping from
global row to `(indices[], values[])`.  Local rows are served by the matrix, external rows
are those bound by the exchange. -/
structure StoredRows (K : Type) where
  mat : Matrix K
  ext : Int → Option (List Int × List K)

/-- Modelled from the spec: `StoredRowsGet`; a local row comes from the row accessor of the
matrix, another row from the bindings, `none` when it is not bound.  The length of the row
is the length of its index list. -/
def StoredRowsGet {K : Type} (sr : StoredRows K) (row : Int) : Option (List Int × List K) :=
  if sr.mat.beg_row ≤ row ∧ row ≤ sr.mat.end_row then some (MatrixGetRow sr.mat row)
  else sr.ext row

/-- Modelled from the spec: `StoredRowsPut`; `put(row, len, ind_slice, val_slice)` records
the row as the first `len` entries at `ind` and at `val`. -/
def StoredRowsPut {K : Type} (sr : StoredRows K) (row : Int) (len : Nat) (ind : List Int)
    (val : List K) : StoredRows K :=
  { sr with ext := Function.update sr.ext row (some (ind.take len, val.take len)) }

/-- The first loop of `SendReplyStoredRows`: `sendbacksize += (len+1)` for each row. -/
def storedSendbacksize {K : Type} (sr : StoredRows K) : List Int → Nat → Option Nat
  | [], sendbacksize => some sendbacksize
  | row :: rest, sendbacksize =>
    match StoredRowsGet sr row with
    | none => none
    | some (ind, _) => storedSendbacksize sr rest (sendbacksize + (ind.length + 1))

/-- The last loop of `SendReplyStoredRows`: the length of each row and its indices go to
`indbuf`, its values to `valbuf`. -/
def putStoredRows {K : Type} (sr : StoredRows K) :
    OutBuf Int → OutBuf K → List Int → Option (OutBuf Int × OutBuf K)
  | bi, bv, [] => some (bi, bv)
  | bi, bv, row :: rest =>
    match StoredRowsGet sr row with
    | none => none
    | some (ind, val) =>
      match bi.put (ind.length : Int) with
      | none => none
      | some bi1 =>
        match bi1.memcpy ind ind.length with
        | none => none
        | some bi2 =>
          match bv.memcpy val ind.length with
          | none => none
          | some bv1 => putStoredRows sr bi2 bv1 rest

/-- A reply of stored rows: the destination, the integers sent with tag REPI, the values
sent with tag REPV (`valbufp - valbuf` of them), and the number of entries allocated for
each of the two buffers. -/
structure StoredReply (K : Type) where
  dest : Nat
  indbuf : List Int
  valbuf : List K
  sendbacksize : Nat

/-- `SendReplyStoredRows(comm, dest, buffer, count, stored_rows, mem, request)`, with
`count` the length of `buffer`. -/
def SendReplyStoredRows {K : Type} (dest : Nat) (buffer : List Int) (sr : StoredRows K) :
    Option (StoredReply K) :=
  match storedSendbacksize sr buffer (buffer.length + 1) with
  | none => none
  | some sendbacksize =>
    match (OutBuf.mk sendbacksize ([] : List Int)).put (buffer.length : Int) with
    | none => none
    | some b1 =>
      match putRowNumbers b1 buffer with
      | none => none
      | some b2 =>
        match putStoredRows sr b2 (OutBuf.mk sendbacksize ([] : List K)) buffer with
        | none => none
        | some (bi, bv) => some ⟨dest, bi.data, bv.data, sendbacksize⟩

/-- The loop "Set the pointers to the individual rows" of `ReceiveReplyStoredRows`; the
lists are what lies at `ind` and what was received at `val`. -/
def parseStoredRows {K : Type} :
    StoredRows K → List Int → List Int → List K → Option (StoredRows K)
  | sr, [], _, _ => some sr
  | _, _ :: _, [], _ => none
  | sr, row :: rest, len :: ind, val =>
    if len < 0 ∨ ind.length < len.toNat then none
    else
      parseStoredRows (StoredRowsPut sr row len.toNat ind val) rest (ind.drop len.toNat)
        (val.drop len.toNat)

/-- `ReceiveReplyStoredRows(comm, stored_rows)` on the received messages `repi` (tag REPI)
and `repv` (tag REPV); the values are received into room for `count` entries, `count` being
the length of `repi`. -/
def ReceiveReplyStoredRows {K : Type} (repi : List Int) (repv : List K) (sr : StoredRows K) :
    Option (StoredRows K) :=
  match repi with
  | [] => none
  | num_rows :: ind =>
    if repi.length < repv.length ∨ ind.length < num_rows.toNat then none
    else parseStoredRows sr (ind.take num_rows.toNat) (ind.drop num_rows.toNat) repv

/-- The row is present and has as many values as indices. -/
def StoredRowPresent {K : Type} (sr : StoredRows K) (row : Int) : Prop :=
  ∃ ind val, StoredRowsGet sr row = some (ind, val) ∧ val.length = ind.length

/-- The indices of a stored row, empty when the row is absent. -/
def storedInd {K : Type} (sr : StoredRows K) (row : Int) : List Int :=
  ((StoredRowsGet sr row).getD ([], [])).1

/-- The values of a stored row, empty when the row is absent. -/
def storedVal {K : Type} (sr : StoredRows K) (row : Int) : List K :=
  ((StoredRowsGet sr row).getD ([], [])).2

/-- An owner of rows `4..7` of a tridiagonal matrix, each row with its values. -/
def triStored : StoredRows ℚ :=
  { mat := { beg_row := 4, end_row := 7, beg_rows := [0, 4], end_rows := [3, 7],
             inds := fun r => if r < 7 then [r - 1, r, r + 1] else [r - 1, r],
             vals := fun r => if r < 7 then [-1, 2, -1] else [-1, 2] },
    ext := fun _ => none }

/-- A requester owning rows `0..3`, with no external row bound yet. -/
def emptyStored : StoredRows ℚ :=
  { mat := twoBlocks, ext := fun _ => none }

/-! ## The requests of ExchangeStoredRows, and the processes together -/

/-- The loop of `ExchangeStoredRows` that merges the external part of every local row of
`M` into `patt`. -/
def mergeRowsExt {K : Type} (M : Matrix K) : RowPatt → List Int → Option RowPatt
  | patt, [] => some patt
  | patt, row :: rest =>
    match RowPattMergeExt patt (MatrixGetRow M row).1 M.beg_row M.end_row with
    | none => none
    | some patt1 => mergeRowsExt M patt1 rest

/-- `ExchangeStoredRows` up to and including its call of `SendRequests`: the merged pattern
of the rows of `M`, then `SendRequests(comm, A, len, ind, &num_requests)`. -/
def ExchangeStoredRows_requests {K : Type} (A M : Matrix K) : Option (List Req × Nat) :=
  match mergeRowsExt M (RowPattCreate ROWPATT_MAXLEN) (localRows M) with
  | none => none
  | some patt => SendRequests A (RowPattGet patt)

/-- The matrix as process `p` holds it before the pattern is built: the blocks of all
processes, its own block, and no row stored (`MatrixCreate`). -/
def procMatrix (K : Type) (beg_rows end_rows : List Int) (p : Nat) : Matrix K :=
  { beg_row := beg_rows.getD p 0, end_row := end_rows.getD p 0, beg_rows := beg_rows,
    end_rows := end_rows, inds := fun _ => [], vals := fun _ => [] }

/-- What the build needs of process `p` in the global model: every local row is ready,
every index of a level-`L` pattern of a local row has an owner, and the level-`L` patterns
of the local rows together fit the capacity of a row pattern. -/
def ProcReady (K : Type) (beg_rows end_rows : List Int) (pr : PrunedRows) (L : Nat)
    (p : Nat) : Prop :=
  (∀ r ∈ localRows (procMatrix K beg_rows end_rows p),
      RowReady pr L (procMatrix K beg_rows end_rows p) r ∧
      ∀ x ∈ levelPattern pr L r,
        (MatrixRowPe (procMatrix K beg_rows end_rows p) x).isSome = true) ∧
    ((localRows (procMatrix K beg_rows end_rows p)).toFinset.biUnion
      (levelPattern pr L)).card ≤ ROWPATT_MAXLEN

instance (K : Type) (beg_rows end_rows : List Int) (pr : PrunedRows) (L : Nat) (p : Nat) :
    Decidable (ProcReady K beg_rows end_rows pr L p) := by
  unfold ProcReady
  infer_instance

/-- What `ConstructPatternForEachRow` returns on process `q` of the global model. -/
def procPattern (K : Type) [Zero K] (beg_rows end_rows : List Int) (pr : PrunedRows)
    (L : Nat) (q : Nat) : Option (Matrix K × Nat) :=
  ConstructPatternForEachRow pr L (procMatrix K beg_rows end_rows q)

/-- The REQ messages that process `q` sends in `ExchangeStoredRows`, for the pattern it has
built. -/
def procRequests (K : Type) [Zero K] (beg_rows end_rows : List Int) (pr : PrunedRows)
    (L : Nat) (q : Nat) : Option (List Req × Nat) :=
  match procPattern K beg_rows end_rows pr L q with
  | none => none
  | some (Mq, _) => ExchangeStoredRows_requests (procMatrix K beg_rows end_rows q) Mq

/-- `#define ABS(x) (((x)<0)?(-(x)):(x))`. -/
def ABS {K : Type} [LinearOrderedField K] (x : K) : K := if x < 0 then -x else x

/-- `INT_MAX` of limits.h for the 32-bit `int` of the platforms of the source. -/
def INT_MAX : Int := 2147483647

/-- `INT_MIN` of limits.h for the 32-bit `int` of the platforms of the source. -/
def INT_MIN : Int := -2147483648

/-- Truncation toward zero: the value of a conversion to `int` where it is defined. -/
def truncToZero (x : ℚ) : Int := if 0 ≤ x then ⌊x⌋ else ⌈x⌉

/-- The conversion `(int) x` of a `double`: truncation toward zero, and undefined (`none`)
when the truncated value is not an `int`. -/
def cTrunc (x : ℚ) : Option Int :=
  if INT_MIN ≤ truncToZero x ∧ truncToZero x ≤ INT_MAX then some (truncToZero x) else none

/-- The sum `a + b` of two `int`s, undefined (`none`) when it is not an `int`. -/
def intAdd (a b : Int) : Option Int :=
  if INT_MIN ≤ a + b ∧ a + b ≤ INT_MAX then some (a + b) else none

/-- The statement `i = (int) (len * param) + 1`, with `len` the length of the row.  In the
source `len` is an `int`; a list of more than `INT_MAX` entries is not a row of the source,
and for such a list the model does not bound the integers. -/
def selectRank (len : Nat) (param : ℚ) : Option Int :=
  if INT_MAX < (len : Int) then some (truncToZero ((len : ℚ) * param) + 1)
  else
    match cTrunc ((len : ℚ) * param) with
    | none => none
    | some t => intAdd t 1

/-- Modelled from the spec: `DiagScale` of DiagScale.c, which is absent; the diagonal
scaling, one scalar per global row. -/
structure DiagScale where
  scale : Int → ℚ

/-- Modelled from the spec: `DiagScaleGet`; `get(matrix, global_row) → scalar`. -/
def DiagScaleGet (ds : DiagScale) (_A : Matrix ℚ) (row : Int) : ℚ := ds.scale row

/-- Modelled from the spec: `randomized_select` of OrderStat.c, which is absent;
`randomized_select(a, p, r, i)` is the `i`-th smallest element of `a[p..r]`.  `none` when
the range is not inside `a` or the rank is not in `1..r-p+1`. -/
def randomized_select (a : List ℚ) (p r i : Int) : Option ℚ :=
  if 0 ≤ p ∧ p ≤ r ∧ r < a.length ∧ 1 ≤ i ∧ i ≤ r - p + 1 then
    (((a.drop p.toNat).take (r - p + 1).toNat).insertionSort (· ≤ ·)).get? (i - 1).toNat
  else none

/-- The fields of `ParaSails` that `ParaSailsSelectThresh` reads. -/
structure ParaSails where
  A : Matrix ℚ
  diag_scale : DiagScale

/-- The body of the row loop of `ParaSailsSelectThresh`: the scaled absolute values of the
row go to `buffer`, the rank `i = (int) (len * param) + 1` is computed, and the element of
that rank is selected.  `none` when the rank or the selection is undefined. -/
def selectThreshRow (ps : ParaSails) (param : ℚ) (row : Int) : Option ℚ :=
  match selectRank (MatrixGetRow ps.A row).1.length param with
  | none => none
  | some i =>
    randomized_select
      (List.zipWith
        (fun v j => DiagScaleGet ps.diag_scale ps.A row * ABS v * DiagScaleGet ps.diag_scale ps.A j)
        (MatrixGetRow ps.A row).2 (MatrixGetRow ps.A row).1)
      0 (((MatrixGetRow ps.A row).1.length : Int) - 1) i

/-- The row loop of `ParaSailsSelectThresh`, accumulating `localsum`. -/
def selectThreshLoop (ps : ParaSails) (param : ℚ) : List Int → ℚ → Option ℚ
  | [], localsum => some localsum
  | row :: rest, localsum =>
    match selectThreshRow ps param row with
    | none => none
    | some x => selectThreshLoop ps param rest (localsum + x)

/-- `MPI_Allreduce(&localsum, &sum, 1, MPI_DOUBLE, MPI_SUM, comm)`: the sum of the local
sums of all processes of the communicator. -/
def allreduceLocalsum (param : ℚ) : List ParaSails → Option ℚ
  | [] => some 0
  | q :: rest =>
    match selectThreshLoop q param (localRows q.A) 0 with
    | none => none
    | some localsum =>
      match allreduceLocalsum param rest with
      | none => none
      | some sum => some (localsum + sum)

/-- `ParaSailsSelectThresh(ps, param)` on one process, `comm` being all processes in rank
order.  `none` when a selection is undefined or the row count is zero. -/
def ParaSailsSelectThresh (comm : List ParaSails) (ps : ParaSails) (param : ℚ) : Option ℚ :=
  match allreduceLocalsum param comm with
  | none => none
  | some sum =>
    if ps.A.end_rows.getD (comm.length - 1) 0 - ps.A.beg_rows.getD 0 0 + 1 = 0 then none
    else
      some (sum / ((ps.A.end_rows.getD (comm.length - 1) 0 - ps.A.beg_rows.getD 0 0 + 1 : Int) : ℚ))

/-- The scaled absolute values `{|s(i)·A(i,j)·s(j)| : j in row i}`, as a list in row
order. -/
def scaledAbsRow (s : Int → ℚ) (A : Matrix ℚ) (row : Int) : List ℚ :=
  List.zipWith (fun v j => |s row * v * s j|) (A.vals row) (A.inds row)

/-- The `k`-th smallest element of a list, for `1 ≤ k ≤ length`. -/
def kthSmallest (l : List ℚ) (k : Int) : ℚ :=
  (l.insertionSort (· ≤ ·)).getD (k - 1).toNat 0

/-- The sum, over the rows of all processes, of a quantity of the row. -/
def sumOverRows (comm : List ParaSails) (f : ParaSails → Int → ℚ) : ℚ :=
  (comm.map (fun q => ((localRows q.A).map (f q)).sum)).sum

/-- The values `1, 2, …, n`. -/
def oneTo (n : Nat) : List ℚ := (List.range n).map (fun (k : Nat) => (k : ℚ) + 1)

/-- What the threshold selection needs of the processes: they share the scaling `s`, every
local row has as many values as indices, and no local row is empty. -/
def ThreshReady (s : Int → ℚ) (comm : List ParaSails) : Prop :=
  ∀ q ∈ comm, q.diag_scale.scale = s ∧
    ∀ r ∈ localRows q.A, (q.A.vals r).length = (q.A.inds r).length ∧ q.A.inds r ≠ []

/-- The global row count `end_rows[npes-1] - beg_rows[0] + 1` as process `ps` computes it. -/
def globalRowCount (comm : List ParaSails) (ps : ParaSails) : Int :=
  ps.A.end_rows.getD (comm.length - 1) 0 - ps.A.beg_rows.getD 0 0 + 1

/-- Process 0 of two, holding rows `0..1`; the absolute values of each row are a
permutation of `1, …, len`, and the scaling is 1. -/
def threshProc0 : ParaSails :=
  { A := { beg_row := 0, end_row := 1, beg_rows := [0, 2], end_rows := [1, 3],
           inds := fun r => if r = 0 then [0, 1] else [0, 1, 2, 3],
           vals := fun r => if r = 0 then [2, -1] else [-3, 4, 1, -2] },
    diag_scale := ⟨fun _ => 1⟩ }

/-- Process 1 of two, holding rows `2..3`. -/
def threshProc1 : ParaSails :=
  { A := { beg_row := 2, end_row := 3, beg_rows := [0, 2], end_rows := [1, 3],
           inds := fun r => if r = 2 then [1, 2, 3] else [3],
           vals := fun r => if r = 2 then [-1, 3, -2] else [1] },
    diag_scale := ⟨fun _ => 1⟩ }

/-- The two processes in rank order. -/
def threshComm : List ParaSails := [threshProc0, threshProc1]

/-! ## ComputeValues -/

/-- Modelled from the spec: `HASH_NOTFOUND` of Hash.h, which is absent; the value `lookup`
returns for a key that is not in the table, no slot of the table. -/
def HASH_NOTFOUND : Int := -1

/-- Modelled from the spec: `Hash` of Hash.c, which is absent; an open-address table from
global index to a slot in `[0, size)`.  An empty slot is `none`. -/
structure Hash where
  size : Nat
  table : List (Option Int)
deriving DecidableEq, Repr

/-- Modelled from the spec: `HashCreate`; a table of the given capacity, all slots empty. -/
def HashCreate (size : Nat) : Hash := ⟨size, List.replicate size none⟩

/-- The probe sequence of the table: from slot `loc`, one slot further at a time, until an
empty slot (`false`) or the key (`true`) is met; `none` after `fuel` occupied slots. -/
def Hash.probe (h : Hash) (key : Int) : Nat → Nat → Option (Nat × Bool)
  | 0, _ => none
  | fuel + 1, loc =>
    match h.table.getD loc none with
    | none => some (loc, false)
    | some k => if k = key then some (loc, true) else Hash.probe h key fuel ((loc + 1) % h.size)

/-- The first slot probed for a key: the key modulo the capacity. -/
def Hash.start (h : Hash) (key : Int) : Nat := (key % (h.size : Int)).toNat

/-- Modelled from the spec: `HashInsert`; `insert(key)` probes until an empty slot or the
key and returns the slot and the `inserted` flag.  `none` when every slot is taken by
another key. -/
def HashInsert (h : Hash) (key : Int) : Option (Int × Bool × Hash) :=
  match h.probe key h.size (h.start key) with
  | none => none
  | some (loc, true) => some ((loc : Int), false, h)
  | some (loc, false) => some ((loc : Int), true, { h with table := h.table.set loc (some key) })

/-- Modelled from the spec: `HashLookup`; `lookup(key)` returns the slot or NOT_FOUND. -/
def HashLookup (h : Hash) (key : Int) : Int :=
  match h.probe key h.size (h.start key) with
  | some (loc, true) => (loc : Int)
  | _ => HASH_NOTFOUND

/-- Modelled from the spec: `HashReset`; `reset(slot_list)` marks empty each of the first
`len` slots of the list. -/
def HashReset (h : Hash) (len : Nat) (index : List Int) : Hash :=
  (index.take len).foldl (fun h slot => { h with table := h.table.set slot.toNat none }) h

/-- The read `a[i]` of an array; `none` outside the array. -/
def arrGet {α : Type} (a : List α) (i : Int) : Option α :=
  if 0 ≤ i then a.get? i.toNat else none

/-- The write `a[i] = x` of an array; `none` outside the array. -/
def arrSet {α : Type} (a : List α) (i : Int) (x : α) : Option (List α) :=
  if 0 ≤ i ∧ i < a.length then some (a.set i.toNat x) else none

/-- Why `ComputeValues` calls `MPI_Abort`. -/
inductive AbortReason where
  | patternDefect
  | dpotrf (info : Int)
  | dpotrs (info : Int)
deriving DecidableEq, Repr

/-- How a run of `ComputeValues` ends other than by returning: `MPI_Abort` at a row, with
the matrix as it is then, or a step the C standard leaves undefined (a read or write
outside an array, a row that is not stored). -/
inductive Failure (K : Type) where
  | abort (row : Int) (why : AbortReason) (mat : Matrix K)
  | undefined

/-- The LAPACK routines and the square root that `ComputeValues` calls; they are not part
of the repository.  `dpotrf n a` returns the factor and `info`, `dpotrs n a b` the
solution and `info`. -/
structure Lapack (K : Type) where
  dpotrf : Nat → List K → List K × Int
  dpotrs : Nat → List K → List K → List K × Int
  sqrt : K → K

/-- The work arrays of `ComputeValues` and the matrix; `localIdx` is the array `local`
of the source. -/
structure ValState (K : Type) where
  hash : Hash
  index : List Int
  localIdx : List Int
  ahat : List K
  mat : Matrix K

/-- A step that the C standard leaves undefined when it yields nothing. -/
def orUndefined {K α : Type} (x : Option α) : Except (Failure K) α :=
  match x with
  | none => .error .undefined
  | some a => .ok a

/-- The loop "Insert global indices into hash table": for `ind[i]`, `itemp` is the slot,
`local[itemp] = i` and `index[i] = itemp`. -/
def insertIndices : Hash × List Int × List Int → List Int → Int →
    Option (Hash × List Int × List Int)
  | st, [], _ => some st
  | (hash, localIdx, index), key :: rest, i =>
    match HashInsert hash key with
    | none => none
    | some (itemp, _, hash1) =>
      match arrSet localIdx itemp i with
      | none => none
      | some local1 =>
        match arrSet index i itemp with
        | none => none
        | some index1 => insertIndices (hash1, local1, index1) rest (i + 1)

/-- The inner loop of "Form ahat matrix" for the stored row `(ind2, val2)`, with `ahatp`
at offset `off`: `loc = HashLookup(hash, ind2[j])` and, when found,
`ahatp[local[loc]] = val2[j]`. -/
def formAhatRow {K : Type} (hash : Hash) (localIdx : List Int) (off : Int) :
    List K → List Int → List K → Option (List K)
  | ahat, [], _ => some ahat
  | _, _ :: _, [] => none
  | ahat, c :: ind2, v :: val2 =>
    if HashLookup hash c ≠ HASH_NOTFOUND then
      match arrGet localIdx (HashLookup hash c) with
      | none => none
      | some l =>
        match arrSet ahat (off + l) v with
        | none => none
        | some ahat1 => formAhatRow hash localIdx off ahat1 ind2 val2
    else formAhatRow hash localIdx off ahat ind2 val2

/-- The outer loop of "Form ahat matrix" over the indices of the row; `ahatp` advances by
`len` for each of them. -/
def formAhat {K : Type} (stored_rows : StoredRows K) (hash : Hash) (localIdx : List Int)
    (len : Int) : List K → List Int → Int → Option (List K)
  | ahat, [], _ => some ahat
  | ahat, key :: rest, off =>
    match StoredRowsGet stored_rows key with
    | none => none
    | some (ind2, val2) =>
      match formAhatRow hash localIdx off ahat ind2 val2 with
      | none => none
      | some ahat1 => formAhat stored_rows hash localIdx len ahat1 rest (off + len)

/-- The write of the values of a row of the matrix through the pointer `val`. -/
def setVals {K : Type} (mat : Matrix K) (row : Int) (val : List K) : Matrix K :=
  { mat with vals := Function.update mat.vals row val }

/-- The body of the row loop of `ComputeValues` (the branch without `HYPRE_RS6000`);
`debug` says whether `DEBUG` is defined. -/
def ComputeValuesRow {K : Type} [LinearOrderedField K] (lapack : Lapack K) (debug : Bool)
    (stored_rows : StoredRows K) (st : ValState K) (row : Int) :
    Except (Failure K) (ValState K) := do
  let ind := (MatrixGetRow st.mat row).1
  let len := ind.length
  let (hash, localIdx, index) ← orUndefined (insertIndices (st.hash, st.localIdx, st.index) ind 0)
  let ahat ← orUndefined (if len * len ≤ st.ahat.length then
      some (List.replicate (len * len) 0 ++ st.ahat.drop (len * len)) else none)
  let ahat ← orUndefined (formAhat stored_rows hash localIdx len ahat ind 0)
  let val : List K := List.replicate len 0
  let loc := HashLookup hash row
  if debug && decide (loc = HASH_NOTFOUND) then
    .error (.abort row .patternDefect (setVals st.mat row val))
  else do
    let m ← orUndefined (arrGet localIdx loc)
    let val ← orUndefined (arrSet val m 1)
    let (ahat, info) := lapack.dpotrf len ahat
    if info ≠ 0 then .error (.abort row (.dpotrf info) (setVals st.mat row val))
    else do
      let (val, info) := lapack.dpotrs len ahat val
      if info ≠ 0 then .error (.abort row (.dpotrs info) (setVals st.mat row val))
      else do
        let x ← orUndefined (arrGet val m)
        let temp := 1 / lapack.sqrt (ABS x)
        .ok { hash := HashReset hash len index, index := index, localIdx := localIdx,
              ahat := ahat, mat := setVals st.mat row (val.map (fun v => v * temp)) }

/-- The row loop of `ComputeValues`. -/
def ComputeValuesRows {K : Type} [LinearOrderedField K] (lapack : Lapack K) (debug : Bool)
    (stored_rows : StoredRows K) : ValState K → List Int → Except (Failure K) (ValState K)
  | st, [] => .ok st
  | st, row :: rest =>
    match ComputeValuesRow lapack debug stored_rows st row with
    | .error e => .error e
    | .ok st1 => ComputeValuesRows lapack debug stored_rows st1 rest

/-- The loop "Determine the length of the longest row of M on this processor". -/
def longestRow {K : Type} (mat : Matrix K) : Nat :=
  (localRows mat).foldl (fun maxlen row =>
    if (MatrixGetRow mat row).1.length > maxlen then (MatrixGetRow mat row).1.length
    else maxlen) 0

/-- `ComputeValues(stored_rows, mat)`: the matrix with its values computed.  The work
arrays are allocated for the longest row. -/
def ComputeValues {K : Type} [LinearOrderedField K] (lapack : Lapack K) (debug : Bool)
    (stored_rows : StoredRows K) (mat : Matrix K) : Except (Failure K) (Matrix K) :=
  match ComputeValuesRows lapack debug stored_rows
      { hash := HashCreate (4 * longestRow mat + 1),
        index := List.replicate (4 * longestRow mat + 1) 0,
        localIdx := List.replicate (4 * longestRow mat + 1) 0,
        ahat := List.replicate (longestRow mat * longestRow mat) 0,
        mat := mat } (localRows mat) with
  | .error e => .error e
  | .ok st => .ok st.mat

/-- Invariant of the hash table and the array `local` while the pattern `J` of a row of
length `len` is inserted: the two have the capacity of the table, and every occupied slot
holds an index of `J` and has a local index in `[0, len)`. -/
def HashInv (len : Int) (J : List Int) (hash : Hash) (localIdx : List Int) : Prop :=
  hash.table.length = hash.size ∧ localIdx.length = hash.size ∧
    ∀ (s : Nat) (k : Int), hash.table.getD s none = some k →
      k ∈ J ∧ ∃ l, arrGet localIdx (s : Int) = some l ∧ 0 ≤ l ∧ l < len

/-- Stand-ins for the LAPACK routines that leave the factor and the right-hand side as they
are and report success; the runs below do not reach them. -/
def idleLapack : Lapack ℚ :=
  { dpotrf := fun _ a => (a, 0), dpotrs := fun _ _ b => (b, 0), sqrt := fun x => x }

/-- A process holding the single row 1, whose stored pattern is the column 0 alone, with a
value already in place. -/
def defectM : Matrix ℚ :=
  { beg_row := 1, end_row := 1, beg_rows := [0, 1], end_rows := [0, 1],
    inds := fun r => if r = 1 then [0] else [], vals := fun r => if r = 1 then [5] else [] }

/-- The stored rows of that process: its own row 1 of `A`, and the fetched row 0. -/
def defectStored : StoredRows ℚ :=
  { mat := { beg_row := 1, end_row := 1, beg_rows := [0, 1], end_rows := [0, 1],
             inds := fun r => if r = 1 then [0, 1] else [],
             vals := fun r => if r = 1 then [-1, 2] else [] },
    ext := fun r => if r = 0 then some ([0, 1], [2, -1]) else none }

/-- The work arrays as `ComputeValues` allocates them for `defectM`. -/
def defectState : ValState ℚ :=
  { hash := HashCreate 5, index := List.replicate 5 0, localIdx := List.replicate 5 0,
    ahat := List.replicate 1 0, mat := defectM }

/-! ## ExchangePrunedRows and ExchangeStoredRows -/

/-- The loop of `ExchangePrunedRows` that merges the external part of every local pruned
row into `patt`. -/
def mergePrunedExt {K : Type} (M : Matrix K) (pr : PrunedRows) :
    RowPatt → List Int → Option RowPatt
  | patt, [] => some patt
  | patt, row :: rest =>
    match PrunedRowsGet pr row with
    | none => none
    | some ind =>
      match RowPattMergeExt patt ind M.beg_row M.end_row with
      | none => none
      | some patt1 => mergePrunedExt M pr patt1 rest

/-- What a process receives from the other processes during `ExchangePrunedRows`:
`request level i` is the source and the indices that the `i`-th `ReceiveRequest` of the
level delivers, and `reply level m` is the REPI message that comes back for the REQ `m`
sent at that level, `none` when none comes.  Replies are received in the order of the
REQs. -/
structure PrunedEnv where
  request : Nat → Nat → Nat × List Int
  reply : Nat → Req → Option (List Int)

/-- What a process does towards the others during `ExchangePrunedRows`: the list passed to
each call of `SendRequests` with the `num_requests` it returned, the REQ messages sent and
the REPI messages sent. -/
structure PrunedTrace where
  calls : List (List Int × Nat)
  reqs : List Req
  repis : List PrunedReply

/-- The loop `for (i=0; i<num_requests; i++)` with `ReceiveRequest` and
`SendReplyPrunedRows`; the first argument counts the passes left. -/
def servePruned (env : PrunedEnv) (level : Nat) (pr : PrunedRows) :
    Nat → Nat → List PrunedReply → Option (List PrunedReply)
  | 0, _, sent => some sent
  | n + 1, i, sent =>
    match SendReplyPrunedRows (env.request level i).1 (env.request level i).2 pr with
    | none => none
    | some reply => servePruned env level pr n (i + 1) (sent ++ [reply])

/-- The loop `for (i=0; i<num_requests; i++)` with `ReceiveReplyPrunedRows`, one pass for
each REQ sent. -/
def receivePruned {K : Type} (env : PrunedEnv) (level : Nat) (M : Matrix K) :
    PrunedRows × RowPatt → List Req → Option (PrunedRows × RowPatt)
  | st, [] => some st
  | (pr, patt), m :: rest =>
    match env.reply level m with
    | none => none
    | some msg =>
      match ReceiveReplyPrunedRows msg pr patt M with
      | none => none
      | some st1 => receivePruned env level M st1 rest

/-- The loop `for (level=1; level<=num_levels; level++)` of `ExchangePrunedRows`; the first
argument counts the levels left. -/
def exchangePrunedLevels {K : Type} (env : PrunedEnv) (M : Matrix K) :
    Nat → Nat → PrunedRows × RowPatt × PrunedTrace → Option (PrunedRows × RowPatt × PrunedTrace)
  | 0, _, st => some st
  | n + 1, level, (pr, patt, tr) =>
    match SendRequests M (RowPattPrevLevel patt).1 with
    | none => none
    | some (reqs, num_requests) =>
      match servePruned env level pr num_requests 0 [] with
      | none => none
      | some repis =>
        match receivePruned env level M (pr, (RowPattPrevLevel patt).2) reqs with
        | none => none
        | some (pr1, patt1) =>
          exchangePrunedLevels env M n (level + 1)
            (pr1, patt1,
              { calls := tr.calls ++ [((RowPattPrevLevel patt).1, num_requests)],
                reqs := tr.reqs ++ reqs, repis := tr.repis ++ repis })

/-- `ExchangePrunedRows(comm, M, pruned_rows, num_levels)` on one process: the pruned rows
afterwards, the merged pattern, and what was sent. -/
def ExchangePrunedRows {K : Type} (env : PrunedEnv) (M : Matrix K) (pruned_rows : PrunedRows)
    (num_levels : Nat) : Option (PrunedRows × RowPatt × PrunedTrace) :=
  match mergePrunedExt M pruned_rows (RowPattCreate ROWPATT_MAXLEN) (localRows M) with
  | none => none
  | some patt => exchangePrunedLevels env M num_levels 1 (pruned_rows, patt, ⟨[], [], []⟩)

/-- What a process receives from the other processes during `ExchangeStoredRows`:
`request i` is what the `i`-th `ReceiveRequest` delivers, and `reply m` is the pair of the
REPI and the REPV message that comes back for the REQ `m`. -/
structure StoredEnv (K : Type) where
  request : Nat → Nat × List Int
  reply : Req → Option (List Int × List K)

/-- What a process does towards the others during `ExchangeStoredRows`: the list passed to
`SendRequests` with the `num_requests` it returned, the REQ messages sent and the replies
sent, each a REPI and a REPV message. -/
structure StoredTrace (K : Type) where
  call : List Int × Nat
  reqs : List Req
  replies : List (StoredReply K)

/-- The loop `for (i=0; i<num_replies; i++)` with `ReceiveRequest` and
`SendReplyStoredRows`; the first argument counts the passes left. -/
def serveStored {K : Type} (env : StoredEnv K) (sr : StoredRows K) :
    Nat → Nat → List (StoredReply K) → Option (List (StoredReply K))
  | 0, _, sent => some sent
  | n + 1, i, sent =>
    match SendReplyStoredRows (env.request i).1 (env.request i).2 sr with
    | none => none
    | some reply => serveStored env sr n (i + 1) (sent ++ [reply])

/-- The loop `for (i=0; i<num_requests; i++)` with `ReceiveReplyStoredRows`, one pass for
each REQ sent. -/
def receiveStored {K : Type} (env : StoredEnv K) :
    StoredRows K → List Req → Option (StoredRows K)
  | sr, [] => some sr
  | sr, m :: rest =>
    match env.reply m with
    | none => none
    | some (repi, repv) =>
      match ReceiveReplyStoredRows repi repv sr with
      | none => none
      | some sr1 => receiveStored env sr1 rest

/-- `ExchangeStoredRows(comm, A, M, stored_rows, num_replies)` on one process: the stored
rows afterwards and what was sent. -/
def ExchangeStoredRows {K : Type} (env : StoredEnv K) (A M : Matrix K)
    (stored_rows : StoredRows K) (num_replies : Nat) :
    Option (StoredRows K × StoredTrace K) :=
  match mergeRowsExt M (RowPattCreate ROWPATT_MAXLEN) (localRows M) with
  | none => none
  | some patt =>
    match SendRequests A (RowPattGet patt) with
    | none => none
    | some (reqs, num_requests) =>
      match serveStored env stored_rows num_replies 0 [] with
      | none => none
      | some replies =>
        match receiveStored env stored_rows reqs with
        | none => none
        | some sr1 => some (sr1, ⟨(RowPattGet patt, num_requests), reqs, replies⟩)

/-- The pruned rows of a single process: every local row is present and all its column
indices are local rows. -/
def LocalOnly {K : Type} (M : Matrix K) (pr : PrunedRows) : Prop :=
  ∀ r ∈ localRows M, (pr.rows r).isSome = true ∧ ∀ j ∈ (pr.rows r).getD [], j ∈ localRows M

instance {K : Type} (M : Matrix K) (pr : PrunedRows) : Decidable (LocalOnly M pr) := by
  unfold LocalOnly
  infer_instance

/-- The only process of a run with `P = 1`, owning rows `0..7`, with no row stored yet. -/
def oneBlock : Matrix ℚ :=
  { beg_row := 0, end_row := 7, beg_rows := [0], end_rows := [7],
    inds := fun _ => [], vals := fun _ => [] }

/-- Surroundings in which no message ever arrives. -/
def silentPruned : PrunedEnv := ⟨fun _ _ => (0, []), fun _ _ => none⟩

/-- Surroundings in which no message ever arrives. -/
def silentStored : StoredEnv ℚ := ⟨fun _ => (0, []), fun _ => none⟩

/-! ## The order of the blocks -/

/-- The blocks follow the ranks: the block of a lower rank ends before the block of a
higher rank begins. -/
def RankOrdered (beg_rows end_rows : List Int) : Prop :=
  ∀ b, b < beg_rows.length → ∀ a, a < b → end_rows.getD a 0 < beg_rows.getD b 0

instance (beg_rows end_rows : List Int) : Decidable (RankOrdered beg_rows end_rows) := by
  unfold RankOrdered
  infer_instance

/-! ## Two scenarios of the spec -/

/-- The surroundings of process `me` in which every REQ is answered with the rows of `G`
and the arriving requests ask for no row. -/
def ownerEnv (G : PrunedRows) (me : Nat) : PrunedEnv :=
  { request := fun _ _ => (me, []),
    reply := fun _ m => (SendReplyPrunedRows me m.body G).map PrunedReply.indbuf }

/-- The pruned rows that the process of `M` holds before the exchange: its local rows of
`G`. -/
def localPart {K : Type} (M : Matrix K) (G : PrunedRows) : PrunedRows :=
  ⟨fun r => if M.beg_row ≤ r ∧ r ≤ M.end_row then G.rows r else none⟩

/-- What `ConstructPatternForEachRow` returns on process `q` of the global model after
`ExchangePrunedRows`, both with `L` levels, from the local rows of `G`. -/
def procPatternExchanged (K : Type) [Zero K] (beg_rows end_rows : List Int) (G : PrunedRows)
    (L : Nat) (q : Nat) : Option (Matrix K × Nat) :=
  match ExchangePrunedRows (ownerEnv G q) (procMatrix K beg_rows end_rows q)
      (localPart (procMatrix K beg_rows end_rows q) G) L with
  | none => none
  | some (pr, _, _) => ConstructPatternForEachRow pr L (procMatrix K beg_rows end_rows q)

/-- The global row of the grid point `(i, j)` of the 4×4 grid: the quadrant
`(i / 2, j / 2)` is the block of rank `2 * (i / 2) + j / 2`, and the points of a quadrant
are numbered row by row. -/
def gridRow (i j : Int) : Int :=
  4 * (2 * (i / 2) + j / 2) + 2 * (i % 2) + j % 2

/-- The grid points `(i, j)` of the 4×4 grid. -/
def gridPoints : List (Int × Int) :=
  (List.range 4).flatMap (fun (i : Nat) => (List.range 4).map (fun (j : Nat) => ((i : Int), (j : Int))))

/-- The row of the 5-point Laplacian at the grid point `(i, j)`: the point itself, then its
neighbours in the grid. -/
def laplaceRow (i j : Int) : List Int :=
  [gridRow i j] ++ (if 0 < i then [gridRow (i - 1) j] else []) ++
    (if i < 3 then [gridRow (i + 1) j] else []) ++
    (if 0 < j then [gridRow i (j - 1)] else []) ++
    (if j < 3 then [gridRow i (j + 1)] else [])

/-- The pruned rows of the 5-point Laplacian on the 4×4 grid with every nonzero kept,
diagonal first. -/
def laplacePruned : PrunedRows :=
  ⟨fun r => (gridPoints.find? (fun ij => decide (gridRow ij.1 ij.2 = r))).map
    (fun ij => laplaceRow ij.1 ij.2)⟩

/-- The `num_replies` that `ConstructPatternForEachRow` returns on each of the four
processes, one quadrant each, rows `4p .. 4p+3` on rank `p`. -/
def laplaceReplies (L : Nat) : List (Option Nat) :=
  (List.range 4).map (fun p =>
    (procPattern ℚ [0, 4, 8, 12] [3, 7, 11, 15] laplacePruned L p).map Prod.snd)

/-- The pruned rows of `tridiag(−1, 2, −1)` with rows `0..15` and every nonzero kept
(`θ = 0`), diagonal first. -/
def triPruned16 : PrunedRows :=
  ⟨fun r => if 0 ≤ r ∧ r ≤ 15 then
      some ([r] ++ (if 0 < r then [r - 1] else []) ++ (if r < 15 then [r + 1] else []))
    else none⟩

/-- The rows that `ConstructPatternForEachRow` stores in `M` on process `p` of two, rows
`0..7` on rank 0 and `8..15` on rank 1: each local row with its column list. -/
def triStoredPattern (L : Nat) (p : Nat) : Option (List (Int × List Int)) :=
  (procPattern ℚ [0, 8] [7, 15] triPruned16 L p).map
    (fun x => (localRows x.1).map (fun r => (r, x.1.inds r)))

/-! ## Lookups and the entries of `ahat` -/

/-- The probe for `key` ends at slot `s`, which holds the key. -/
def Finds (h : Hash) (key : Int) (s : Nat) : Prop :=
  h.probe key h.size (h.start key) = some (s, true)

/-- Following the spec's words "`A(i, j)` if column `j` occurs in `StoredRows[i]`": the
value that the stored row `i` holds at column `j`; `none` when the column does not occur
in the row or the row is absent. -/
def storedEntry {K : Type} (sr : StoredRows K) (i j : Int) : Option K :=
  match StoredRowsGet sr i with
  | none => none
  | some (ind, val) => (ind.zip val).lookup j

/-- The work arrays as `ComputeValues` allocates them on the owner of rows `4..7`, for a
matrix whose row 5 has the pattern `5, 4` and whose other rows are empty. -/
def pairState : ValState ℚ :=
  { hash := HashCreate 9, index := List.replicate 9 0, localIdx := List.replicate 9 0,
    ahat := List.replicate 4 7,
    mat := { beg_row := 4, end_row := 7, beg_rows := [0, 4], end_rows := [3, 7],
             inds := fun r => if r = 5 then [5, 4] else [],
             vals := fun r => if r = 5 then [0, 0] else [] } }

/-! ## Isolated rows -/

/-- The LAPACK routines and the square root are exact on the 1×1 system with the entry
`a`: `dpotrf` succeeds and leaves the factor `l > 0`, `l * l = a`, in place of `a`,
`dpotrs` with that factor and the right-hand side 1 succeeds and returns `1 / a`, and
`sqrt` returns the positive root of `|1 / a|`. -/
def ExactOneByOne {K : Type} [LinearOrderedField K] (lapack : Lapack K) (a : K) : Prop :=
  ∃ l : K, 0 < l ∧ l * l = a ∧
    (∀ rest, ∃ rest', lapack.dpotrf 1 (a :: rest) = (l :: rest', 0) ∧
      rest'.length = rest.length) ∧
    (∀ rest, lapack.dpotrs 1 (l :: rest) [1] = ([1 / a], 0)) ∧
    0 < lapack.sqrt (ABS (1 / a)) ∧
    lapack.sqrt (ABS (1 / a)) * lapack.sqrt (ABS (1 / a)) = ABS (1 / a)

/-- Stand-ins for the LAPACK routines and the square root that are exact on the 1×1
systems with the entry 1, 4 or 1/4. -/
def squareLapack : Lapack ℚ :=
  { dpotrf := fun _ a =>
      match a with
      | [] => ([], 1)
      | x :: rest => ((if x = 4 then 2 else if x = 1 / 4 then 1 / 2 else x) :: rest, 0),
    dpotrs := fun _ fac b =>
      match fac with
      | [] => (b, 1)
      | l :: _ => (b.map (fun y => y / (l * l)), 0),
    sqrt := fun x => if x = 4 then 2 else if x = 1 / 4 then 1 / 2 else x }

/-- A process owning rows `4..7`, each row of `M` with its own index as the only column
and no value yet. -/
def isolatedM : Matrix ℚ :=
  { beg_row := 4, end_row := 7, beg_rows := [0, 4], end_rows := [3, 7],
    inds := fun r => [r], vals := fun _ => [0] }

/-- The stored rows of that process for the matrix with the diagonal entry `d`. -/
def diagonalStored (d : ℚ) : StoredRows ℚ :=
  { mat := { beg_row := 4, end_row := 7, beg_rows := [0, 4], end_rows := [3, 7],
             inds := fun r => [r], vals := fun _ => [d] },
    ext := fun _ => none }

/-- The work arrays as `ComputeValues` allocates them for `isolatedM`. -/
def isolatedState : ValState ℚ :=
  { hash := HashCreate 5, index := List.replicate 5 0, localIdx := List.replicate 5 0,
    ahat := List.replicate 1 0, mat := isolatedM }

/-! ## The invariant of the exchange of pruned rows -/

/-- What the exchange of pruned rows with `L` levels needs of the pruned rows `G` of all
processes, seen from the process of `M`: every local row is ready for the pattern
construction, every index of a pattern of a level below `L` has an owner, and the level-`L`
patterns of the local rows together fit the capacity of a row pattern. -/
def ExchangeReady {K : Type} (M : Matrix K) (G : PrunedRows) (L : Nat) : Prop :=
  (∀ r ∈ localRows M, RowReady G L M r ∧
      ∀ k, k < L → ∀ i ∈ levelPattern G k r, (MatrixRowPe M i).isSome = true) ∧
    ((localRows M).toFinset.biUnion (levelPattern G L)).card ≤ ROWPATT_MAXLEN

instance {K : Type} (M : Matrix K) (G : PrunedRows) (L : Nat) :
    Decidable (ExchangeReady M G L) := by
  unfold ExchangeReady
  infer_instance

/-- Invariant of the level loop of `ExchangePrunedRows` after `l` levels, with `G` the
pruned rows of all processes and `pr0` the pruned rows at the start: the members of `patt`
are distinct and are the external indices of the level-`l` patterns of the local rows; the
frontier lies among the members; a member outside the frontier has been requested, is
bound as in `G`, and the external indices of its row are members; the local rows are as in
`G`; the external indices of the patterns of the levels below `l` are members outside the
frontier; the rows requested so far are the members outside the frontier and are present in
`G`; and no other binding has changed. -/
def ExchangeInv {K : Type} (M : Matrix K) (G pr0 : PrunedRows) (l : Nat) (pr : PrunedRows)
    (patt : RowPatt) (tr : PrunedTrace) : Prop :=
  patt.ind.Nodup ∧ patt.maxlen = ROWPATT_MAXLEN ∧
  (∀ x ∈ patt.ind, (x < M.beg_row ∨ M.end_row < x) ∧
    ∃ r ∈ localRows M, x ∈ levelPattern G l r) ∧
  (∀ r ∈ localRows M, ∀ x ∈ levelPattern G l r,
    (x < M.beg_row ∨ M.end_row < x) → x ∈ patt.ind) ∧
  (∀ x ∈ patt.frontier, x ∈ patt.ind) ∧
  (∀ x ∈ patt.ind, x ∉ patt.frontier → pr.rows x = G.rows x ∧
    ∀ j ∈ (G.rows x).getD [], (j < M.beg_row ∨ M.end_row < j) → j ∈ patt.ind) ∧
  (∀ r ∈ localRows M, pr.rows r = G.rows r) ∧
  (∀ r ∈ localRows M, ∀ k, k < l → ∀ x ∈ levelPattern G k r,
    (x < M.beg_row ∨ M.end_row < x) → x ∈ patt.ind ∧ x ∉ patt.frontier) ∧
  (∀ x, x ∈ tr.reqs.flatMap Req.body ↔ x ∈ patt.ind ∧ x ∉ patt.frontier) ∧
  (∀ x, x ∉ tr.reqs.flatMap Req.body → pr.rows x = pr0.rows x) ∧
  (∀ x ∈ tr.reqs.flatMap Req.body, (G.rows x).isSome = true) ∧
  tr.calls.length = l

/-- The pruned rows that process 0 of two holds before the exchange: its rows `0..3` of the
tridiagonal pattern. -/
def triLocal : PrunedRows :=
  ⟨fun r => if 0 ≤ r ∧ r ≤ 3 then triPruned.rows r else none⟩

/-- The surroundings of process 0 of two: every REQ is answered with the rows of the
tridiagonal pattern, and every arriving request is process 1 asking for row 3. -/
def triEnv : PrunedEnv :=
  { request := fun _ _ => (1, [3]),
    reply := fun _ m => (SendReplyPrunedRows 0 m.body triPruned).map PrunedReply.indbuf }

/-! ## Theorems -/

/-- C1 (as amended): with `u` and `v` distinct buffers, after `ParaSailsApply(ps, u, v)`
the buffer `v` holds `Mᵀ·(M·u)` and the buffer `u` is unchanged. -/
theorem ParaSailsApply_spec {n : Nat} (M : Dense n) (u v : Nat) (mem : Bufs n)
    (huv : u ≠ v) :
    ParaSailsApply M u v mem v = mulVecTrans M (mulVec M (mem u)) ∧
      ParaSailsApply M u v mem u = mem u := by
  unfold ParaSailsApply MatrixMatvecTrans MatrixMatvec
  refine ⟨?_, ?_⟩
  · simp
  · rw [Function.update_noteq huv, Function.update_noteq huv]

/-- C1 witness: the amended statement at the 2-by-2 lower triangular matrix. -/
theorem ParaSailsApply_spec_witness :
    ParaSailsApply lowerTwo 0 1 unitBufs 1 = mulVecTrans lowerTwo (mulVec lowerTwo (unitBufs 0)) ∧
      ParaSailsApply lowerTwo 0 1 unitBufs 0 = unitBufs 0 :=
  ParaSailsApply_spec lowerTwo 0 1 unitBufs (by decide)

/-- C1 counterexample: for a 2-by-2 lower triangular `M` and `u = e₀` in a buffer distinct
from `v`, the result of `ParaSailsApply` is not `M·(Mᵀ·u)`. -/
theorem ParaSailsApply_not_M_Mt :
    ¬ (ParaSailsApply lowerTwo 0 1 unitBufs 1 = mulVec lowerTwo (mulVecTrans lowerTwo (unitBufs 0))) := by
  intro h
  have h0 := congrFun h 0
  simp [ParaSailsApply, MatrixMatvecTrans, MatrixMatvec, mulVec, mulVecTrans, lowerTwo,
    unitBufs, Fin.sum_univ_two] at h0

/-! ### Owners of rows -/

theorem inBlock_iff {K : Type} (mat : Matrix K) (pe : Nat) (row : Int) :
    inBlock mat pe row = true ↔
      mat.beg_rows.getD pe 0 ≤ row ∧ row ≤ mat.end_rows.getD pe 0 := by
  simp [inBlock]

theorem MatrixRowPe_some {K : Type} {mat : Matrix K} {row : Int} {pe : Nat}
    (h : MatrixRowPe mat row = some pe) : pe < mat.npes ∧ inBlock mat pe row = true := by
  unfold MatrixRowPe at h
  have h1 := List.find?_some h
  have h2 := List.mem_of_find?_eq_some h
  exact ⟨List.mem_range.mp h2, h1⟩

theorem MatrixRowPe_of_inBlock {K : Type} {mat : Matrix K} (hd : DisjointBlocks mat)
    {row : Int} {pe : Nat} (hpe : pe < mat.npes) (hin : inBlock mat pe row = true) :
    MatrixRowPe mat row = some pe := by
  cases hfind : MatrixRowPe mat row with
  | none =>
    unfold MatrixRowPe at hfind
    rw [List.find?_eq_none] at hfind
    exact absurd hin (hfind pe (List.mem_range.mpr hpe))
  | some q =>
    obtain ⟨hq, hqin⟩ := MatrixRowPe_some hfind
    by_cases hqp : q = pe
    · rw [hqp]
    · exact absurd ⟨hqin, hin⟩ (hd q pe hq hpe hqp row)

theorem MatrixRowPe_isSome_of_covered {K : Type} {mat : Matrix K} {l : List Int}
    (hc : Covered mat l) {x : Int} (hx : x ∈ l) : ∃ pe, MatrixRowPe mat x = some pe := by
  obtain ⟨p, hp, hin⟩ := hc x hx
  cases hfind : MatrixRowPe mat x with
  | none =>
    unfold MatrixRowPe at hfind
    rw [List.find?_eq_none] at hfind
    exact absurd hin (hfind p (List.mem_range.mpr hp))
  | some q => exact ⟨q, rfl⟩

/-- In a sorted list that starts inside a block, what is left after dropping the leading
run of the block lies wholly outside the block. -/
theorem dropWhile_inBlock_outside {K : Type} (mat : Matrix K) (pe : Nat) (x : Int)
    (rest : List Int) (hs : (x :: rest).Sorted (· ≤ ·)) (hx : inBlock mat pe x = true) :
    ∀ z ∈ rest.dropWhile (inBlock mat pe), inBlock mat pe z = false := by
  induction rest with
  | nil => simp
  | cons y t ih =>
    have hxy : x ≤ y := List.rel_of_sorted_cons hs y (List.mem_cons_self _ _)
    have hst : (y :: t).Sorted (· ≤ ·) := List.Sorted.of_cons hs
    have hxt : (x :: t).Sorted (· ≤ ·) :=
      List.sorted_cons.mpr
        ⟨fun b hb => List.rel_of_sorted_cons hs b (List.mem_cons_of_mem _ hb),
          List.Sorted.of_cons hst⟩
    by_cases hy : inBlock mat pe y = true
    · rw [List.dropWhile_cons_of_pos hy]
      exact ih hxt
    · rw [List.dropWhile_cons_of_neg hy]
      intro z hz
      have hyz : y ≤ z := by
        rcases List.mem_cons.mp hz with h | h
        · rw [h]
        · exact List.rel_of_sorted_cons hst z h
      rw [inBlock_iff] at hx
      have hy2 : ¬ (mat.beg_rows.getD pe 0 ≤ y ∧ y ≤ mat.end_rows.getD pe 0) := by
        rw [← inBlock_iff]; exact hy
      cases hz2 : inBlock mat pe z with
      | false => rfl
      | true =>
        rw [inBlock_iff] at hz2
        exact absurd ⟨le_trans hx.1 hxy, le_trans hyz hz2.2⟩ hy2

/-! ### The grouping loop of `SendRequests` -/

/-- The loop of `SendRequests` on a sorted, covered list with enough fuel: it returns, the
bodies sent concatenate to the list, every body is non-empty and owned by its destination,
and no destination occurs twice. -/
theorem SendRequests.loop_spec {K : Type} (mat : Matrix K) (hd : DisjointBlocks mat) :
    ∀ (fuel : Nat) (l : List Int) (sent : List Req) (n : Nat),
      l.Sorted (· ≤ ·) → Covered mat l → l.length ≤ fuel →
      ∃ out : List Req,
        SendRequests.loop mat fuel l (sent, n) = some (sent ++ out, n + out.length) ∧
        (out.map Req.body).flatten = l ∧
        (∀ m ∈ out, m.body ≠ [] ∧ ∀ x ∈ m.body, MatrixRowPe mat x = some m.dest) ∧
        (out.map Req.dest).Nodup := by
  intro fuel
  induction fuel with
  | zero =>
    intro l sent n _ _ hlen
    have hl : l = [] := List.length_eq_zero.mp (Nat.le_zero.mp hlen)
    subst hl
    exact ⟨[], by simp [SendRequests.loop], by simp, by simp, by simp⟩
  | succ fuel ih =>
    intro l sent n hs hc hlen
    cases l with
    | nil => exact ⟨[], by simp [SendRequests.loop], by simp, by simp, by simp⟩
    | cons x rest =>
      obtain ⟨pe, hpe⟩ := MatrixRowPe_isSome_of_covered hc (List.mem_cons_self x rest)
      obtain ⟨hlt, hin⟩ := MatrixRowPe_some hpe
      have hout := dropWhile_inBlock_outside mat pe x rest hs hin
      have hsub : List.Sublist (rest.dropWhile (inBlock mat pe)) rest := List.dropWhile_sublist _
      have hs' : (rest.dropWhile (inBlock mat pe)).Sorted (· ≤ ·) :=
        List.Pairwise.sublist hsub (List.Sorted.of_cons hs)
      have hc' : Covered mat (rest.dropWhile (inBlock mat pe)) :=
        fun z hz => hc z (List.mem_cons_of_mem _ (hsub.subset hz))
      have hlen' : (rest.dropWhile (inBlock mat pe)).length ≤ fuel := by
        have h1 := hsub.length_le
        simp only [List.length_cons] at hlen
        omega
      obtain ⟨out, h1, h2, h3, h4⟩ :=
        ih (rest.dropWhile (inBlock mat pe))
          (sent ++ [⟨pe, x :: rest.takeWhile (inBlock mat pe)⟩]) (n + 1) hs' hc' hlen'
      refine ⟨⟨pe, x :: rest.takeWhile (inBlock mat pe)⟩ :: out, ?_, ?_, ?_, ?_⟩
      · simp only [SendRequests.loop, hpe, h1, List.length_cons, List.append_assoc,
          List.singleton_append]
        congr 2
        omega
      · simp [h2]
      · intro m hm
        rcases List.mem_cons.mp hm with h | h
        · subst h
          refine ⟨by simp, ?_⟩
          intro y hy
          rcases List.mem_cons.mp hy with hy | hy
          · rw [hy]; exact hpe
          · exact MatrixRowPe_of_inBlock hd hlt (List.mem_takeWhile_imp hy)
        · exact h3 m h
      · rw [List.map_cons, List.nodup_cons]
        refine ⟨?_, h4⟩
        intro hmem
        obtain ⟨m, hm, hmd⟩ := List.mem_map.mp hmem
        obtain ⟨hne, hown⟩ := h3 m hm
        obtain ⟨y, hy⟩ := List.exists_mem_of_ne_nil _ hne
        have hy' : y ∈ rest.dropWhile (inBlock mat pe) := by
          rw [← h2]
          exact List.mem_flatten.mpr ⟨m.body, List.mem_map.mpr ⟨m, hm, rfl⟩, hy⟩
        have hyin := (MatrixRowPe_some (hown y hy)).2
        rw [hmd, hout y hy'] at hyin
        exact Bool.false_ne_true hyin

/-- The whole of `SendRequests` on disjoint blocks that cover the requested indices. -/
theorem SendRequests_spec {K : Type} (mat : Matrix K) (reqind : List Int)
    (hd : DisjointBlocks mat) (hc : Covered mat reqind) :
    ∃ sent : List Req,
      SendRequests mat reqind = some (sent, sent.length) ∧
      (sent.map Req.dest).Nodup ∧
      (∀ p, p ∈ sent.map Req.dest ↔ ∃ x ∈ reqind, MatrixRowPe mat x = some p) ∧
      sent.length = ((reqind.map (MatrixRowPe mat)).dedup).length ∧
      (∀ m ∈ sent, m.body ≠ [] ∧ m.body.Sorted (· ≤ ·) ∧
        ∀ x ∈ m.body, MatrixRowPe mat x = some m.dest) ∧
      (sent.map Req.body).flatten = shell_sort reqind ∧
      (shell_sort reqind).Sorted (· ≤ ·) ∧ (shell_sort reqind).Perm reqind := by
  have hsorted : (shell_sort reqind).Sorted (· ≤ ·) := List.sorted_insertionSort _ reqind
  have hperm : (shell_sort reqind).Perm reqind := List.perm_insertionSort _ reqind
  have hc' : Covered mat (shell_sort reqind) := fun x hx => hc x (hperm.subset hx)
  have hlen : (shell_sort reqind).length ≤ reqind.length := le_of_eq hperm.length_eq
  obtain ⟨out, h1, h2, h3, h4⟩ :=
    SendRequests.loop_spec mat hd reqind.length (shell_sort reqind) [] 0 hsorted hc' hlen
  have hmem : ∀ p, p ∈ out.map Req.dest ↔ ∃ x ∈ reqind, MatrixRowPe mat x = some p := by
    intro p
    constructor
    · intro hp
      obtain ⟨m, hm, hmd⟩ := List.mem_map.mp hp
      obtain ⟨hne, hown⟩ := h3 m hm
      obtain ⟨y, hy⟩ := List.exists_mem_of_ne_nil _ hne
      refine ⟨y, hperm.subset ?_, by rw [← hmd]; exact hown y hy⟩
      rw [← h2]
      exact List.mem_flatten.mpr ⟨m.body, List.mem_map.mpr ⟨m, hm, rfl⟩, hy⟩
    · rintro ⟨x, hx, hxp⟩
      have hx' : x ∈ (out.map Req.body).flatten := by
        rw [h2]; exact hperm.symm.subset hx
      obtain ⟨b, hb, hxb⟩ := List.mem_flatten.mp hx'
      obtain ⟨m, hm, hmb⟩ := List.mem_map.mp hb
      have hown := (h3 m hm).2 x (by rw [hmb]; exact hxb)
      rw [hxp] at hown
      exact List.mem_map.mpr ⟨m, hm, (Option.some.inj hown).symm⟩
  refine ⟨out, ?_, h4, hmem, ?_, ?_, h2, hsorted, hperm⟩
  · unfold SendRequests
    rw [h1]
    simp
  · have hnd : ((out.map Req.dest).map some).Nodup :=
      List.Nodup.map (Option.some_injective _) h4
    have hp : ((out.map Req.dest).map some).Perm ((reqind.map (MatrixRowPe mat)).dedup) := by
      rw [List.perm_ext_iff_of_nodup hnd (List.nodup_dedup _)]
      intro a
      rw [List.mem_dedup, List.mem_map, List.mem_map]
      constructor
      · rintro ⟨p, hp, rfl⟩
        obtain ⟨x, hx, hxp⟩ := (hmem p).mp hp
        exact ⟨x, hx, hxp⟩
      · rintro ⟨x, hx, rfl⟩
        obtain ⟨pe, hpe⟩ := MatrixRowPe_isSome_of_covered hc hx
        exact ⟨pe, (hmem pe).mpr ⟨x, hx, hpe⟩, hpe.symm⟩
    have := hp.length_eq
    simpa using this
  · intro m hm
    refine ⟨(h3 m hm).1, ?_, (h3 m hm).2⟩
    have hsl : List.Sublist m.body (out.map Req.body).flatten :=
      List.sublist_flatten_of_mem (List.mem_map.mpr ⟨m, hm, rfl⟩)
    rw [h2] at hsl
    exact List.Pairwise.sublist hsl hsorted

/-- C2: for a partition into pairwise disjoint blocks that covers the requested indices,
`SendRequests` returns, sends one REQ per distinct owner of an index of `reqind`,
`num_requests` is the number of those owners, every REQ body is a non-empty ascending run
owned by its destination, and the bodies concatenate, in send order, to the ascending sort
of `reqind`. -/
theorem SendRequests_groups_by_owner {K : Type} (mat : Matrix K) (reqind : List Int)
    (hd : DisjointBlocks mat) (hc : Covered mat reqind) :
    ∃ sent : List Req,
      SendRequests mat reqind = some (sent, sent.length) ∧
      (sent.map Req.dest).Nodup ∧
      (∀ p, p ∈ sent.map Req.dest ↔ ∃ x ∈ reqind, MatrixRowPe mat x = some p) ∧
      sent.length = ((reqind.map (MatrixRowPe mat)).dedup).length ∧
      (∀ m ∈ sent, m.body ≠ [] ∧ m.body.Sorted (· ≤ ·) ∧
        ∀ x ∈ m.body, MatrixRowPe mat x = some m.dest) ∧
      (sent.map Req.body).flatten = shell_sort reqind ∧
      (shell_sort reqind).Sorted (· ≤ ·) ∧ (shell_sort reqind).Perm reqind :=
  SendRequests_spec mat reqind hd hc

/-- C2 witness: three blocks and a request list with a repeated index. -/
theorem SendRequests_groups_by_owner_witness :
    ∃ sent : List Req,
      SendRequests threeBlocks [9, 1, 8, 2, 1] = some (sent, sent.length) ∧
      (sent.map Req.dest).Nodup ∧
      (∀ p, p ∈ sent.map Req.dest ↔
        ∃ x ∈ [9, 1, 8, 2, 1], MatrixRowPe threeBlocks x = some p) ∧
      sent.length = (([9, 1, 8, 2, 1].map (MatrixRowPe threeBlocks)).dedup).length ∧
      (∀ m ∈ sent, m.body ≠ [] ∧ m.body.Sorted (· ≤ ·) ∧
        ∀ x ∈ m.body, MatrixRowPe threeBlocks x = some m.dest) ∧
      (sent.map Req.body).flatten = shell_sort [9, 1, 8, 2, 1] ∧
      (shell_sort [9, 1, 8, 2, 1]).Sorted (· ≤ ·) ∧
      (shell_sort [9, 1, 8, 2, 1]).Perm [9, 1, 8, 2, 1] :=
  SendRequests_groups_by_owner threeBlocks [9, 1, 8, 2, 1]
    (by
      intro p q hp hq hpq x
      simp only [Matrix.npes, threeBlocks, List.length_cons, List.length_nil] at hp hq
      simp only [inBlock_iff, threeBlocks]
      interval_cases p <;> interval_cases q <;> simp at hpq ⊢ <;> omega)
    (by
      intro x hx
      simp only [List.mem_cons, List.mem_singleton, List.not_mem_nil, or_false] at hx
      rcases hx with h | h | h | h | h <;> subst h
      · exact ⟨2, by decide, by decide⟩
      · exact ⟨0, by decide, by decide⟩
      · exact ⟨2, by decide, by decide⟩
      · exact ⟨0, by decide, by decide⟩
      · exact ⟨0, by decide, by decide⟩)

/-! ### RowPatt -/

/-- A merge of indices of a set `S` that fits the capacity succeeds; it appends the new
indices to the members and to the frontier. -/
theorem RowPattMerge_spec (S : Finset Int) :
    ∀ (xs : List Int) (p : RowPatt), p.ind.Nodup → (∀ j ∈ p.ind, j ∈ S) →
      (∀ j ∈ xs, j ∈ S) → S.card ≤ p.maxlen →
      ∃ (p' : RowPatt) (new : List Int), RowPattMerge p xs = some p' ∧
        p'.maxlen = p.maxlen ∧ p'.ind = p.ind ++ new ∧ p'.frontier = p.frontier ++ new ∧
        p'.ind.Nodup ∧ (∀ j ∈ new, j ∈ xs) ∧ (∀ j ∈ xs, j ∈ p'.ind) := by
  intro xs
  induction xs with
  | nil =>
    intro p hnd _ _ _
    exact ⟨p, [], rfl, rfl, by simp, by simp, hnd, by simp, by simp⟩
  | cons x xs ih =>
    intro p hnd hpS hxS hcap
    have hxsS : ∀ j ∈ xs, j ∈ S := fun j hj => hxS j (List.mem_cons_of_mem _ hj)
    by_cases hx : x ∈ p.ind
    · obtain ⟨p', new, h1, h2, h3, h4, h5, h6, h7⟩ := ih p hnd hpS hxsS hcap
      refine ⟨p', new, ?_, h2, h3, h4, h5, ?_, ?_⟩
      · simp only [RowPattMerge, hx, if_true]
        exact h1
      · intro j hj
        exact List.mem_cons_of_mem _ (h6 j hj)
      · intro j hj
        rcases List.mem_cons.mp hj with h | h
        · rw [h, h3]; exact List.mem_append_left _ hx
        · exact h7 j h
    · have hnd' : (p.ind ++ [x]).Nodup := by
        rw [List.nodup_append]
        refine ⟨hnd, List.nodup_singleton x, ?_⟩
        intro a ha hb
        rw [List.mem_singleton] at hb
        exact hx (hb ▸ ha)
      have hS' : ∀ j ∈ p.ind ++ [x], j ∈ S := by
        intro j hj
        rcases List.mem_append.mp hj with h | h
        · exact hpS j h
        · rw [List.mem_singleton] at h
          rw [h]; exact hxS x (List.mem_cons_self _ _)
      have hlt : p.ind.length < p.maxlen := by
        have h1 : (p.ind ++ [x]).toFinset ⊆ S := by
          intro j hj
          exact hS' j (List.mem_toFinset.mp hj)
        have h2 := Finset.card_le_card h1
        rw [List.toFinset_card_of_nodup hnd'] at h2
        simp only [List.length_append, List.length_singleton] at h2
        omega
      obtain ⟨p', new, h1, h2, h3, h4, h5, h6, h7⟩ :=
        ih { p with ind := p.ind ++ [x], frontier := p.frontier ++ [x] } hnd' hS' hxsS hcap
      refine ⟨p', x :: new, ?_, h2, ?_, ?_, h5, ?_, ?_⟩
      · simp only [RowPattMerge, hx, if_false, hlt, if_true]
        exact h1
      · rw [h3]; simp
      · rw [h4]; simp
      · intro j hj
        rcases List.mem_cons.mp hj with h | h
        · rw [h]; exact List.mem_cons_self _ _
        · exact List.mem_cons_of_mem _ (h6 j h)
      · intro j hj
        rcases List.mem_cons.mp hj with h | h
        · rw [h, h3]; simp
        · exact h7 j h

/-- The merges of one level succeed when the pruned rows of the previous level are present
and lie in a set `S` that fits the capacity. -/
theorem mergePrevLevel_spec (pr : PrunedRows) (S : Finset Int) :
    ∀ (prev : List Int) (p : RowPatt), p.ind.Nodup → (∀ j ∈ p.ind, j ∈ S) →
      (∀ i ∈ prev, ∃ ind, pr.rows i = some ind ∧ ∀ j ∈ ind, j ∈ S) → S.card ≤ p.maxlen →
      ∃ (p' : RowPatt) (new : List Int), mergePrevLevel pr p prev = some p' ∧
        p'.maxlen = p.maxlen ∧ p'.ind = p.ind ++ new ∧ p'.frontier = p.frontier ++ new ∧
        p'.ind.Nodup ∧ (∀ j ∈ new, ∃ i ∈ prev, j ∈ (pr.rows i).getD []) ∧
        (∀ i ∈ prev, ∀ j ∈ (pr.rows i).getD [], j ∈ p'.ind) := by
  intro prev
  induction prev with
  | nil =>
    intro p hnd _ _ _
    exact ⟨p, [], rfl, rfl, by simp, by simp, hnd, by simp, by simp⟩
  | cons i rest ih =>
    intro p hnd hpS hrows hcap
    obtain ⟨ind, hind, hindS⟩ := hrows i (List.mem_cons_self _ _)
    obtain ⟨p1, new1, a1, a2, a3, a4, a5, a6, a7⟩ := RowPattMerge_spec S ind p hnd hpS hindS hcap
    have hp1S : ∀ j ∈ p1.ind, j ∈ S := by
      intro j hj
      rw [a3] at hj
      rcases List.mem_append.mp hj with h | h
      · exact hpS j h
      · exact hindS j (a6 j h)
    obtain ⟨p2, new2, b1, b2, b3, b4, b5, b6, b7⟩ :=
      ih p1 a5 hp1S (fun k hk => hrows k (List.mem_cons_of_mem _ hk)) (by rw [a2]; exact hcap)
    refine ⟨p2, new1 ++ new2, ?_, by rw [b2, a2], ?_, ?_, b5, ?_, ?_⟩
    · simp only [mergePrevLevel, PrunedRowsGet, hind, a1]
      exact b1
    · rw [b3, a3, List.append_assoc]
    · rw [b4, a4, List.append_assoc]
    · intro j hj
      rcases List.mem_append.mp hj with h | h
      · exact ⟨i, List.mem_cons_self _ _, by rw [hind]; exact a6 j h⟩
      · obtain ⟨k, hk, hjk⟩ := b6 j h
        exact ⟨k, List.mem_cons_of_mem _ hk, hjk⟩
    · intro k hk j hj
      rcases List.mem_cons.mp hk with h | h
      · rw [h, hind] at hj
        rw [b3]
        exact List.mem_append_left _ (a7 j hj)
      · exact b7 k h j hj

/-! ### The level loop -/

theorem mem_levelPattern_succ (pr : PrunedRows) (l : Nat) (r j : Int) :
    j ∈ levelPattern pr (l + 1) r ↔
      j ∈ levelPattern pr l r ∨ ∃ i ∈ levelPattern pr l r, j ∈ (pr.rows i).getD [] := by
  simp [levelPattern]

theorem levelPattern_mono (pr : PrunedRows) (r : Int) {k m : Nat} (h : k ≤ m) :
    levelPattern pr k r ⊆ levelPattern pr m r := by
  induction h with
  | refl => exact Finset.Subset.refl _
  | step _ ih =>
    intro j hj
    exact (mem_levelPattern_succ pr _ r j).mpr (Or.inl (ih hj))

/-- The level loop keeps the invariant: started after `l` levels, `n` more levels give the
pattern of level `l + n`. -/
theorem levelLoop_spec (pr : PrunedRows) (r : Int) :
    ∀ (n l : Nat) (p : RowPatt), LevelInv pr r l p →
      (∀ k, k < l + n → ∀ i ∈ levelPattern pr k r, ∃ ind, pr.rows i = some ind) →
      (levelPattern pr (l + n) r).card ≤ p.maxlen →
      ∃ p' : RowPatt, levelLoop pr n p = some p' ∧ LevelInv pr r (l + n) p' ∧
        p'.maxlen = p.maxlen := by
  intro n
  induction n with
  | zero =>
    intro l p hinv _ _
    exact ⟨p, rfl, hinv, rfl⟩
  | succ n ih =>
    intro l p hinv hpres hcap
    obtain ⟨hnd, hmem, hfr, hcl⟩ := hinv
    have hsub : levelPattern pr l r ⊆ levelPattern pr (l + (n + 1)) r :=
      levelPattern_mono pr r (by omega)
    have hsub1 : levelPattern pr (l + 1) r ⊆ levelPattern pr (l + (n + 1)) r :=
      levelPattern_mono pr r (by omega)
    have hrows : ∀ i ∈ p.frontier, ∃ ind, pr.rows i = some ind ∧
        ∀ j ∈ ind, j ∈ levelPattern pr (l + (n + 1)) r := by
      intro i hi
      have hil : i ∈ levelPattern pr l r := (hmem i).mp (hfr i hi)
      obtain ⟨ind, hind⟩ := hpres l (by omega) i hil
      refine ⟨ind, hind, ?_⟩
      intro j hj
      exact hsub1 ((mem_levelPattern_succ pr l r j).mpr (Or.inr ⟨i, hil, by rw [hind]; exact hj⟩))
    obtain ⟨p1, new, b1, b2, b3, b4, b5, b6, b7⟩ :=
      mergePrevLevel_spec pr (levelPattern pr (l + (n + 1)) r) p.frontier
        { p with frontier := [] } hnd (fun j hj => hsub ((hmem j).mp hj)) hrows hcap
    simp only [List.nil_append] at b3 b4
    have hinv1 : LevelInv pr r (l + 1) p1 := by
      refine ⟨b5, ?_, ?_, ?_⟩
      · intro j
        rw [mem_levelPattern_succ, b3, List.mem_append]
        constructor
        · rintro (h | h)
          · exact Or.inl ((hmem j).mp h)
          · obtain ⟨i, hi, hji⟩ := b6 j h
            exact Or.inr ⟨i, (hmem i).mp (hfr i hi), hji⟩
        · rintro (h | ⟨i, hi, hji⟩)
          · exact Or.inl ((hmem j).mpr h)
          · have hip : i ∈ p.ind := (hmem i).mpr hi
            by_cases hif : i ∈ p.frontier
            · have := b7 i hif j hji
              rw [b3, List.mem_append] at this
              exact this
            · exact Or.inl (hcl i hip hif j hji)
      · intro i hi
        rw [b4] at hi
        rw [b3]
        exact List.mem_append_right _ hi
      · intro i hi hnf j hj
        rw [b3, List.mem_append] at hi
        rw [b4] at hnf
        rcases hi with h | h
        · by_cases hif : i ∈ p.frontier
          · exact b7 i hif j hj
          · rw [b3]
            exact List.mem_append_left _ (hcl i h hif j hj)
        · exact absurd h hnf
    have e : l + 1 + n = l + (n + 1) := by omega
    obtain ⟨p2, c1, c2, c3⟩ := ih (l + 1) p1 hinv1
      (by intro k hk; exact hpres k (by omega))
      (by rw [e, b2]; exact hcap)
    refine ⟨p2, ?_, by rw [← e]; exact c2, by rw [c3, b2]⟩
    simp only [levelLoop, RowPattPrevLevel, b1]
    exact c1

/-- The pattern of a row: with the looked-up pruned rows present and the level-`L` pattern
within the capacity, `rowPattern` returns a duplicate-free list whose members are those of
the level-`L` pattern. -/
theorem rowPattern_spec (pr : PrunedRows) (L : Nat) (q : RowPatt) (r : Int)
    (hrow : ∃ ind, pr.rows r = some ind)
    (hpres : ∀ k, k < L → ∀ i ∈ levelPattern pr k r, ∃ ind, pr.rows i = some ind)
    (hcap : (levelPattern pr L r).card ≤ q.maxlen) :
    ∃ p : RowPatt, rowPattern pr L q r = some p ∧ p.maxlen = q.maxlen ∧
      (RowPattGet p).Nodup ∧ ∀ j, j ∈ RowPattGet p ↔ j ∈ levelPattern pr L r := by
  obtain ⟨ind, hind⟩ := hrow
  have hS : ∀ j ∈ ind, j ∈ levelPattern pr L r := by
    intro j hj
    refine levelPattern_mono pr r (Nat.zero_le L) ?_
    simp [levelPattern, hind, hj]
  obtain ⟨p0, new, a1, a2, a3, a4, a5, a6, a7⟩ :=
    RowPattMerge_spec (levelPattern pr L r) ind (RowPattReset q) (by simp [RowPattReset])
      (by simp [RowPattReset]) hS (by simpa [RowPattReset] using hcap)
  simp only [RowPattReset, List.nil_append] at a2 a3 a4
  have hinv0 : LevelInv pr r 0 p0 := by
    refine ⟨a5, ?_, ?_, ?_⟩
    · intro j
      simp only [levelPattern, hind, Option.getD_some, List.mem_toFinset]
      constructor
      · intro h; rw [a3] at h; exact a6 j h
      · exact a7 j
    · intro i hi; rw [a3, ← a4]; exact hi
    · intro i hi hnf; rw [a3, ← a4] at hi; exact absurd hi hnf
  obtain ⟨p, c1, c2, c3⟩ := levelLoop_spec pr r L 0 p0 hinv0
    (by simpa using hpres) (by simpa [a2] using hcap)
  simp only [Nat.zero_add] at c2
  refine ⟨p, ?_, by rw [c3, a2], c2.1, c2.2.1⟩
  simp only [rowPattern, PrunedRowsGet, hind, a1]
  exact c1

/-! ### Counting the owners of external indices -/

theorem MatrixRowPe_congr {K : Type} {M N : Matrix K} (hb : M.beg_rows = N.beg_rows)
    (he : M.end_rows = N.end_rows) (x : Int) : MatrixRowPe M x = MatrixRowPe N x := by
  simp only [MatrixRowPe, Matrix.npes, inBlock, hb, he]

/-- The marker loop over one row pattern: it returns when every index above `end_row` has an
owner, and then the marked processes are the old ones and the owners of those indices, and
`num_replies` still counts the marked processes. -/
theorem updateReplies_spec {K : Type} (M : Matrix K) :
    ∀ (xs : List Int) (marker : Nat → Int) (T : Finset Nat),
      (∀ pe, marker pe ≠ 0 ↔ pe ∈ T) →
      (∀ x ∈ xs, M.end_row < x → ∃ pe, MatrixRowPe M x = some pe) →
      ∃ (marker' : Nat → Int) (T' : Finset Nat),
        updateReplies M xs (marker, T.card) = some (marker', T'.card) ∧
        (∀ pe, marker' pe ≠ 0 ↔ pe ∈ T') ∧
        (∀ pe, pe ∈ T' ↔ pe ∈ T ∨ ∃ x ∈ xs, M.end_row < x ∧ MatrixRowPe M x = some pe) := by
  intro xs
  induction xs with
  | nil =>
    intro marker T hT _
    exact ⟨marker, T, rfl, hT, by simp⟩
  | cons x xs ih =>
    intro marker T hT hown
    have hown' : ∀ y ∈ xs, M.end_row < y → ∃ pe, MatrixRowPe M y = some pe :=
      fun y hy => hown y (List.mem_cons_of_mem _ hy)
    by_cases hx : x ≤ M.end_row
    · obtain ⟨marker', T', h1, h2, h3⟩ := ih marker T hT hown'
      refine ⟨marker', T', ?_, h2, ?_⟩
      · simp only [updateReplies, hx, if_true]
        exact h1
      · intro pe
        rw [h3 pe]
        constructor
        · rintro (h | ⟨y, hy, hlt, hpe⟩)
          · exact Or.inl h
          · exact Or.inr ⟨y, List.mem_cons_of_mem _ hy, hlt, hpe⟩
        · rintro (h | ⟨y, hy, hlt, hpe⟩)
          · exact Or.inl h
          · rcases List.mem_cons.mp hy with e | e
            · rw [e] at hlt; omega
            · exact Or.inr ⟨y, e, hlt, hpe⟩
    · have hlt : M.end_row < x := by omega
      obtain ⟨pe, hpe⟩ := hown x (List.mem_cons_self _ _) hlt
      by_cases hm : marker pe = 0
      · have hnotin : pe ∉ T := fun h => (hT pe).mpr h hm
        have hT1 : ∀ q, Function.update marker pe 1 q ≠ 0 ↔ q ∈ insert pe T := by
          intro q
          by_cases hq : q = pe
          · subst hq; simp
          · rw [Function.update_noteq hq, Finset.mem_insert, hT q]
            simp [hq]
        obtain ⟨marker', T', h1, h2, h3⟩ := ih (Function.update marker pe 1) (insert pe T) hT1 hown'
        refine ⟨marker', T', ?_, h2, ?_⟩
        · simp only [updateReplies, hx, if_false, hpe, hm, if_true]
          rw [Finset.card_insert_of_not_mem hnotin] at h1
          exact h1
        · intro q
          rw [h3 q, Finset.mem_insert]
          constructor
          · rintro ((h | h) | ⟨y, hy, hlty, hq⟩)
            · exact Or.inr ⟨x, List.mem_cons_self _ _, hlt, by rw [h]; exact hpe⟩
            · exact Or.inl h
            · exact Or.inr ⟨y, List.mem_cons_of_mem _ hy, hlty, hq⟩
          · rintro (h | ⟨y, hy, hlty, hq⟩)
            · exact Or.inl (Or.inr h)
            · rcases List.mem_cons.mp hy with e | e
              · rw [e, hpe] at hq
                exact Or.inl (Or.inl (Option.some.inj hq).symm)
              · exact Or.inr ⟨y, e, hlty, hq⟩
      · have hin : pe ∈ T := (hT pe).mp hm
        obtain ⟨marker', T', h1, h2, h3⟩ := ih marker T hT hown'
        refine ⟨marker', T', ?_, h2, ?_⟩
        · simp only [updateReplies, hx, if_false, hpe, hm]
          exact h1
        · intro q
          rw [h3 q]
          constructor
          · rintro (h | ⟨y, hy, hlty, hq⟩)
            · exact Or.inl h
            · exact Or.inr ⟨y, List.mem_cons_of_mem _ hy, hlty, hq⟩
          · rintro (h | ⟨y, hy, hlty, hq⟩)
            · exact Or.inl h
            · rcases List.mem_cons.mp hy with e | e
              · rw [e, hpe] at hq
                exact Or.inl ((Option.some.inj hq) ▸ hin)
              · exact Or.inr ⟨y, e, hlty, hq⟩

/-! ### The row loop of `ConstructPatternForEachRow` -/

theorem SamePartition.rowPe {K : Type} {M N : Matrix K} (h : SamePartition M N) (x : Int) :
    MatrixRowPe M x = MatrixRowPe N x :=
  MatrixRowPe_congr h.2.2.1 h.2.2.2 x

/-- One pass of the row loop. -/
theorem ConstructPatternRow_spec {K : Type} [Zero K] (pr : PrunedRows) (L : Nat)
    (M0 : Matrix K) (st : PattState K) (T : Finset Nat) (r : Int)
    (hmax : st.row_patt.maxlen = ROWPATT_MAXLEN) (hpart : SamePartition st.M M0)
    (hT : ∀ pe, st.marker pe ≠ 0 ↔ pe ∈ T) (hn : st.num_replies = T.card)
    (hr : RowReady pr L M0 r) :
    ∃ (st' : PattState K) (T' : Finset Nat),
      ConstructPatternRow pr L st r = some st' ∧
      st'.row_patt.maxlen = ROWPATT_MAXLEN ∧ SamePartition st'.M M0 ∧
      (∀ pe, st'.marker pe ≠ 0 ↔ pe ∈ T') ∧ st'.num_replies = T'.card ∧
      (∀ pe, pe ∈ T' ↔ pe ∈ T ∨
        ∃ x ∈ levelPattern pr L r, M0.end_row < x ∧ MatrixRowPe M0 x = some pe) ∧
      (∀ r', r' ≠ r → st'.M.inds r' = st.M.inds r') ∧
      (st'.M.inds r).Nodup ∧
      (∀ j, j ∈ st'.M.inds r ↔ j ≤ r ∧ j ∈ levelPattern pr L r) := by
  obtain ⟨hrow, hpres, hcap, hown⟩ := hr
  have hown : ∀ x ∈ levelPattern pr L r, M0.end_row < x → ∃ pe, MatrixRowPe M0 x = some pe :=
    fun x hx hlt => Option.isSome_iff_exists.mp (hown x hx hlt)
  obtain ⟨p, a1, a2, a3, a4⟩ := rowPattern_spec pr L st.row_patt r
    (Option.isSome_iff_exists.mp hrow)
    (fun k hk i hi => Option.isSome_iff_exists.mp (hpres k hk i hi))
    (by rw [hmax]; exact hcap)
  have hown' : ∀ x ∈ RowPattGet p, st.M.end_row < x → ∃ pe, MatrixRowPe st.M x = some pe := by
    intro x hx hlt
    rw [hpart.2.1] at hlt
    obtain ⟨pe, hpe⟩ := hown x ((a4 x).mp hx) hlt
    exact ⟨pe, by rw [hpart.rowPe]; exact hpe⟩
  obtain ⟨marker', T', b1, b2, b3⟩ := updateReplies_spec st.M (RowPattGet p) st.marker T hT hown'
  refine ⟨{ row_patt := p, marker := marker', num_replies := T'.card,
             M := MatrixSetRow st.M r ((RowPattGet p).filter (fun j => decide (j ≤ r))).length
                    ((RowPattGet p).filter (fun j => decide (j ≤ r))) none },
    T', ?_, ?_, ?_, ?_, ?_, ?_, ?_, ?_, ?_⟩
  · simp only [ConstructPatternRow, a1, hn, b1]
  · rw [a2]; exact hmax
  · exact hpart
  · exact b2
  · rfl
  · intro pe
    rw [b3 pe]
    constructor
    · rintro (h | ⟨x, hx, hlt, hpe⟩)
      · exact Or.inl h
      · exact Or.inr ⟨x, (a4 x).mp hx, by rw [← hpart.2.1]; exact hlt,
          by rw [← hpart.rowPe]; exact hpe⟩
    · rintro (h | ⟨x, hx, hlt, hpe⟩)
      · exact Or.inl h
      · exact Or.inr ⟨x, (a4 x).mpr hx, by rw [hpart.2.1]; exact hlt,
          by rw [hpart.rowPe]; exact hpe⟩
  · intro r' hr'
    simp only [MatrixSetRow]
    rw [Function.update_noteq hr']
  · simp only [MatrixSetRow, Function.update_same, List.take_length]
    exact List.Nodup.filter _ a3
  · intro j
    simp only [MatrixSetRow, Function.update_same, List.take_length, List.mem_filter,
      decide_eq_true_eq]
    rw [a4 j]
    exact and_comm

/-- The row loop over a list of distinct, ready rows. -/
theorem ConstructPatternRows_spec {K : Type} [Zero K] (pr : PrunedRows) (L : Nat)
    (M0 : Matrix K) :
    ∀ (rows : List Int) (st : PattState K) (T : Finset Nat), rows.Nodup →
      st.row_patt.maxlen = ROWPATT_MAXLEN → SamePartition st.M M0 →
      (∀ pe, st.marker pe ≠ 0 ↔ pe ∈ T) → st.num_replies = T.card →
      (∀ r ∈ rows, RowReady pr L M0 r) →
      ∃ (st' : PattState K) (T' : Finset Nat),
        ConstructPatternRows pr L st rows = some st' ∧ SamePartition st'.M M0 ∧
        st'.num_replies = T'.card ∧
        (∀ pe, pe ∈ T' ↔ pe ∈ T ∨ ∃ r ∈ rows, ∃ x ∈ levelPattern pr L r,
          M0.end_row < x ∧ MatrixRowPe M0 x = some pe) ∧
        (∀ r, r ∉ rows → st'.M.inds r = st.M.inds r) ∧
        (∀ r ∈ rows, (st'.M.inds r).Nodup ∧
          ∀ j, j ∈ st'.M.inds r ↔ j ≤ r ∧ j ∈ levelPattern pr L r) := by
  intro rows
  induction rows with
  | nil =>
    intro st T _ _ hpart _ hn _
    exact ⟨st, T, rfl, hpart, hn, by simp, by simp, by simp⟩
  | cons r rest ih =>
    intro st T hnd hmax hpart hT hn hready
    obtain ⟨hr_notin, hnd'⟩ := List.nodup_cons.mp hnd
    obtain ⟨st1, T1, a1, a2, a3, a4, a5, a6, a7, a8, a9⟩ :=
      ConstructPatternRow_spec pr L M0 st T r hmax hpart hT hn
        (hready r (List.mem_cons_self _ _))
    obtain ⟨st2, T2, b1, b2, b3, b4, b5, b6⟩ :=
      ih st1 T1 hnd' a2 a3 a4 a5 (fun r' hr' => hready r' (List.mem_cons_of_mem _ hr'))
    refine ⟨st2, T2, ?_, b2, b3, ?_, ?_, ?_⟩
    · simp only [ConstructPatternRows, a1]
      exact b1
    · intro pe
      rw [b4 pe, a6 pe]
      constructor
      · rintro ((h | ⟨x, hx, h1, h2⟩) | ⟨r', hr', x, hx, h1, h2⟩)
        · exact Or.inl h
        · exact Or.inr ⟨r, List.mem_cons_self _ _, x, hx, h1, h2⟩
        · exact Or.inr ⟨r', List.mem_cons_of_mem _ hr', x, hx, h1, h2⟩
      · rintro (h | ⟨r', hr', x, hx, h1, h2⟩)
        · exact Or.inl (Or.inl h)
        · rcases List.mem_cons.mp hr' with e | e
          · subst e
            exact Or.inl (Or.inr ⟨x, hx, h1, h2⟩)
          · exact Or.inr ⟨r', e, x, hx, h1, h2⟩
    · intro r' hr'
      rw [List.mem_cons, not_or] at hr'
      rw [b5 r' hr'.2, a7 r' hr'.1]
    · intro r' hr'
      rcases List.mem_cons.mp hr' with e | e
      · subst e
        rw [b5 r' hr_notin]
        exact ⟨a8, a9⟩
      · exact b6 r' e

theorem localRows_nodup {K : Type} (M : Matrix K) : (localRows M).Nodup := by
  unfold localRows
  refine List.Nodup.map ?_ (List.nodup_range _)
  intro a b h
  simpa using h

theorem mem_localRows {K : Type} (M : Matrix K) (r : Int) :
    r ∈ localRows M ↔ M.beg_row ≤ r ∧ r ≤ M.end_row := by
  unfold localRows
  rw [List.mem_map]
  constructor
  · rintro ⟨k, hk, rfl⟩
    rw [List.mem_range] at hk
    omega
  · intro h
    refine ⟨(r - M.beg_row).toNat, ?_, ?_⟩
    · rw [List.mem_range]; omega
    · omega

/-- The whole of `ConstructPatternForEachRow` on ready rows: it returns; the stored row
patterns are the lower triangular parts of the level-`L` patterns, and `num_replies` is the
number of processes that own an index above `end_row` of some level-`L` pattern. -/
theorem ConstructPatternForEachRow_spec {K : Type} [Zero K] (pr : PrunedRows) (L : Nat)
    (M : Matrix K) (hready : ∀ r ∈ localRows M, RowReady pr L M r) :
    ∃ (M' : Matrix K) (T : Finset Nat),
      ConstructPatternForEachRow pr L M = some (M', T.card) ∧ SamePartition M' M ∧
      (∀ pe, pe ∈ T ↔ ∃ r ∈ localRows M, ∃ x ∈ levelPattern pr L r,
        M.end_row < x ∧ MatrixRowPe M x = some pe) ∧
      (∀ r, r ∉ localRows M → M'.inds r = M.inds r) ∧
      (∀ r ∈ localRows M, (M'.inds r).Nodup ∧
        ∀ j, j ∈ M'.inds r ↔ j ≤ r ∧ j ∈ levelPattern pr L r) := by
  obtain ⟨st, T, h1, h2, h3, h4, h5, h6⟩ :=
    ConstructPatternRows_spec pr L M (localRows M)
      { row_patt := RowPattCreate ROWPATT_MAXLEN, marker := fun _ => 0, num_replies := 0,
        M := M } ∅ (localRows_nodup M) rfl ⟨rfl, rfl, rfl, rfl⟩ (by simp) (by simp) hready
  refine ⟨st.M, T, ?_, h2, ?_, h5, h6⟩
  · simp only [ConstructPatternForEachRow, h1, h3]
  · intro pe
    rw [h4 pe]
    simp

/-- C3: when, for every local row, the pruned rows looked up are present, the level-`L`
pattern fits the capacity of the row pattern and its indices above `end_row` have owners,
`ConstructPatternForEachRow` returns, and the column list stored for each local row `r` is
duplicate-free with members exactly the `j ≤ r` of the level-`L` pattern `P_L(r)`; for
`L = 0` these are the `j ≤ r` of the pruned row of `r`. -/
theorem ConstructPatternForEachRow_pattern {K : Type} [Zero K] (pr : PrunedRows) (L : Nat)
    (M : Matrix K) (hready : ∀ r ∈ localRows M, RowReady pr L M r) :
    ∃ (M' : Matrix K) (n : Nat), ConstructPatternForEachRow pr L M = some (M', n) ∧
      ∀ r ∈ localRows M, (M'.inds r).Nodup ∧
        (∀ j, j ∈ M'.inds r ↔ j ≤ r ∧ j ∈ levelPattern pr L r) ∧
        (L = 0 → ∀ j, j ∈ M'.inds r ↔ j ≤ r ∧ j ∈ (pr.rows r).getD []) := by
  obtain ⟨M', T, h1, _, _, _, h5⟩ := ConstructPatternForEachRow_spec pr L M hready
  refine ⟨M', T.card, h1, ?_⟩
  intro r hr
  refine ⟨(h5 r hr).1, (h5 r hr).2, ?_⟩
  intro hL j
  rw [(h5 r hr).2 j, hL]
  simp [levelPattern]

/-- C3 witness: two levels on the tridiagonal pruned rows, local rows `0..3`. -/
theorem ConstructPatternForEachRow_pattern_witness :
    ∃ (M' : Matrix ℚ) (n : Nat), ConstructPatternForEachRow triPruned 2 twoBlocks = some (M', n) ∧
      ∀ r ∈ localRows twoBlocks, (M'.inds r).Nodup ∧
        (∀ j, j ∈ M'.inds r ↔ j ≤ r ∧ j ∈ levelPattern triPruned 2 r) ∧
        ((2 : Nat) = 0 → ∀ j, j ∈ M'.inds r ↔ j ≤ r ∧ j ∈ (triPruned.rows r).getD []) :=
  ConstructPatternForEachRow_pattern triPruned 2 twoBlocks (by decide)

/-- C7: `num_replies` is the number of distinct owners of the indices above `end_row` that
occur in the level-`L` pattern (not yet restricted to the lower triangle) of some local row;
an owner reached from several rows or by several indices is counted once. -/
theorem ConstructPatternForEachRow_num_replies {K : Type} [Zero K] (pr : PrunedRows)
    (L : Nat) (M : Matrix K) (hready : ∀ r ∈ localRows M, RowReady pr L M r) :
    ∃ (M' : Matrix K) (n : Nat), ConstructPatternForEachRow pr L M = some (M', n) ∧
      n = ((((localRows M).toFinset.biUnion (levelPattern pr L)).filter
            (fun i => M.end_row < i)).image (MatrixRowPe M)).card := by
  obtain ⟨M', T, h1, _, h3, _, _⟩ := ConstructPatternForEachRow_spec pr L M hready
  refine ⟨M', T.card, h1, ?_⟩
  have himg : (((localRows M).toFinset.biUnion (levelPattern pr L)).filter
      (fun i => M.end_row < i)).image (MatrixRowPe M) = T.image some := by
    ext a
    simp only [Finset.mem_image, Finset.mem_filter, Finset.mem_biUnion, List.mem_toFinset]
    constructor
    · rintro ⟨x, ⟨⟨r, hr, hx⟩, hlt⟩, rfl⟩
      obtain ⟨pe, hpe⟩ := Option.isSome_iff_exists.mp ((hready r hr).2.2.2 x hx hlt)
      exact ⟨pe, (h3 pe).mpr ⟨r, hr, x, hx, hlt, hpe⟩, hpe.symm⟩
    · rintro ⟨pe, hpe, rfl⟩
      obtain ⟨r, hr, x, hx, hlt, hown⟩ := (h3 pe).mp hpe
      exact ⟨x, ⟨⟨r, hr, hx⟩, hlt⟩, hown⟩
  rw [himg, Finset.card_image_of_injective _ (Option.some_injective _)]

/-- C7 witness: on the tridiagonal pruned rows only process 1 owns indices above row 3. -/
theorem ConstructPatternForEachRow_num_replies_witness :
    ∃ (M' : Matrix ℚ) (n : Nat), ConstructPatternForEachRow triPruned 2 twoBlocks = some (M', n) ∧
      n = ((((localRows twoBlocks).toFinset.biUnion (levelPattern triPruned 2)).filter
            (fun i => twoBlocks.end_row < i)).image (MatrixRowPe twoBlocks)).card :=
  ConstructPatternForEachRow_num_replies triPruned 2 twoBlocks (by decide)

/-! ### Replies with pruned rows -/

theorem putRowNumbers_spec :
    ∀ (rows : List Int) (b : OutBuf Int), b.data.length + rows.length ≤ b.cap →
      putRowNumbers b rows = some { b with data := b.data ++ rows } := by
  intro rows
  induction rows with
  | nil => intro b _; simp [putRowNumbers]
  | cons r rest ih =>
    intro b h
    simp only [List.length_cons] at h
    have hlt : b.data.length < b.cap := by omega
    simp only [putRowNumbers, OutBuf.put, hlt, if_true]
    rw [ih _ (by simp only [List.length_append, List.length_singleton]; omega)]
    simp

theorem prunedSendbacksize_spec (pr : PrunedRows) :
    ∀ (buffer : List Int) (size : Nat), (∀ r ∈ buffer, (pr.rows r).isSome = true) →
      prunedSendbacksize pr buffer size =
        some (size + (buffer.map (fun r => ((pr.rows r).getD []).length + 1)).sum) := by
  intro buffer
  induction buffer with
  | nil => intro size _; simp [prunedSendbacksize]
  | cons r rest ih =>
    intro size h
    obtain ⟨ind, hind⟩ := Option.isSome_iff_exists.mp (h r (List.mem_cons_self _ _))
    simp only [prunedSendbacksize, PrunedRowsGet, hind, List.map_cons, List.sum_cons,
      Option.getD_some]
    rw [ih _ (fun r' hr' => h r' (List.mem_cons_of_mem _ hr'))]
    congr 1
    omega

theorem putPrunedRows_spec (pr : PrunedRows) :
    ∀ (buffer : List Int) (b : OutBuf Int), (∀ r ∈ buffer, (pr.rows r).isSome = true) →
      b.data.length + (buffer.map (fun r => ((pr.rows r).getD []).length + 1)).sum ≤ b.cap →
      putPrunedRows pr b buffer =
        some { b with data := b.data ++
          buffer.flatMap (fun r => (((pr.rows r).getD []).length : Int) :: (pr.rows r).getD []) } := by
  intro buffer
  induction buffer with
  | nil => intro b _ _; simp [putPrunedRows]
  | cons r rest ih =>
    intro b h hcap
    obtain ⟨ind, hind⟩ := Option.isSome_iff_exists.mp (h r (List.mem_cons_self _ _))
    simp only [List.map_cons, List.sum_cons, hind, Option.getD_some] at hcap
    have hlt : b.data.length < b.cap := by omega
    have hcp : ind.length ≤ ind.length ∧ (b.data ++ [(ind.length : Int)]).length + ind.length ≤ b.cap := by
      simp only [List.length_append, List.length_singleton]
      omega
    simp only [putPrunedRows, PrunedRowsGet, hind, OutBuf.put, hlt, if_true, OutBuf.memcpy, hcp,
      and_self, List.take_length, List.flatMap_cons, Option.getD_some]
    rw [ih _ (fun r' hr' => h r' (List.mem_cons_of_mem _ hr'))
      (by simp only [List.length_append, List.length_singleton]; omega)]
    simp

theorem repiFormat_length (rowInd : Int → List Int) (buffer : List Int) :
    (repiFormat rowInd buffer).length =
      1 + buffer.length + (buffer.map (fun r => 1 + (rowInd r).length)).sum := by
  have h : ∀ l : List Int,
      (l.flatMap (fun r => ((rowInd r).length : Int) :: rowInd r)).length =
        (l.map (fun r => 1 + (rowInd r).length)).sum := by
    intro l
    induction l with
    | nil => simp
    | cons r rest ih =>
      simp only [List.flatMap_cons, List.length_append, List.length_cons, ih, List.map_cons,
        List.sum_cons]
      omega
  simp only [repiFormat, List.length_cons, List.length_append, h]
  omega

/-- What `SendReplyPrunedRows` returns when the requested rows are present. -/
theorem SendReplyPrunedRows_eq (dest : Nat) (buffer : List Int) (pr : PrunedRows)
    (hrows : ∀ r ∈ buffer, (pr.rows r).isSome = true) :
    SendReplyPrunedRows dest buffer pr =
      some ⟨dest, repiFormat (fun r => (pr.rows r).getD []) buffer,
        (repiFormat (fun r => (pr.rows r).getD []) buffer).length⟩ := by
  have hlen := repiFormat_length (fun r => (pr.rows r).getD []) buffer
  have hsum : (buffer.map (fun r => ((pr.rows r).getD []).length + 1)).sum =
      (buffer.map (fun r => 1 + ((pr.rows r).getD []).length)).sum := by
    congr 1
    apply List.map_congr_left
    intro r _
    omega
  unfold SendReplyPrunedRows
  rw [prunedSendbacksize_spec pr buffer _ hrows]
  have hpos : ([] : List Int).length <
      buffer.length + 1 + (buffer.map (fun r => ((pr.rows r).getD []).length + 1)).sum := by
    simp only [List.length_nil]; omega
  simp only [OutBuf.put, hpos, if_true, List.nil_append]
  rw [putRowNumbers_spec buffer _ (by simp only [List.length_singleton]; omega)]
  simp only
  rw [putPrunedRows_spec pr buffer _ hrows
    (by simp only [List.length_append, List.length_singleton]; omega)]
  simp only [Option.some.injEq, PrunedReply.mk.injEq, true_and]
  refine ⟨by simp [repiFormat], ?_⟩
  rw [hlen, hsum]
  omega

/-- C4: when the requested rows are present in `PrunedRows`, the message that
`SendReplyPrunedRows` builds is `[n, row_1..row_n, len_1, ind_1..., len_2, ind_2..., ...]`,
its length is `1 + n + Σ (1 + len_i)`, and that length is the number of ints allocated
(`sendbacksize`); every write is inside the buffer, a write outside making the model fail. -/
theorem SendReplyPrunedRows_wire_format (dest : Nat) (buffer : List Int) (pr : PrunedRows)
    (hrows : ∀ r ∈ buffer, (pr.rows r).isSome = true) :
    ∃ reply : PrunedReply, SendReplyPrunedRows dest buffer pr = some reply ∧
      reply.dest = dest ∧
      reply.indbuf = (buffer.length : Int) ::
        (buffer ++ buffer.flatMap
          (fun r => (((pr.rows r).getD []).length : Int) :: (pr.rows r).getD [])) ∧
      reply.indbuf.length =
        1 + buffer.length + (buffer.map (fun r => 1 + ((pr.rows r).getD []).length)).sum ∧
      reply.indbuf.length = reply.sendbacksize :=
  ⟨_, SendReplyPrunedRows_eq dest buffer pr hrows, rfl, rfl,
    repiFormat_length (fun r => (pr.rows r).getD []) buffer, rfl⟩

/-- C4 witness: rows 2 and 3 of the tridiagonal pruned rows. -/
theorem SendReplyPrunedRows_wire_format_witness :
    ∃ reply : PrunedReply, SendReplyPrunedRows 1 [2, 3] triPruned = some reply ∧
      reply.dest = 1 ∧
      reply.indbuf = (([2, 3] : List Int).length : Int) ::
        ([2, 3] ++ ([2, 3] : List Int).flatMap
          (fun r => (((triPruned.rows r).getD []).length : Int) :: (triPruned.rows r).getD [])) ∧
      reply.indbuf.length =
        1 + ([2, 3] : List Int).length +
          (([2, 3] : List Int).map (fun r => 1 + ((triPruned.rows r).getD []).length)).sum ∧
      reply.indbuf.length = reply.sendbacksize :=
  SendReplyPrunedRows_wire_format 1 [2, 3] triPruned (by decide)

/-- Parsing the rows part of a REPI message built from `owner`: every requested row is
bound to the owner's list and no other binding changes. -/
theorem parsePrunedRows_spec {K : Type} (mat : Matrix K) (owner : PrunedRows)
    (S : Finset Int) :
    ∀ (buffer : List Int) (recv : PrunedRows) (patt : RowPatt),
      (∀ r ∈ buffer, (owner.rows r).isSome = true) → patt.ind.Nodup →
      (∀ j ∈ patt.ind, j ∈ S) → (∀ j ∈ repliedExternal mat owner buffer, j ∈ S) →
      S.card ≤ patt.maxlen →
      ∃ (recv' : PrunedRows) (patt' : RowPatt),
        parsePrunedRows mat recv patt buffer
          (buffer.flatMap
            (fun r => (((owner.rows r).getD []).length : Int) :: (owner.rows r).getD [])) =
          some (recv', patt') ∧
        (∀ r ∈ buffer, recv'.rows r = owner.rows r) ∧
        (∀ r, r ∉ buffer → recv'.rows r = recv.rows r) := by
  intro buffer
  induction buffer with
  | nil =>
    intro recv patt _ _ _ _ _
    exact ⟨recv, patt, by simp [parsePrunedRows], by simp, by simp⟩
  | cons r rest ih =>
    intro recv patt hrows hnd hpS hext hcap
    obtain ⟨ind, hind⟩ := Option.isSome_iff_exists.mp (hrows r (List.mem_cons_self _ _))
    have hext1 : ∀ j ∈ ind.filter
        (fun x => decide (x < mat.beg_row) || decide (mat.end_row < x)), j ∈ S := by
      intro j hj
      apply hext j
      simp only [repliedExternal, List.flatMap_cons, hind, Option.getD_some, List.filter_append,
        List.mem_append]
      exact Or.inl hj
    have hext2 : ∀ j ∈ repliedExternal mat owner rest, j ∈ S := by
      intro j hj
      apply hext j
      simp only [repliedExternal, List.flatMap_cons, List.filter_append, List.mem_append]
      exact Or.inr hj
    obtain ⟨patt1, new, a1, a2, a3, _, a5, a6, _⟩ :=
      RowPattMerge_spec S _ patt hnd hpS hext1 hcap
    have hp1S : ∀ j ∈ patt1.ind, j ∈ S := by
      intro j hj
      rw [a3] at hj
      rcases List.mem_append.mp hj with h | h
      · exact hpS j h
      · exact hext1 j (a6 j h)
    obtain ⟨recv', patt', b1, b2, b3⟩ :=
      ih (PrunedRowsPut recv r ind.length ind) patt1
        (fun r' hr' => hrows r' (List.mem_cons_of_mem _ hr')) a5 hp1S hext2
        (by rw [a2]; exact hcap)
    refine ⟨recv', patt', ?_, ?_, ?_⟩
    · have hfm : (r :: rest).flatMap
            (fun r => (((owner.rows r).getD []).length : Int) :: (owner.rows r).getD []) =
          (ind.length : Int) :: (ind ++ rest.flatMap
            (fun r => (((owner.rows r).getD []).length : Int) :: (owner.rows r).getD [])) := by
        simp [List.flatMap_cons, hind]
      rw [hfm]
      generalize rest.flatMap
        (fun r => (((owner.rows r).getD []).length : Int) :: (owner.rows r).getD []) = X at b1 ⊢
      have hput : PrunedRowsPut recv r ind.length (ind ++ X) =
          PrunedRowsPut recv r ind.length ind := by
        simp [PrunedRowsPut]
      have hn : ¬ ((ind.length : Int) < 0 ∨ (ind ++ X).length < ind.length) := by
        simp only [List.length_append]
        omega
      simp only [parsePrunedRows, Int.toNat_ofNat, RowPattMergeExt]
      rw [if_neg hn, List.take_left, List.drop_left, a1, hput]
      exact b1
    · intro r' hr'
      rcases List.mem_cons.mp hr' with e | e
      · by_cases hin : r' ∈ rest
        · exact b2 r' hin
        · rw [b3 r' hin, e, hind]
          simp [PrunedRowsPut]
      · exact b2 r' e
    · intro r' hr'
      rw [List.mem_cons, not_or] at hr'
      rw [b3 r' hr'.2]
      simp only [PrunedRowsPut]
      rw [Function.update_noteq hr'.1]

/-- C5: for every request list whose rows are present at the owner, parsing the message of
`SendReplyPrunedRows` as `ReceiveReplyPrunedRows` does (the merged pattern fitting the
capacity of `patt`) binds each requested row to the owner's index list, the same elements
in the same order, and leaves every other row as it was. -/
theorem pruned_rows_round_trip {K : Type} (dest : Nat) (buffer : List Int)
    (owner recv : PrunedRows) (patt : RowPatt) (mat : Matrix K)
    (hrows : ∀ r ∈ buffer, (owner.rows r).isSome = true) (hnd : patt.ind.Nodup)
    (hcap : (patt.ind.toFinset ∪ (repliedExternal mat owner buffer).toFinset).card
      ≤ patt.maxlen) :
    ∃ (reply : PrunedReply) (recv' : PrunedRows) (patt' : RowPatt),
      SendReplyPrunedRows dest buffer owner = some reply ∧
      ReceiveReplyPrunedRows reply.indbuf recv patt mat = some (recv', patt') ∧
      (∀ r ∈ buffer, ∃ ind, PrunedRowsGet owner r = some ind ∧
        PrunedRowsGet recv' r = some ind ∧
        Multiset.ofList ((PrunedRowsGet recv' r).getD []) = Multiset.ofList ind) ∧
      (∀ r, r ∉ buffer → PrunedRowsGet recv' r = PrunedRowsGet recv r) := by
  obtain ⟨recv', patt', h1, h2, h3⟩ :=
    parsePrunedRows_spec mat owner
      (patt.ind.toFinset ∪ (repliedExternal mat owner buffer).toFinset)
      buffer recv patt hrows hnd
      (fun j hj => Finset.mem_union_left _ (List.mem_toFinset.mpr hj))
      (fun j hj => Finset.mem_union_right _ (List.mem_toFinset.mpr hj)) hcap
  refine ⟨_, recv', patt', SendReplyPrunedRows_eq dest buffer owner hrows, ?_, ?_, h3⟩
  · simp only [ReceiveReplyPrunedRows, repiFormat, Int.toNat_ofNat, List.length_append,
      List.take_left', List.drop_left']
    rw [if_neg (by omega)]
    exact h1
  · intro r hr
    obtain ⟨ind, hind⟩ := Option.isSome_iff_exists.mp (hrows r hr)
    refine ⟨ind, hind, ?_, ?_⟩
    · simp only [PrunedRowsGet]; rw [h2 r hr, hind]
    · simp only [PrunedRowsGet]; rw [h2 r hr, hind]; rfl

/-- C5 witness: rows 3, 2, 3 requested from the tridiagonal pruned rows by a receiver that
has no row bound yet. -/
theorem pruned_rows_round_trip_witness :
    ∃ (reply : PrunedReply) (recv' : PrunedRows) (patt' : RowPatt),
      SendReplyPrunedRows 1 [3, 2, 3] triPruned = some reply ∧
      ReceiveReplyPrunedRows reply.indbuf ⟨fun _ => none⟩ (RowPattCreate ROWPATT_MAXLEN)
        threeBlocks = some (recv', patt') ∧
      (∀ r ∈ ([3, 2, 3] : List Int), ∃ ind, PrunedRowsGet triPruned r = some ind ∧
        PrunedRowsGet recv' r = some ind ∧
        Multiset.ofList ((PrunedRowsGet recv' r).getD []) = Multiset.ofList ind) ∧
      (∀ r, r ∉ ([3, 2, 3] : List Int) →
        PrunedRowsGet recv' r = PrunedRowsGet (⟨fun _ => none⟩ : PrunedRows) r) :=
  pruned_rows_round_trip 1 [3, 2, 3] triPruned ⟨fun _ => none⟩ (RowPattCreate ROWPATT_MAXLEN)
    threeBlocks (by decide) (by decide) (by decide)

/-! ### Replies with stored rows -/

theorem StoredRowPresent.get {K : Type} {sr : StoredRows K} {row : Int}
    (h : StoredRowPresent sr row) :
    StoredRowsGet sr row = some (storedInd sr row, storedVal sr row) ∧
      (storedVal sr row).length = (storedInd sr row).length := by
  obtain ⟨ind, val, hget, hlen⟩ := h
  simp [storedInd, storedVal, hget, hlen]

theorem storedSendbacksize_spec {K : Type} (sr : StoredRows K) :
    ∀ (buffer : List Int) (size : Nat), (∀ r ∈ buffer, StoredRowPresent sr r) →
      storedSendbacksize sr buffer size =
        some (size + (buffer.map (fun r => (storedInd sr r).length + 1)).sum) := by
  intro buffer
  induction buffer with
  | nil => intro size _; simp [storedSendbacksize]
  | cons r rest ih =>
    intro size h
    have hget := (h r (List.mem_cons_self _ _)).get.1
    simp only [storedSendbacksize, hget, List.map_cons, List.sum_cons]
    rw [ih _ (fun r' hr' => h r' (List.mem_cons_of_mem _ hr'))]
    congr 1
    omega

theorem putStoredRows_spec {K : Type} (sr : StoredRows K) :
    ∀ (buffer : List Int) (bi : OutBuf Int) (bv : OutBuf K),
      (∀ r ∈ buffer, StoredRowPresent sr r) →
      bi.data.length + (buffer.map (fun r => (storedInd sr r).length + 1)).sum ≤ bi.cap →
      bv.data.length + (buffer.map (fun r => (storedInd sr r).length)).sum ≤ bv.cap →
      putStoredRows sr bi bv buffer =
        some ({ bi with data := bi.data ++
                  buffer.flatMap (fun r => ((storedInd sr r).length : Int) :: storedInd sr r) },
              { bv with data := bv.data ++ buffer.flatMap (fun r => storedVal sr r) }) := by
  intro buffer
  induction buffer with
  | nil => intro bi bv _ _ _; simp [putStoredRows]
  | cons r rest ih =>
    intro bi bv h hci hcv
    obtain ⟨hget, hlen⟩ := (h r (List.mem_cons_self _ _)).get
    simp only [List.map_cons, List.sum_cons] at hci hcv
    have hlt : bi.data.length < bi.cap := by omega
    have hcp : (storedInd sr r).length ≤ (storedInd sr r).length ∧
        (bi.data ++ [((storedInd sr r).length : Int)]).length + (storedInd sr r).length
          ≤ bi.cap := by
      simp only [List.length_append, List.length_singleton]
      omega
    have hcq : (storedInd sr r).length ≤ (storedVal sr r).length ∧
        bv.data.length + (storedInd sr r).length ≤ bv.cap := by
      omega
    have htake : (storedVal sr r).take (storedInd sr r).length = storedVal sr r := by
      rw [← hlen, List.take_length]
    simp only [putStoredRows, hget, OutBuf.put, hlt, if_true, OutBuf.memcpy, hcp, hcq, and_self,
      List.take_length, htake, List.flatMap_cons]
    rw [ih _ _ (fun r' hr' => h r' (List.mem_cons_of_mem _ hr'))
      (by simp only [List.length_append, List.length_singleton]; omega)
      (by simp only [List.length_append, hlen]; omega)]
    simp

theorem flatMap_storedVal_length {K : Type} (sr : StoredRows K) :
    ∀ buffer : List Int, (∀ r ∈ buffer, StoredRowPresent sr r) →
      (buffer.flatMap (fun r => storedVal sr r)).length =
        (buffer.map (fun r => (storedInd sr r).length)).sum := by
  intro buffer
  induction buffer with
  | nil => intro _; simp
  | cons r rest ih =>
    intro h
    simp only [List.flatMap_cons, List.length_append, List.map_cons, List.sum_cons]
    rw [ih (fun r' hr' => h r' (List.mem_cons_of_mem _ hr')),
      (h r (List.mem_cons_self _ _)).get.2]

/-- What `SendReplyStoredRows` returns when the requested rows are present. -/
theorem SendReplyStoredRows_eq {K : Type} (dest : Nat) (buffer : List Int)
    (sr : StoredRows K) (hrows : ∀ r ∈ buffer, StoredRowPresent sr r) :
    SendReplyStoredRows dest buffer sr =
      some ⟨dest, repiFormat (storedInd sr) buffer,
        buffer.flatMap (fun r => storedVal sr r),
        (repiFormat (storedInd sr) buffer).length⟩ := by
  have hlen := repiFormat_length (storedInd sr) buffer
  have hsum : (buffer.map (fun r => (storedInd sr r).length + 1)).sum =
      (buffer.map (fun r => 1 + (storedInd sr r).length)).sum := by
    congr 1
    apply List.map_congr_left
    intro r _
    omega
  have hle : (buffer.map (fun r => (storedInd sr r).length)).sum ≤
      (buffer.map (fun r => (storedInd sr r).length + 1)).sum := by
    apply List.sum_le_sum
    intro r _
    omega
  unfold SendReplyStoredRows
  rw [storedSendbacksize_spec sr buffer _ hrows]
  have hpos : ([] : List Int).length <
      buffer.length + 1 + (buffer.map (fun r => (storedInd sr r).length + 1)).sum := by
    simp only [List.length_nil]; omega
  simp only [OutBuf.put, hpos, if_true, List.nil_append]
  rw [putRowNumbers_spec buffer _ (by simp only [List.length_singleton]; omega)]
  simp only
  rw [putStoredRows_spec sr buffer _ _ hrows
    (by simp only [List.length_append, List.length_singleton]; omega)
    (by simp only [List.length_nil]; omega)]
  simp only [Option.some.injEq, StoredReply.mk.injEq, true_and, List.nil_append]
  refine ⟨by simp [repiFormat], ?_⟩
  rw [hlen, hsum]
  omega

/-- Parsing the rows part of a REPI message and the REPV message built from `owner`. -/
theorem parseStoredRows_spec {K : Type} (owner : StoredRows K) :
    ∀ (buffer : List Int) (recv : StoredRows K),
      (∀ r ∈ buffer, StoredRowPresent owner r) →
      ∃ recv' : StoredRows K,
        parseStoredRows recv buffer
          (buffer.flatMap (fun r => ((storedInd owner r).length : Int) :: storedInd owner r))
          (buffer.flatMap (fun r => storedVal owner r)) = some recv' ∧
        recv'.mat = recv.mat ∧
        (∀ r ∈ buffer, recv'.ext r = some (storedInd owner r, storedVal owner r)) ∧
        (∀ r, r ∉ buffer → recv'.ext r = recv.ext r) := by
  intro buffer
  induction buffer with
  | nil =>
    intro recv _
    exact ⟨recv, by simp [parseStoredRows], rfl, by simp, by simp⟩
  | cons r rest ih =>
    intro recv hrows
    obtain ⟨_, hlen⟩ := (hrows r (List.mem_cons_self _ _)).get
    obtain ⟨recv', b1, b0, b2, b3⟩ :=
      ih (StoredRowsPut recv r (storedInd owner r).length (storedInd owner r) (storedVal owner r))
        (fun r' hr' => hrows r' (List.mem_cons_of_mem _ hr'))
    refine ⟨recv', ?_, ?_, ?_, ?_⟩
    · simp only [List.flatMap_cons, List.cons_append]
      generalize rest.flatMap
        (fun r => ((storedInd owner r).length : Int) :: storedInd owner r) = X at b1 ⊢
      generalize rest.flatMap (fun r => storedVal owner r) = Y at b1 ⊢
      have hput : StoredRowsPut recv r (storedInd owner r).length (storedInd owner r ++ X)
            (storedVal owner r ++ Y) =
          StoredRowsPut recv r (storedInd owner r).length (storedInd owner r)
            (storedVal owner r) := by
        simp only [StoredRowsPut, List.take_left, List.take_length]
        rw [← hlen, List.take_left, List.take_length]
      have hn : ¬ (((storedInd owner r).length : Int) < 0 ∨
          (storedInd owner r ++ X).length < (storedInd owner r).length) := by
        simp only [List.length_append]
        omega
      simp only [parseStoredRows, Int.toNat_ofNat]
      rw [if_neg hn, List.drop_left, hput]
      have hdrop : List.drop (storedInd owner r).length (storedVal owner r ++ Y) = Y := by
        rw [← hlen, List.drop_left]
      rw [hdrop]
      exact b1
    · rw [b0]; rfl
    · intro r' hr'
      rcases List.mem_cons.mp hr' with e | e
      · by_cases hin : r' ∈ rest
        · exact b2 r' hin
        · rw [b3 r' hin, e]
          simp only [StoredRowsPut, Function.update_same, List.take_length]
          rw [← hlen, List.take_length]
      · exact b2 r' e
    · intro r' hr'
      rw [List.mem_cons, not_or] at hr'
      rw [b3 r' hr'.2]
      simp only [StoredRowsPut]
      rw [Function.update_noteq hr'.1]

/-- C6: for every request list whose rows are present in the owner's `StoredRows`,
`SendReplyStoredRows` sends a REPI message in the wire format and a REPV message of
`Σ len_i` values, the concatenation of the rows' values in the order of the request; and
parsing the pair as `ReceiveReplyStoredRows` does binds each requested row to the owner's
indices and values, value `k` of a row next to index `k` of the same row, and changes no
other binding. -/
theorem stored_rows_round_trip {K : Type} (dest : Nat) (buffer : List Int)
    (owner recv : StoredRows K) (hrows : ∀ r ∈ buffer, StoredRowPresent owner r) :
    ∃ (reply : StoredReply K) (recv' : StoredRows K),
      SendReplyStoredRows dest buffer owner = some reply ∧
      reply.indbuf = (buffer.length : Int) ::
        (buffer ++ buffer.flatMap
          (fun r => ((storedInd owner r).length : Int) :: storedInd owner r)) ∧
      reply.valbuf = buffer.flatMap (fun r => storedVal owner r) ∧
      reply.valbuf.length = (buffer.map (fun r => (storedInd owner r).length)).sum ∧
      ReceiveReplyStoredRows reply.indbuf reply.valbuf recv = some recv' ∧
      (∀ r ∈ buffer, ∃ ind val, StoredRowsGet owner r = some (ind, val) ∧
        recv'.ext r = some (ind, val) ∧ val.length = ind.length) ∧
      (∀ r, r ∉ buffer → recv'.ext r = recv.ext r) := by
  obtain ⟨recv', h1, _, h2, h3⟩ := parseStoredRows_spec owner buffer recv hrows
  have hvlen := flatMap_storedVal_length owner buffer hrows
  refine ⟨_, recv', SendReplyStoredRows_eq dest buffer owner hrows, rfl, rfl, hvlen, ?_, ?_, h3⟩
  · have hlen := repiFormat_length (storedInd owner) buffer
    have hle : (buffer.map (fun r => (storedInd owner r).length)).sum ≤
        (buffer.map (fun r => 1 + (storedInd owner r).length)).sum := by
      apply List.sum_le_sum
      intro r _
      omega
    have hn : ¬ ((repiFormat (storedInd owner) buffer).length <
          (buffer.flatMap (fun r => storedVal owner r)).length ∨
        (buffer ++ buffer.flatMap
          (fun r => ((storedInd owner r).length : Int) :: storedInd owner r)).length
          < buffer.length) := by
      rw [hlen, hvlen, List.length_append]
      omega
    simp only [ReceiveReplyStoredRows, repiFormat, Int.toNat_ofNat]
    simp only [repiFormat] at hn
    rw [if_neg hn, List.take_left, List.drop_left]
    exact h1
  · intro r hr
    exact ⟨storedInd owner r, storedVal owner r, (hrows r hr).get.1, h2 r hr,
      (hrows r hr).get.2⟩

/-- C6 witness: rows 4 and 7 requested from the owner of rows `4..7`. -/
theorem stored_rows_round_trip_witness :
    ∃ (reply : StoredReply ℚ) (recv' : StoredRows ℚ),
      SendReplyStoredRows 0 [4, 7] triStored = some reply ∧
      reply.indbuf = (([4, 7] : List Int).length : Int) ::
        ([4, 7] ++ ([4, 7] : List Int).flatMap
          (fun r => ((storedInd triStored r).length : Int) :: storedInd triStored r)) ∧
      reply.valbuf = ([4, 7] : List Int).flatMap (fun r => storedVal triStored r) ∧
      reply.valbuf.length =
        (([4, 7] : List Int).map (fun r => (storedInd triStored r).length)).sum ∧
      ReceiveReplyStoredRows reply.indbuf reply.valbuf emptyStored = some recv' ∧
      (∀ r ∈ ([4, 7] : List Int), ∃ ind val, StoredRowsGet triStored r = some (ind, val) ∧
        recv'.ext r = some (ind, val) ∧ val.length = ind.length) ∧
      (∀ r, r ∉ ([4, 7] : List Int) → recv'.ext r = emptyStored.ext r) :=
  stored_rows_round_trip 0 [4, 7] triStored emptyStored
    (by
      intro r hr
      simp only [List.mem_cons, List.mem_singleton, List.not_mem_nil, or_false] at hr
      rcases hr with h | h <;> subst h
      · exact ⟨[3, 4, 5], [-1, 2, -1], rfl, rfl⟩
      · exact ⟨[6, 7], [-1, 2], rfl, rfl⟩)

/-! ### The requests of `ExchangeStoredRows` -/

/-- The merge of the external parts of the rows of `M`. -/
theorem mergeRowsExt_spec {K : Type} (M : Matrix K) (S : Finset Int) :
    ∀ (rows : List Int) (patt : RowPatt), patt.ind.Nodup → (∀ j ∈ patt.ind, j ∈ S) →
      (∀ r ∈ rows, ∀ j ∈ M.inds r, (j < M.beg_row ∨ M.end_row < j) → j ∈ S) →
      S.card ≤ patt.maxlen →
      ∃ patt' : RowPatt, mergeRowsExt M patt rows = some patt' ∧
        (∀ j, j ∈ patt'.ind ↔ j ∈ patt.ind ∨
          ∃ r ∈ rows, j ∈ M.inds r ∧ (j < M.beg_row ∨ M.end_row < j)) := by
  intro rows
  induction rows with
  | nil =>
    intro patt _ _ _ _
    exact ⟨patt, rfl, by simp⟩
  | cons r rest ih =>
    intro patt hnd hpS hS hcap
    have hmemf : ∀ j, j ∈ (M.inds r).filter
        (fun x => decide (x < M.beg_row) || decide (M.end_row < x)) ↔
        j ∈ M.inds r ∧ (j < M.beg_row ∨ M.end_row < j) := by
      intro j
      simp [List.mem_filter]
    obtain ⟨p1, new, a1, a2, a3, _, a5, a6, a7⟩ :=
      RowPattMerge_spec S _ patt hnd hpS
        (fun j hj => hS r (List.mem_cons_self _ _) j ((hmemf j).mp hj).1 ((hmemf j).mp hj).2)
        hcap
    have hp1S : ∀ j ∈ p1.ind, j ∈ S := by
      intro j hj
      rw [a3] at hj
      rcases List.mem_append.mp hj with h | h
      · exact hpS j h
      · have := (hmemf j).mp (a6 j h)
        exact hS r (List.mem_cons_self _ _) j this.1 this.2
    obtain ⟨p2, b1, b2⟩ := ih p1 a5 hp1S
      (fun r' hr' => hS r' (List.mem_cons_of_mem _ hr')) (by rw [a2]; exact hcap)
    refine ⟨p2, ?_, ?_⟩
    · simp only [mergeRowsExt, MatrixGetRow, RowPattMergeExt, a1]
      exact b1
    · intro j
      rw [b2 j, a3, List.mem_append]
      constructor
      · rintro ((h | h) | ⟨r', hr', h1, h2⟩)
        · exact Or.inl h
        · have := (hmemf j).mp (a6 j h)
          exact Or.inr ⟨r, List.mem_cons_self _ _, this.1, this.2⟩
        · exact Or.inr ⟨r', List.mem_cons_of_mem _ hr', h1, h2⟩
      · rintro (h | ⟨r', hr', h1, h2⟩)
        · exact Or.inl (Or.inl h)
        · rcases List.mem_cons.mp hr' with e | e
          · subst e
            have := a7 j ((hmemf j).mpr ⟨h1, h2⟩)
            rw [a3, List.mem_append] at this
            exact Or.inl this
          · exact Or.inr ⟨r', e, h1, h2⟩

/-! ### Symmetry of the level patterns -/

theorem localRows_congr {K : Type} {M N : Matrix K} (h : SamePartition M N) :
    localRows M = localRows N := by
  simp only [localRows, h.1, h.2.1]

theorem inBlock_procMatrix (K : Type) (beg_rows end_rows : List Int) (q p : Nat) (x : Int) :
    inBlock (procMatrix K beg_rows end_rows q) p x = true ↔
      x ∈ localRows (procMatrix K beg_rows end_rows p) := by
  rw [inBlock_iff, mem_localRows]
  rfl

theorem ABS_eq_abs (x : ℚ) : ABS x = |x| := by
  unfold ABS
  split_ifs with h
  · exact (abs_of_neg h).symm
  · exact (abs_of_nonneg (not_lt.mp h)).symm

theorem truncToZero_of_nonneg {x : ℚ} (h : 0 ≤ x) : truncToZero x = ⌊x⌋ := by
  simp [truncToZero, h]

/-- The rank `⌊len·param⌋ + 1` lies in `1..len` when `0 ≤ param < 1` and `1 ≤ len`. -/
theorem rank_in_range (len : Nat) (param : ℚ) (h0 : 0 ≤ param) (h1 : param < 1)
    (hlen : 1 ≤ len) :
    1 ≤ ⌊(len : ℚ) * param⌋ + 1 ∧ ⌊(len : ℚ) * param⌋ + 1 ≤ (len : Int) := by
  have hl : (0 : ℚ) < len := by exact_mod_cast hlen
  constructor
  · have : 0 ≤ ⌊(len : ℚ) * param⌋ := Int.floor_nonneg.mpr (mul_nonneg hl.le h0)
    omega
  · have : ⌊(len : ℚ) * param⌋ < (len : Int) := by
      rw [Int.floor_lt]
      have : (len : ℚ) * param < len * 1 := mul_lt_mul_of_pos_left h1 hl
      simpa using this
    omega

/-- The rank `(int) (len * param) + 1` for a row length that is an `int` and `param ≥ 0`:
it is `⌊len·param⌋ + 1` when `len·param < INT_MAX`, and undefined otherwise. -/
theorem selectRank_eq (len : Nat) (param : ℚ) (hint : (len : Int) ≤ INT_MAX)
    (h0 : 0 ≤ param) :
    selectRank len param =
      if (len : ℚ) * param < ((INT_MAX : Int) : ℚ) then some (⌊(len : ℚ) * param⌋ + 1)
      else none := by
  have hnn : (0 : ℚ) ≤ (len : ℚ) * param := mul_nonneg (by exact_mod_cast Nat.zero_le _) h0
  have hfl : 0 ≤ ⌊(len : ℚ) * param⌋ := Int.floor_nonneg.mpr hnn
  have hlt : (len : ℚ) * param < ((INT_MAX : Int) : ℚ) ↔ ⌊(len : ℚ) * param⌋ < INT_MAX :=
    Int.floor_lt.symm
  have hmin : INT_MIN ≤ 0 := by decide
  unfold selectRank
  rw [if_neg (not_lt.mpr hint)]
  unfold cTrunc
  rw [truncToZero_of_nonneg hnn]
  by_cases h : (len : ℚ) * param < ((INT_MAX : Int) : ℚ)
  · have h' := hlt.mp h
    rw [if_pos h, if_pos ⟨by omega, by omega⟩]
    simp only [intAdd]
    rw [if_pos ⟨by omega, by omega⟩]
  · have h' : ¬ ⌊(len : ℚ) * param⌋ < INT_MAX := fun hh => h (hlt.mpr hh)
    rw [if_neg h]
    by_cases hc : INT_MIN ≤ ⌊(len : ℚ) * param⌋ ∧ ⌊(len : ℚ) * param⌋ ≤ INT_MAX
    · rw [if_pos hc]
      simp only [intAdd]
      rw [if_neg (by omega)]
    · rw [if_neg hc]

/-- For `0 ≤ param < 1` the rank is defined and is `⌊len·param⌋ + 1`. -/
theorem selectRank_of_lt_one (len : Nat) (param : ℚ) (h0 : 0 ≤ param) (h1 : param < 1)
    (hlen : 1 ≤ len) : selectRank len param = some (⌊(len : ℚ) * param⌋ + 1) := by
  have hnn : (0 : ℚ) ≤ (len : ℚ) * param := mul_nonneg (by exact_mod_cast Nat.zero_le _) h0
  by_cases hbig : INT_MAX < (len : Int)
  · unfold selectRank
    rw [if_pos hbig, truncToZero_of_nonneg hnn]
  · have hint : (len : Int) ≤ INT_MAX := not_lt.mp hbig
    rw [selectRank_eq len param hint h0, if_pos]
    have h2 := (rank_in_range len param h0 h1 hlen).2
    rw [Int.floor_lt.symm]
    omega

/-- One row of the threshold selection. -/
theorem selectThreshRow_spec (ps : ParaSails) (s : Int → ℚ) (hs : ps.diag_scale.scale = s)
    (hpos : ∀ i, 0 < s i) (param : ℚ) (h0 : 0 ≤ param) (h1 : param < 1) (row : Int)
    (hwf : (ps.A.vals row).length = (ps.A.inds row).length) (hne : ps.A.inds row ≠ []) :
    selectThreshRow ps param row =
      some (kthSmallest (scaledAbsRow s ps.A row)
        (⌊((ps.A.inds row).length : ℚ) * param⌋ + 1)) := by
  have hbuf : List.zipWith
      (fun v j => DiagScaleGet ps.diag_scale ps.A row * ABS v * DiagScaleGet ps.diag_scale ps.A j)
      (MatrixGetRow ps.A row).2 (MatrixGetRow ps.A row).1 = scaledAbsRow s ps.A row := by
    simp only [scaledAbsRow, MatrixGetRow, DiagScaleGet, hs]
    congr 1
    funext v j
    rw [ABS_eq_abs, abs_mul, abs_mul, abs_of_pos (hpos row), abs_of_pos (hpos j)]
  have hblen : (scaledAbsRow s ps.A row).length = (ps.A.inds row).length := by
    simp [scaledAbsRow, hwf]
  have hlen : 1 ≤ (ps.A.inds row).length := by
    cases h : ps.A.inds row with
    | nil => exact absurd h hne
    | cons a l => simp
  obtain ⟨hk1, hk2⟩ := rank_in_range (ps.A.inds row).length param h0 h1 hlen
  have hrank : selectRank (MatrixGetRow ps.A row).1.length param =
      some (⌊((ps.A.inds row).length : ℚ) * param⌋ + 1) :=
    selectRank_of_lt_one (ps.A.inds row).length param h0 h1 hlen
  unfold selectThreshRow
  rw [hrank]
  simp only
  rw [hbuf]
  simp only [MatrixGetRow]
  unfold randomized_select
  have hcond : (0 : Int) ≤ 0 ∧ (0 : Int) ≤ ((ps.A.inds row).length : Int) - 1 ∧
      ((ps.A.inds row).length : Int) - 1 < ((scaledAbsRow s ps.A row).length : Int) ∧
      1 ≤ ⌊((ps.A.inds row).length : ℚ) * param⌋ + 1 ∧
      ⌊((ps.A.inds row).length : ℚ) * param⌋ + 1 ≤ ((ps.A.inds row).length : Int) - 1 - 0 + 1 := by
    rw [hblen]
    omega
  rw [if_pos hcond]
  have htake : (List.drop (0 : Int).toNat (scaledAbsRow s ps.A row)).take
      (((ps.A.inds row).length : Int) - 1 - 0 + 1).toNat = scaledAbsRow s ps.A row := by
    have e : (((ps.A.inds row).length : Int) - 1 - 0 + 1).toNat = (scaledAbsRow s ps.A row).length := by
      rw [hblen]; omega
    rw [e]
    simp
  rw [htake]
  have hidx : (⌊((ps.A.inds row).length : ℚ) * param⌋ + 1 - 1).toNat <
      ((scaledAbsRow s ps.A row).insertionSort (· ≤ ·)).length := by
    rw [List.length_insertionSort, hblen]
    omega
  unfold kthSmallest
  rw [List.get?_eq_getElem?, List.getD_eq_getElem?_getD, List.getElem?_eq_getElem hidx]
  rfl

theorem selectThreshLoop_spec (ps : ParaSails) (param : ℚ) (f : Int → ℚ) :
    ∀ (rows : List Int) (acc : ℚ), (∀ r ∈ rows, selectThreshRow ps param r = some (f r)) →
      selectThreshLoop ps param rows acc = some (acc + (rows.map f).sum) := by
  intro rows
  induction rows with
  | nil => intro acc _; simp [selectThreshLoop]
  | cons r rest ih =>
    intro acc h
    simp only [selectThreshLoop, h r (List.mem_cons_self _ _), List.map_cons, List.sum_cons]
    rw [ih _ (fun r' hr' => h r' (List.mem_cons_of_mem _ hr'))]
    congr 1
    ring

theorem allreduceLocalsum_spec (param : ℚ) (f : ParaSails → Int → ℚ) :
    ∀ comm : List ParaSails,
      (∀ q ∈ comm, ∀ r ∈ localRows q.A, selectThreshRow q param r = some (f q r)) →
      allreduceLocalsum param comm = some (sumOverRows comm f) := by
  intro comm
  induction comm with
  | nil => intro _; simp [allreduceLocalsum, sumOverRows]
  | cons q rest ih =>
    intro h
    simp only [allreduceLocalsum]
    rw [selectThreshLoop_spec q param (f q) _ 0 (h q (List.mem_cons_self _ _)),
      ih (fun q' hq' => h q' (List.mem_cons_of_mem _ hq'))]
    simp [sumOverRows]

theorem oneTo_sorted (n : Nat) : (oneTo n).Sorted (· ≤ ·) := by
  unfold oneTo
  rw [List.Sorted, List.pairwise_map]
  refine List.Pairwise.imp ?_ (List.pairwise_lt_range n)
  intro a b hab
  have : (a : ℚ) < b := by exact_mod_cast hab
  linarith

/-- The `k`-th smallest of a permutation of `1, …, n` is `k`. -/
theorem kthSmallest_oneTo (l : List ℚ) (n : Nat) (k : Int) (hp : l.Perm (oneTo n))
    (hk1 : 1 ≤ k) (hk2 : k ≤ n) : kthSmallest l k = (k : ℚ) := by
  have hsort : l.insertionSort (· ≤ ·) = oneTo n :=
    List.eq_of_perm_of_sorted ((List.perm_insertionSort _ l).trans hp)
      (List.sorted_insertionSort _ l) (oneTo_sorted n)
  unfold kthSmallest
  rw [hsort]
  have hidx : (k - 1).toNat < (oneTo n).length := by
    simp only [oneTo, List.length_map, List.length_range]
    omega
  rw [List.getD_eq_getElem?_getD, List.getElem?_eq_getElem hidx]
  simp only [oneTo, List.getElem_map, List.getElem_range, Option.getD_some]
  have : (((k - 1).toNat : Int) : ℚ) = ((k - 1 : Int) : ℚ) := by
    congr 1
    omega
  have h2 : (((k - 1).toNat : Nat) : ℚ) = (((k - 1).toNat : Int) : ℚ) := by
    simp
  rw [h2, this]
  push_cast
  ring

theorem sumOverRows_congr (comm : List ParaSails) (f g : ParaSails → Int → ℚ)
    (h : ∀ q ∈ comm, ∀ r ∈ localRows q.A, f q r = g q r) :
    sumOverRows comm f = sumOverRows comm g := by
  unfold sumOverRows
  congr 1
  apply List.map_congr_left
  intro q hq
  congr 1
  apply List.map_congr_left
  intro r hr
  exact h q hq r hr

theorem ParaSailsSelectThresh_eq (comm : List ParaSails) (ps : ParaSails) (param : ℚ)
    (f : ParaSails → Int → ℚ)
    (h : ∀ q ∈ comm, ∀ r ∈ localRows q.A, selectThreshRow q param r = some (f q r))
    (hN : globalRowCount comm ps ≠ 0) :
    ParaSailsSelectThresh comm ps param =
      some (sumOverRows comm f / ((globalRowCount comm ps : Int) : ℚ)) := by
  unfold ParaSailsSelectThresh
  rw [allreduceLocalsum_spec param f comm h]
  simp only [globalRowCount] at hN ⊢
  rw [if_neg hN]

/-- C9: with a positive scaling `s`, `0 ≤ param < 1`, a nonzero global row count and no
empty row, `ParaSailsSelectThresh(ps, param)` returns the sum over all global rows `i` of
the `k_i`-th smallest element of `{|s(i)·A(i,j)·s(j)|}`, `k_i = ⌊len_i·param⌋ + 1`, divided
by `end_rows[P−1] − beg_rows[0] + 1`.  When moreover `param = 0.75` and the scaled absolute
values of every row are `{1, …, len}`, every row selects `⌊0.75·len⌋ + 1` and the result is
the average of these integers. -/
theorem ParaSailsSelectThresh_spec (comm : List ParaSails) (ps : ParaSails) (s : Int → ℚ)
    (param : ℚ) (hready : ThreshReady s comm) (hpos : ∀ i, 0 < s i) (h0 : 0 ≤ param)
    (h1 : param < 1) (hN : globalRowCount comm ps ≠ 0) :
    ParaSailsSelectThresh comm ps param =
        some (sumOverRows comm (fun q r => kthSmallest (scaledAbsRow s q.A r)
            (⌊((q.A.inds r).length : ℚ) * param⌋ + 1))
          / ((globalRowCount comm ps : Int) : ℚ)) ∧
      (param = 3 / 4 →
        (∀ q ∈ comm, ∀ r ∈ localRows q.A,
          (scaledAbsRow s q.A r).Perm (oneTo (q.A.inds r).length)) →
        (∀ q ∈ comm, ∀ r ∈ localRows q.A, selectThreshRow q param r =
          some (((⌊(3 / 4 : ℚ) * ((q.A.inds r).length : ℚ)⌋ + 1 : Int) : ℚ))) ∧
        ParaSailsSelectThresh comm ps param =
          some (sumOverRows comm
              (fun q r => ((⌊(3 / 4 : ℚ) * ((q.A.inds r).length : ℚ)⌋ + 1 : Int) : ℚ))
            / ((globalRowCount comm ps : Int) : ℚ))) := by
  have hrow : ∀ q ∈ comm, ∀ r ∈ localRows q.A, selectThreshRow q param r =
      some (kthSmallest (scaledAbsRow s q.A r) (⌊((q.A.inds r).length : ℚ) * param⌋ + 1)) := by
    intro q hq r hr
    obtain ⟨hs, hrows⟩ := hready q hq
    exact selectThreshRow_spec q s hs hpos param h0 h1 r (hrows r hr).1 (hrows r hr).2
  refine ⟨ParaSailsSelectThresh_eq comm ps param _ hrow hN, ?_⟩
  intro hparam hperm
  have hsel : ∀ q ∈ comm, ∀ r ∈ localRows q.A, selectThreshRow q param r =
      some (((⌊(3 / 4 : ℚ) * ((q.A.inds r).length : ℚ)⌋ + 1 : Int) : ℚ)) := by
    intro q hq r hr
    rw [hrow q hq r hr]
    have hlen : 1 ≤ (q.A.inds r).length := by
      have hne := ((hready q hq).2 r hr).2
      cases h : q.A.inds r with
      | nil => exact absurd h hne
      | cons a l => simp
    obtain ⟨hk1, hk2⟩ := rank_in_range (q.A.inds r).length param h0 h1 hlen
    rw [kthSmallest_oneTo _ _ _ (hperm q hq r hr) hk1 hk2, hparam, mul_comm]
  exact ⟨hsel, ParaSailsSelectThresh_eq comm ps param _ hsel hN⟩

/-- C9 witness: two processes, four rows, `param = 0.75`. -/
theorem ParaSailsSelectThresh_spec_witness :
    ParaSailsSelectThresh threshComm threshProc0 (3 / 4) =
        some (sumOverRows threshComm (fun q r => kthSmallest (scaledAbsRow (fun _ => 1) q.A r)
            (⌊((q.A.inds r).length : ℚ) * (3 / 4)⌋ + 1))
          / ((globalRowCount threshComm threshProc0 : Int) : ℚ)) ∧
      ((3 / 4 : ℚ) = 3 / 4 →
        (∀ q ∈ threshComm, ∀ r ∈ localRows q.A,
          (scaledAbsRow (fun _ => 1) q.A r).Perm (oneTo (q.A.inds r).length)) →
        (∀ q ∈ threshComm, ∀ r ∈ localRows q.A, selectThreshRow q (3 / 4) r =
          some (((⌊(3 / 4 : ℚ) * ((q.A.inds r).length : ℚ)⌋ + 1 : Int) : ℚ))) ∧
        ParaSailsSelectThresh threshComm threshProc0 (3 / 4) =
          some (sumOverRows threshComm
              (fun q r => ((⌊(3 / 4 : ℚ) * ((q.A.inds r).length : ℚ)⌋ + 1 : Int) : ℚ))
            / ((globalRowCount threshComm threshProc0 : Int) : ℚ))) :=
  ParaSailsSelectThresh_spec threshComm threshProc0 (fun _ => 1) (3 / 4)
    (by
      intro q hq
      simp only [threshComm, List.mem_cons, List.mem_singleton, List.not_mem_nil,
        or_false] at hq
      rcases hq with h | h <;> subst h
      · exact ⟨rfl, by decide⟩
      · exact ⟨rfl, by decide⟩)
    (by intro i; norm_num) (by norm_num) (by norm_num) (by decide)

/-! ### The index hash -/

theorem Hash.start_lt (h : Hash) (key : Int) (hpos : 0 < h.size) : h.start key < h.size := by
  unfold Hash.start
  have h1 : 0 ≤ key % (h.size : Int) := Int.emod_nonneg _ (by omega)
  have h2 : key % (h.size : Int) < h.size := Int.emod_lt_of_pos _ (by omega)
  omega

/-- A probe that stops does so at a slot of the table, which holds the key or is empty. -/
theorem Hash.probe_some (h : Hash) (key : Int) :
    ∀ (fuel loc s : Nat) (b : Bool), loc < h.size → h.probe key fuel loc = some (s, b) →
      s < h.size ∧ (b = true → h.table.getD s none = some key) ∧
        (b = false → h.table.getD s none = none) := by
  intro fuel
  induction fuel with
  | zero => intro loc s b _ hp; simp [Hash.probe] at hp
  | succ fuel ih =>
    intro loc s b hloc hp
    unfold Hash.probe at hp
    cases hslot : h.table.getD loc none with
    | none =>
      rw [hslot] at hp
      simp only [Option.some.injEq, Prod.mk.injEq] at hp
      obtain ⟨rfl, rfl⟩ := hp
      exact ⟨hloc, by simp, fun _ => hslot⟩
    | some k =>
      rw [hslot] at hp
      simp only at hp
      by_cases hk : k = key
      · rw [if_pos hk] at hp
        simp only [Option.some.injEq, Prod.mk.injEq] at hp
        obtain ⟨rfl, rfl⟩ := hp
        exact ⟨hloc, fun _ => by rw [hslot, hk], by simp⟩
      · rw [if_neg hk] at hp
        exact ih _ s b (Nat.mod_lt _ (by omega)) hp

/-- A probe that gives up has met only occupied slots. -/
theorem Hash.probe_none (h : Hash) (key : Int) :
    ∀ (fuel loc : Nat), loc < h.size → h.probe key fuel loc = none →
      ∀ t, t < fuel → h.table.getD ((loc + t) % h.size) none ≠ none := by
  intro fuel
  induction fuel with
  | zero => intro loc _ _ t ht; omega
  | succ fuel ih =>
    intro loc hloc hp t ht
    unfold Hash.probe at hp
    cases hslot : h.table.getD loc none with
    | none => rw [hslot] at hp; simp at hp
    | some k =>
      rw [hslot] at hp
      simp only at hp
      by_cases hk : k = key
      · rw [if_pos hk] at hp; simp at hp
      · rw [if_neg hk] at hp
        cases t with
        | zero =>
          rw [Nat.add_zero, Nat.mod_eq_of_lt hloc, hslot]
          simp
        | succ t =>
          have := ih _ (Nat.mod_lt _ (by omega)) hp t (by omega)
          have e : ((loc + 1) % h.size + t) % h.size = (loc + (t + 1)) % h.size := by
            rw [Nat.add_mod, Nat.mod_mod, ← Nat.add_mod]
            congr 1
            omega
          rw [e] at this
          exact this

theorem probe_reach (n loc e : Nat) (hloc : loc < n) (he : e < n) :
    (e + n - loc) % n < n ∧ (loc + (e + n - loc) % n) % n = e := by
  have hn : 0 < n := by omega
  refine ⟨Nat.mod_lt _ hn, ?_⟩
  by_cases h : loc ≤ e
  · have e1 : e + n - loc = (e - loc) + n := by omega
    have hm : (e + n - loc) % n = e - loc := by
      rw [e1, Nat.add_mod_right]
      exact Nat.mod_eq_of_lt (by omega)
    have e2 : loc + (e - loc) = e := by omega
    rw [hm, e2]
    exact Nat.mod_eq_of_lt he
  · have hm : (e + n - loc) % n = e + n - loc := Nat.mod_eq_of_lt (by omega)
    have e2 : loc + (e + n - loc) = e + n := by omega
    rw [hm, e2, Nat.add_mod_right]
    exact Nat.mod_eq_of_lt he

/-- With an empty slot in the table, a probe with the capacity as fuel stops. -/
theorem Hash.probe_isSome (h : Hash) (key : Int) (e : Nat) (he : e < h.size)
    (hempty : h.table.getD e none = none) (loc : Nat) (hloc : loc < h.size) :
    ∃ r, h.probe key h.size loc = some r := by
  cases hp : h.probe key h.size loc with
  | some r => exact ⟨r, rfl⟩
  | none =>
    obtain ⟨h1, h2⟩ := probe_reach h.size loc e hloc he
    have := Hash.probe_none h key h.size loc hloc hp _ h1
    rw [h2] at this
    exact absurd hempty this

theorem countP_isSome_set {α : Type} :
    ∀ (l : List (Option α)) (s : Nat) (x : α), l.getD s none = none → s < l.length →
      (l.set s (some x)).countP Option.isSome = l.countP Option.isSome + 1 := by
  intro l
  induction l with
  | nil => intro s x _ hs; simp at hs
  | cons a l ih =>
    intro s x hget hs
    cases s with
    | zero =>
      simp only [List.getD_cons_zero] at hget
      subst hget
      simp [List.countP_cons]
    | succ s =>
      simp only [List.getD_cons_succ] at hget
      simp only [List.length_cons] at hs
      simp only [List.set_cons_succ, List.countP_cons]
      rw [ih s x hget (by omega)]
      omega

theorem exists_empty_slot {α : Type} :
    ∀ l : List (Option α), l.countP Option.isSome < l.length →
      ∃ e, e < l.length ∧ l.getD e none = none := by
  intro l
  induction l with
  | nil => intro h; simp at h
  | cons a l ih =>
    intro h
    cases a with
    | none => exact ⟨0, by simp, by simp⟩
    | some x =>
      simp only [List.countP_cons, Option.isSome_some, if_true, List.length_cons] at h
      obtain ⟨e, he, hget⟩ := ih (by omega)
      exact ⟨e + 1, by simp only [List.length_cons]; omega, by simpa using hget⟩

theorem arrGet_set_same (a : List Int) (s : Nat) (x : Int) (hs : s < a.length) :
    arrGet (a.set s x) (s : Int) = some x := by
  simp [arrGet, hs]

theorem arrGet_set_other (a : List Int) (s t : Nat) (x : Int) (hne : s ≠ t) :
    arrGet (a.set s x) (t : Int) = arrGet a (t : Int) := by
  simp [arrGet, List.getElem?_set, hne]

theorem getD_set_same {α : Type} (l : List (Option α)) (s : Nat) (x : Option α)
    (hs : s < l.length) : (l.set s x).getD s none = x := by
  simp [List.getD_eq_getElem?_getD, hs]

theorem getD_set_other {α : Type} (l : List (Option α)) (s t : Nat) (x : Option α)
    (hne : s ≠ t) : (l.set s x).getD t none = l.getD t none := by
  simp [List.getD_eq_getElem?_getD, List.getElem?_set, hne]

/-- A lookup returns `HASH_NOTFOUND` or a slot of the table that holds the key. -/
theorem HashLookup_spec (h : Hash) (key : Int) (hpos : 0 < h.size) :
    HashLookup h key = HASH_NOTFOUND ∨
      ∃ s : Nat, s < h.size ∧ HashLookup h key = (s : Int) ∧ h.table.getD s none = some key := by
  unfold HashLookup
  cases hp : h.probe key h.size (h.start key) with
  | none => exact Or.inl rfl
  | some r =>
    obtain ⟨s, b⟩ := r
    cases b with
    | false => exact Or.inl rfl
    | true =>
      obtain ⟨hs, hT, _⟩ := Hash.probe_some h key _ _ s true (Hash.start_lt h key hpos) hp
      exact Or.inr ⟨s, hs, rfl, hT rfl⟩

/-- A key that is not in the pattern is not found. -/
theorem HashLookup_notfound (len : Int) (J : List Int) (hash : Hash) (localIdx : List Int)
    (hinv : HashInv len J hash localIdx) (hpos : 0 < hash.size) (key : Int) (hkey : key ∉ J) :
    HashLookup hash key = HASH_NOTFOUND := by
  rcases HashLookup_spec hash key hpos with h | ⟨s, _, _, hget⟩
  · exact h
  · exact absurd (hinv.2.2 s key hget).1 hkey

/-- The insertion loop succeeds while the table has room, and keeps the invariant. -/
theorem insertIndices_spec (len : Int) (J : List Int) :
    ∀ (keys : List Int) (hash : Hash) (localIdx index : List Int) (i : Int) (n : Nat),
      HashInv len J hash localIdx → hash.table.countP Option.isSome ≤ n →
      n + keys.length < hash.size → (∀ k ∈ keys, k ∈ J) → 0 ≤ i →
      i + keys.length ≤ len → i + keys.length ≤ index.length →
      ∃ (hash' : Hash) (localIdx' index' : List Int),
        insertIndices (hash, localIdx, index) keys i = some (hash', localIdx', index') ∧
        HashInv len J hash' localIdx' ∧ hash'.size = hash.size := by
  intro keys
  induction keys with
  | nil =>
    intro hash localIdx index i n hinv _ _ _ _ _ _
    exact ⟨hash, localIdx, index, rfl, hinv, rfl⟩
  | cons key rest ih =>
    intro hash localIdx index i n hinv hcount hroom hJ hi hlen hidx
    obtain ⟨htl, hll, hocc⟩ := hinv
    simp only [List.length_cons, Nat.cast_add, Nat.cast_one] at hroom hlen hidx
    have hpos : 0 < hash.size := by omega
    obtain ⟨e, he, hempty⟩ := exists_empty_slot hash.table (by rw [htl]; omega)
    rw [htl] at he
    obtain ⟨⟨s, b⟩, hp⟩ :=
      Hash.probe_isSome hash key e he hempty (hash.start key) (Hash.start_lt hash key hpos)
    obtain ⟨hs, hT, hF⟩ := Hash.probe_some hash key _ _ s b (Hash.start_lt hash key hpos) hp
    have hset1 : arrSet localIdx (s : Int) i = some (localIdx.set s i) := by
      have : (0 : Int) ≤ (s : Int) ∧ (s : Int) < (localIdx.length : Int) := by
        rw [hll]; omega
      simp [arrSet, this]
    have hset2 : arrSet index i (s : Int) = some (index.set i.toNat (s : Int)) := by
      have : 0 ≤ i ∧ i < (index.length : Int) := by omega
      simp [arrSet, this]
    have hloc1 : (localIdx.set s i).length = hash.size := by
      rw [List.length_set]; exact hll
    have hidx1 : (i + 1) + (rest.length : Int) ≤ ((index.set i.toNat (s : Int)).length : Int) := by
      rw [List.length_set]; omega
    cases b with
    | false =>
      have hinv1 : HashInv len J { hash with table := hash.table.set s (some key) }
          (localIdx.set s i) := by
        refine ⟨by simp only [List.length_set]; exact htl, hloc1, ?_⟩
        intro s' k hget
        by_cases hss : s = s'
        · subst hss
          rw [getD_set_same _ _ _ (by rw [htl]; exact hs)] at hget
          have hk : key = k := Option.some.inj hget
          subst hk
          exact ⟨hJ _ (List.mem_cons_self _ _), i,
            arrGet_set_same _ _ _ (by rw [hll]; exact hs), hi, by omega⟩
        · rw [getD_set_other _ _ _ _ hss] at hget
          obtain ⟨hk, l, hl, h0, h1⟩ := hocc s' k hget
          exact ⟨hk, l, by rw [arrGet_set_other _ _ _ _ hss]; exact hl, h0, h1⟩
      have hcount1 : ({ hash with table := hash.table.set s (some key) } : Hash).table.countP
          Option.isSome ≤ n + 1 := by
        simp only
        rw [countP_isSome_set _ _ _ (hF rfl) (by rw [htl]; exact hs)]
        omega
      obtain ⟨hash', localIdx', index', g1, g2, g3⟩ :=
        ih { hash with table := hash.table.set s (some key) } (localIdx.set s i)
          (index.set i.toNat (s : Int)) (i + 1) (n + 1) hinv1 hcount1 (by simp only; omega)
          (fun k hk => hJ k (List.mem_cons_of_mem _ hk)) (by omega) (by omega) hidx1
      refine ⟨hash', localIdx', index', ?_, g2, g3⟩
      simp only [insertIndices, HashInsert, hp, hset1, hset2]
      exact g1
    | true =>
      have hinv1 : HashInv len J hash (localIdx.set s i) := by
        refine ⟨htl, hloc1, ?_⟩
        intro s' k hget
        by_cases hss : s = s'
        · subst hss
          exact ⟨(hocc s k hget).1, i, arrGet_set_same _ _ _ (by rw [hll]; exact hs), hi,
            by omega⟩
        · obtain ⟨hk, l, hl, h0, h1⟩ := hocc s' k hget
          exact ⟨hk, l, by rw [arrGet_set_other _ _ _ _ hss]; exact hl, h0, h1⟩
      obtain ⟨hash', localIdx', index', g1, g2, g3⟩ :=
        ih hash (localIdx.set s i) (index.set i.toNat (s : Int)) (i + 1) n hinv1 hcount
          (by omega) (fun k hk => hJ k (List.mem_cons_of_mem _ hk)) (by omega) (by omega) hidx1
      refine ⟨hash', localIdx', index', ?_, g2, g3⟩
      simp only [insertIndices, HashInsert, hp, hset1, hset2]
      exact g1

/-- The inner loop that fills `ahat` stays inside the `len` entries at `ahatp`. -/
theorem formAhatRow_spec {K : Type} (len : Int) (J : List Int) (hash : Hash)
    (localIdx : List Int) (hinv : HashInv len J hash localIdx) (hpos : 0 < hash.size)
    (off : Int) (hoff : 0 ≤ off) :
    ∀ (ind2 : List Int) (val2 : List K) (ahat : List K), ind2.length ≤ val2.length →
      off + len ≤ ahat.length →
      ∃ ahat' : List K, formAhatRow hash localIdx off ahat ind2 val2 = some ahat' ∧
        ahat'.length = ahat.length := by
  intro ind2
  induction ind2 with
  | nil =>
    intro val2 ahat _ _
    exact ⟨ahat, by simp [formAhatRow], rfl⟩
  | cons c rest ih =>
    intro val2 ahat hlen hroom
    cases val2 with
    | nil => simp at hlen
    | cons v vrest =>
      simp only [List.length_cons] at hlen
      rcases HashLookup_spec hash c hpos with h | ⟨s, _, hs, hget⟩
      · obtain ⟨ahat', g1, g2⟩ := ih vrest ahat (by omega) hroom
        refine ⟨ahat', ?_, g2⟩
        simp only [formAhatRow, h, ne_eq, not_true_eq_false, if_false]
        exact g1
      · obtain ⟨_, l, hl, h0, h1⟩ := hinv.2.2 s c hget
        have hne : HashLookup hash c ≠ HASH_NOTFOUND := by
          rw [hs]; simp only [HASH_NOTFOUND]; omega
        have hset : arrSet ahat (off + l) v = some (ahat.set (off + l).toNat v) := by
          have : 0 ≤ off + l ∧ off + l < (ahat.length : Int) := by omega
          simp [arrSet, this]
        obtain ⟨ahat', g1, g2⟩ := ih vrest (ahat.set (off + l).toNat v) (by omega)
          (by rw [List.length_set]; exact hroom)
        refine ⟨ahat', ?_, by rw [g2, List.length_set]⟩
        simp only [formAhatRow, hne, ne_eq, not_false_eq_true, if_true]
        rw [hs, hl]
        simp only [hset]
        exact g1

/-- The loop that forms `ahat` succeeds when the rows of the pattern are stored. -/
theorem formAhat_spec {K : Type} (stored_rows : StoredRows K) (len : Int) (J : List Int)
    (hash : Hash) (localIdx : List Int) (hinv : HashInv len J hash localIdx)
    (hpos : 0 < hash.size) (hlen : 0 ≤ len) :
    ∀ (keys : List Int) (ahat : List K) (off : Int), 0 ≤ off →
      off + keys.length * len ≤ ahat.length →
      (∀ k ∈ keys, StoredRowPresent stored_rows k) →
      ∃ ahat' : List K,
        formAhat stored_rows hash localIdx len ahat keys off = some ahat' ∧
        ahat'.length = ahat.length := by
  intro keys
  induction keys with
  | nil =>
    intro ahat off _ _ _
    exact ⟨ahat, by simp [formAhat], rfl⟩
  | cons key rest ih =>
    intro ahat off hoff hroom hrows
    obtain ⟨ind2, val2, hget, hvl⟩ := hrows key (List.mem_cons_self _ _)
    simp only [List.length_cons, Nat.cast_add, Nat.cast_one] at hroom
    have hmul : 0 ≤ (rest.length : Int) * len := mul_nonneg (by omega) hlen
    have hroom1 : off + len ≤ (ahat.length : Int) := by
      have : ((rest.length : Int) + 1) * len = (rest.length : Int) * len + len := by ring
      omega
    obtain ⟨ahat1, a1, a2⟩ :=
      formAhatRow_spec len J hash localIdx hinv hpos off hoff ind2 val2 ahat (by omega) hroom1
    obtain ⟨ahat2, b1, b2⟩ := ih ahat1 (off + len) (by omega)
      (by
        rw [a2]
        have : ((rest.length : Int) + 1) * len = (rest.length : Int) * len + len := by ring
        omega)
      (fun k hk => hrows k (List.mem_cons_of_mem _ hk))
    refine ⟨ahat2, ?_, by rw [b2, a2]⟩
    simp only [formAhat, hget, a1]
    exact b1

/-! ### The right-hand side of `ComputeValues` -/

/-- The row loop reaches the right-hand side: from an empty table with room for the
pattern and work arrays of the sizes `ComputeValues` allocates, the insertion loop and the
loop that forms `ahat` succeed, and a row that is not in its own pattern is not found. -/
theorem ComputeValuesRow_reaches_rhs {K : Type} [LinearOrderedField K]
    (stored_rows : StoredRows K) (st : ValState K) (row : Int)
    (htable : st.hash.table = List.replicate st.hash.size none)
    (hlocal : st.localIdx.length = st.hash.size)
    (hroom : (st.mat.inds row).length < st.hash.size)
    (hindex : (st.mat.inds row).length ≤ st.index.length)
    (hahat : (st.mat.inds row).length * (st.mat.inds row).length ≤ st.ahat.length)
    (hstored : ∀ j ∈ st.mat.inds row, StoredRowPresent stored_rows j) :
    ∃ (hash : Hash) (localIdx index : List Int) (ahat : List K),
      insertIndices (st.hash, st.localIdx, st.index) (st.mat.inds row) 0 =
        some (hash, localIdx, index) ∧
      formAhat stored_rows hash localIdx (st.mat.inds row).length
        (List.replicate ((st.mat.inds row).length * (st.mat.inds row).length) 0 ++
          st.ahat.drop ((st.mat.inds row).length * (st.mat.inds row).length))
        (st.mat.inds row) 0 = some ahat ∧
      (row ∉ st.mat.inds row → HashLookup hash row = HASH_NOTFOUND) := by
  have hinv0 : HashInv ((st.mat.inds row).length : Int) (st.mat.inds row) st.hash st.localIdx := by
    refine ⟨by rw [htable, List.length_replicate], hlocal, ?_⟩
    intro s k hget
    rw [htable, List.getD_eq_getElem?_getD] at hget
    by_cases hs : s < st.hash.size
    · simp [List.getElem?_replicate, hs] at hget
    · simp [List.getElem?_replicate, hs] at hget
  have hcount0 : st.hash.table.countP Option.isSome ≤ 0 := by
    rw [htable, List.countP_replicate]
    simp
  obtain ⟨hash, localIdx, index, a1, a2, a3⟩ :=
    insertIndices_spec ((st.mat.inds row).length : Int) (st.mat.inds row) (st.mat.inds row)
      st.hash st.localIdx st.index 0 0 hinv0 hcount0 (by omega) (fun k hk => hk) (le_refl 0)
      (by omega) (by omega)
  have hpos : 0 < hash.size := by rw [a3]; omega
  obtain ⟨ahat, b1, _⟩ :=
    formAhat_spec stored_rows ((st.mat.inds row).length : Int) (st.mat.inds row) hash localIdx
      a2 hpos (by omega) (st.mat.inds row)
      (List.replicate ((st.mat.inds row).length * (st.mat.inds row).length) 0 ++
        st.ahat.drop ((st.mat.inds row).length * (st.mat.inds row).length)) 0 (le_refl 0)
      (by
        simp only [List.length_append, List.length_replicate, List.length_drop]
        push_cast
        have : (st.mat.inds row).length * (st.mat.inds row).length +
            (st.ahat.length - (st.mat.inds row).length * (st.mat.inds row).length) =
            st.ahat.length := by omega
        have h2 : (((st.mat.inds row).length * (st.mat.inds row).length +
            (st.ahat.length - (st.mat.inds row).length * (st.mat.inds row).length) : Nat) : Int)
            = (st.ahat.length : Int) := by rw [this]
        push_cast at h2
        omega)
      hstored
  exact ⟨hash, localIdx, index, ahat, a1, b1,
    fun hdef => HashLookup_notfound _ _ hash localIdx a2 hpos row hdef⟩

/-- C10 (as amended): in a build with `DEBUG` defined, for a row `r` that the row loop of
`ComputeValues` enters with an empty table and work arrays of the sizes it allocates, the
rows of the pattern being stored: when the stored pattern of `r` does not contain `r`,
`HashLookup(hash, r)` returns `HASH_NOTFOUND` and the row ends in `MPI_Abort`; the values of
row `r` have been zeroed, no entry of the right-hand side is set to 1 and the solver is not
called. -/
theorem ComputeValuesRow_pattern_defect {K : Type} [LinearOrderedField K]
    (lapack : Lapack K) (stored_rows : StoredRows K) (st : ValState K) (row : Int)
    (htable : st.hash.table = List.replicate st.hash.size none)
    (hlocal : st.localIdx.length = st.hash.size)
    (hroom : (st.mat.inds row).length < st.hash.size)
    (hindex : (st.mat.inds row).length ≤ st.index.length)
    (hahat : (st.mat.inds row).length * (st.mat.inds row).length ≤ st.ahat.length)
    (hstored : ∀ j ∈ st.mat.inds row, StoredRowPresent stored_rows j)
    (hdefect : row ∉ st.mat.inds row) :
    (∃ (hash : Hash) (localIdx index : List Int),
      insertIndices (st.hash, st.localIdx, st.index) (st.mat.inds row) 0 =
        some (hash, localIdx, index) ∧ HashLookup hash row = HASH_NOTFOUND) ∧
    ComputeValuesRow lapack true stored_rows st row =
      .error (.abort row .patternDefect
        (setVals st.mat row (List.replicate (st.mat.inds row).length 0))) := by
  obtain ⟨hash, localIdx, index, ahat, hins, hform, hnf⟩ :=
    ComputeValuesRow_reaches_rhs stored_rows st row htable hlocal hroom hindex hahat hstored
  refine ⟨⟨hash, localIdx, index, hins, hnf hdefect⟩, ?_⟩
  simp only [ComputeValuesRow, MatrixGetRow, hins, orUndefined, hahat, if_true, hform,
    hnf hdefect, bind, Except.bind, pure, Except.pure, Bool.true_and, decide_True]

/-- C10 witness: the single row 1 with pattern `{0}`. -/
theorem ComputeValuesRow_pattern_defect_witness :
    (∃ (hash : Hash) (localIdx index : List Int),
      insertIndices (defectState.hash, defectState.localIdx, defectState.index)
        (defectState.mat.inds 1) 0 = some (hash, localIdx, index) ∧
      HashLookup hash 1 = HASH_NOTFOUND) ∧
    ComputeValuesRow idleLapack true defectStored defectState 1 =
      .error (.abort 1 .patternDefect
        (setVals defectState.mat 1 (List.replicate (defectState.mat.inds 1).length 0))) :=
  ComputeValuesRow_pattern_defect idleLapack defectStored defectState 1
    (by decide) (by decide) (by decide) (by decide) (by decide)
    (by
      intro j hj
      have hj0 : j = 0 := by simpa [defectState, defectM] using hj
      subst hj0
      exact ⟨[0, 1], [2, -1], rfl, rfl⟩)
    (by decide)

/-- C10 counterexample: row 1 with stored pattern `{0}` does not contain 1 and
`HashLookup(hash, 1)` is `HASH_NOTFOUND`; without `DEBUG` the run of `ComputeValues` does
not end in `MPI_Abort` but reads `local[HASH_NOTFOUND]`, and with `DEBUG` the abort comes
after the values of the row have been overwritten with zeros. -/
theorem ComputeValues_defect_not_as_claimed :
    (1 : Int) ∉ defectM.inds 1 ∧
      ComputeValues idleLapack false defectStored defectM = .error .undefined ∧
      ComputeValues idleLapack true defectStored defectM =
        .error (.abort 1 .patternDefect (setVals defectM 1 [0])) ∧
      (setVals defectM 1 [0]).vals 1 ≠ defectM.vals 1 := by
  refine ⟨by decide, rfl, rfl, ?_⟩
  simp [setVals, defectM]

/-! ### The rank of the selection -/

/-- The rank at some values of `len` and `param`: in range, one above the row, the largest
`int`, and undefined beyond. -/
theorem selectRank_run :
    selectRank 4 (3 / 4) = some 4 ∧ selectRank 4 1 = some 5 ∧
    selectRank 1 2147483646 = some 2147483647 ∧ selectRank 1 2147483647 = none ∧
    selectRank 2 10000000000 = none := by
  rw [selectRank_eq 4 (3 / 4) (by decide) (by norm_num),
    selectRank_eq 4 1 (by decide) (by norm_num),
    selectRank_eq 1 2147483646 (by decide) (by norm_num),
    selectRank_eq 1 2147483647 (by decide) (by norm_num),
    selectRank_eq 2 10000000000 (by decide) (by norm_num)]
  norm_num [INT_MAX]

theorem SendRequests_nil {K : Type} (mat : Matrix K) : SendRequests mat [] = some ([], 0) := by
  simp [SendRequests, shell_sort, SendRequests.loop]

theorem RowPattMergeExt_local (patt : RowPatt) (ind : List Int) (b e : Int)
    (h : ∀ j ∈ ind, b ≤ j ∧ j ≤ e) : RowPattMergeExt patt ind b e = some patt := by
  have hf : ind.filter (fun x => decide (x < b) || decide (e < x)) = [] := by
    rw [List.filter_eq_nil_iff]
    intro j hj
    have := h j hj
    simp only [Bool.or_eq_true, decide_eq_true_eq, not_or, not_lt]
    exact this
  simp [RowPattMergeExt, hf, RowPattMerge]

theorem mergePrunedExt_local {K : Type} (M : Matrix K) (pr : PrunedRows) (patt : RowPatt)
    (hloc : LocalOnly M pr) :
    ∀ rows : List Int, (∀ r ∈ rows, r ∈ localRows M) →
      mergePrunedExt M pr patt rows = some patt := by
  intro rows
  induction rows with
  | nil => intro _; rfl
  | cons r rest ih =>
    intro h
    obtain ⟨hsome, hcols⟩ := hloc r (h r (List.mem_cons_self _ _))
    obtain ⟨ind, hind⟩ := Option.isSome_iff_exists.mp hsome
    have hcols' : ∀ j ∈ ind, M.beg_row ≤ j ∧ j ≤ M.end_row := by
      intro j hj
      exact (mem_localRows M j).mp (hcols j (by rw [hind]; exact hj))
    simp only [mergePrunedExt, PrunedRowsGet, hind, RowPattMergeExt_local patt ind _ _ hcols']
    exact ih (fun r' hr' => h r' (List.mem_cons_of_mem _ hr'))

theorem mergeRowsExt_local {K : Type} (M : Matrix K) (patt : RowPatt) :
    ∀ rows : List Int, (∀ r ∈ rows, ∀ j ∈ M.inds r, j ∈ localRows M) →
      mergeRowsExt M patt rows = some patt := by
  intro rows
  induction rows with
  | nil => intro _; rfl
  | cons r rest ih =>
    intro h
    have hcols : ∀ j ∈ M.inds r, M.beg_row ≤ j ∧ j ≤ M.end_row :=
      fun j hj => (mem_localRows M j).mp (h r (List.mem_cons_self _ _) j hj)
    simp only [mergeRowsExt, MatrixGetRow, RowPattMergeExt_local patt _ _ _ hcols]
    exact ih (fun r' hr' => h r' (List.mem_cons_of_mem _ hr'))

/-- With an empty frontier every level sends nothing and changes nothing. -/
theorem exchangePrunedLevels_idle {K : Type} (env : PrunedEnv) (M : Matrix K) :
    ∀ (n level : Nat) (pr : PrunedRows) (patt : RowPatt) (tr : PrunedTrace),
      patt.frontier = [] →
      exchangePrunedLevels env M n level (pr, patt, tr) =
        some (pr, patt, { tr with calls := tr.calls ++ List.replicate n ([], 0) }) := by
  intro n
  induction n with
  | zero =>
    intro level pr patt tr _
    simp [exchangePrunedLevels]
  | succ n ih =>
    intro level pr patt tr hf
    have hp : (RowPattPrevLevel patt).2 = patt := by
      cases patt
      simp only [RowPattPrevLevel] at hf ⊢
      subst hf
      rfl
    have hi : (RowPattPrevLevel patt).1 = [] := hf
    simp only [exchangePrunedLevels, hi, SendRequests_nil, servePruned, receivePruned, hp,
      List.append_nil]
    rw [ih (level + 1) pr patt _ hf]
    simp [List.replicate_succ]

/-- The level patterns of a local row stay among the local rows. -/
theorem levelPattern_local {K : Type} (M : Matrix K) (pr : PrunedRows)
    (hloc : LocalOnly M pr) :
    ∀ (l : Nat) (r : Int), r ∈ localRows M → ∀ x ∈ levelPattern pr l r, x ∈ localRows M := by
  intro l
  induction l with
  | zero =>
    intro r hr x hx
    simp only [levelPattern, List.mem_toFinset] at hx
    exact (hloc r hr).2 x hx
  | succ l ih =>
    intro r hr x hx
    rw [mem_levelPattern_succ] at hx
    rcases hx with h | ⟨i, hi, hxi⟩
    · exact ih r hr x h
    · exact (hloc i (ih r hr i hi)).2 x hxi

theorem rowReady_of_localOnly {K : Type} (M : Matrix K) (pr : PrunedRows) (L : Nat)
    (hloc : LocalOnly M pr) (hcap : (localRows M).length ≤ ROWPATT_MAXLEN) :
    ∀ r ∈ localRows M, RowReady pr L M r := by
  intro r hr
  refine ⟨(hloc r hr).1, ?_, ?_, ?_⟩
  · intro k _ i hi
    exact (hloc i (levelPattern_local M pr hloc k r hr i hi)).1
  · have hsub : levelPattern pr L r ⊆ (localRows M).toFinset := by
      intro x hx
      exact List.mem_toFinset.mpr (levelPattern_local M pr hloc L r hr x hx)
    calc (levelPattern pr L r).card ≤ (localRows M).toFinset.card := Finset.card_le_card hsub
      _ ≤ (localRows M).length := List.toFinset_card_le _
      _ ≤ ROWPATT_MAXLEN := hcap
  · intro x hx hlt
    have := (mem_localRows M x).mp (levelPattern_local M pr hloc L r hr x hx)
    omega

/-- C11: on a process all of whose pruned rows have local column indices only (the single
process of a run with `P = 1`), for every `num_levels`: the merged external pattern of
`ExchangePrunedRows` is empty, each of its calls of `SendRequests` gets the empty list and
returns `num_requests = 0`, and it sends no REQ and no REPI; `ConstructPatternForEachRow`
returns `num_replies = 0` and rows with local columns only; and `ExchangeStoredRows` merges
an empty pattern, calls `SendRequests` with the empty list, gets `num_requests = 0` and
sends no REQ, REPI or REPV. -/
theorem single_process_sends_nothing {K : Type} [Zero K] (envP : PrunedEnv)
    (envS : StoredEnv K) (A M : Matrix K) (pr : PrunedRows) (stored_rows : StoredRows K)
    (L : Nat) (hloc : LocalOnly M pr) (hcap : (localRows M).length ≤ ROWPATT_MAXLEN) :
    (∃ patt : RowPatt,
      ExchangePrunedRows envP M pr L =
        some (pr, patt, ⟨List.replicate L ([], 0), [], []⟩) ∧ RowPattGet patt = []) ∧
    (∃ M' : Matrix K, ConstructPatternForEachRow pr L M = some (M', 0) ∧
      (∀ r ∈ localRows M, ∀ j ∈ M'.inds r, j ∈ localRows M') ∧
      ExchangeStoredRows envS A M' stored_rows 0 = some (stored_rows, ⟨([], 0), [], []⟩)) := by
  constructor
  · refine ⟨RowPattCreate ROWPATT_MAXLEN, ?_, rfl⟩
    simp only [ExchangePrunedRows,
      mergePrunedExt_local M pr (RowPattCreate ROWPATT_MAXLEN) hloc (localRows M) (fun r hr => hr)]
    rw [exchangePrunedLevels_idle envP M L 1 pr (RowPattCreate ROWPATT_MAXLEN) _ rfl]
    simp
  · obtain ⟨M', T, h1, h2, h3, _, h5⟩ :=
      ConstructPatternForEachRow_spec pr L M (rowReady_of_localOnly M pr L hloc hcap)
    have hT : T = ∅ := by
      rw [Finset.eq_empty_iff_forall_not_mem]
      intro pe hpe
      obtain ⟨r, hr, x, hx, hlt, _⟩ := (h3 pe).mp hpe
      have := (mem_localRows M x).mp (levelPattern_local M pr hloc L r hr x hx)
      omega
    have hloc' : localRows M' = localRows M := localRows_congr h2
    have hcols : ∀ r ∈ localRows M, ∀ j ∈ M'.inds r, j ∈ localRows M' := by
      intro r hr j hj
      rw [hloc']
      exact levelPattern_local M pr hloc L r hr j (((h5 r hr).2 j).mp hj).2
    refine ⟨M', by rw [h1, hT]; rfl, hcols, ?_⟩
    have hm := mergeRowsExt_local M' (RowPattCreate ROWPATT_MAXLEN) (localRows M')
      (fun r hr => hcols r (hloc' ▸ hr))
    have hg : RowPattGet (RowPattCreate ROWPATT_MAXLEN) = [] := rfl
    simp only [ExchangeStoredRows, hm, hg, SendRequests_nil, serveStored, receiveStored]

/-- C11 witness: the single process with rows `0..7` of the tridiagonal pattern, two
levels. -/
theorem single_process_sends_nothing_witness :
    (∃ patt : RowPatt,
      ExchangePrunedRows silentPruned oneBlock triPruned 2 =
        some (triPruned, patt, ⟨List.replicate 2 ([], 0), [], []⟩) ∧ RowPattGet patt = []) ∧
    (∃ M' : Matrix ℚ, ConstructPatternForEachRow triPruned 2 oneBlock = some (M', 0) ∧
      (∀ r ∈ localRows oneBlock, ∀ j ∈ M'.inds r, j ∈ localRows M') ∧
      ExchangeStoredRows silentStored oneBlock M' emptyStored 0 =
        some (emptyStored, ⟨([], 0), [], []⟩)) :=
  single_process_sends_nothing silentPruned silentStored oneBlock oneBlock triPruned
    emptyStored 2 (by decide) (by decide)

/-! ### The direction of the requests of `ExchangeStoredRows` -/

theorem disjoint_of_rankOrdered (K : Type) (beg_rows end_rows : List Int) (q : Nat)
    (hord : RankOrdered beg_rows end_rows) :
    DisjointBlocks (procMatrix K beg_rows end_rows q) := by
  intro a b ha hb hab x ⟨hxa, hxb⟩
  rw [inBlock_iff] at hxa hxb
  simp only [procMatrix, Matrix.npes] at ha hb hxa hxb
  rcases Nat.lt_or_gt_of_ne hab with h | h
  · have := hord b hb a h
    omega
  · have := hord a ha b h
    omega

/-- The request list of `ExchangeStoredRows` on one process of the global model and the
REQ messages made of it. -/
theorem procRequestBodies_spec (K : Type) [Zero K] (beg_rows end_rows : List Int)
    (pr : PrunedRows) (L : Nat) (q : Nat)
    (hd : DisjointBlocks (procMatrix K beg_rows end_rows q))
    (hready : ProcReady K beg_rows end_rows pr L q) :
    ∃ (Mq : Matrix K) (n : Nat) (patt : RowPatt) (reqs : List Req),
      ConstructPatternForEachRow pr L (procMatrix K beg_rows end_rows q) = some (Mq, n) ∧
      SamePartition Mq (procMatrix K beg_rows end_rows q) ∧
      (∀ r ∈ localRows Mq, ∀ j, j ∈ Mq.inds r ↔ j ≤ r ∧ j ∈ levelPattern pr L r) ∧
      mergeRowsExt Mq (RowPattCreate ROWPATT_MAXLEN) (localRows Mq) = some patt ∧
      (∀ j, j ∈ RowPattGet patt ↔
        ∃ r ∈ localRows Mq, j ∈ Mq.inds r ∧ (j < Mq.beg_row ∨ Mq.end_row < j)) ∧
      SendRequests (procMatrix K beg_rows end_rows q) (RowPattGet patt) =
        some (reqs, reqs.length) ∧
      (∀ m ∈ reqs, m.body ≠ [] ∧ ∀ x ∈ m.body, x ∈ RowPattGet patt ∧
        MatrixRowPe (procMatrix K beg_rows end_rows q) x = some m.dest) := by
  obtain ⟨hrows, hcap⟩ := hready
  obtain ⟨Mq, T, h1, h2, _, _, h5⟩ :=
    ConstructPatternForEachRow_spec pr L (procMatrix K beg_rows end_rows q)
      (fun r hr => (hrows r hr).1)
  have hloc : localRows Mq = localRows (procMatrix K beg_rows end_rows q) := localRows_congr h2
  obtain ⟨patt, c1, c2⟩ :=
    mergeRowsExt_spec Mq
      ((localRows (procMatrix K beg_rows end_rows q)).toFinset.biUnion (levelPattern pr L))
      (localRows Mq) (RowPattCreate ROWPATT_MAXLEN) (by simp [RowPattCreate])
      (by simp [RowPattCreate])
      (by
        intro r hr j hj _
        rw [hloc] at hr
        rw [Finset.mem_biUnion]
        exact ⟨r, List.mem_toFinset.mpr hr, (((h5 r hr).2 j).mp hj).2⟩)
      hcap
  have hmem : ∀ j, j ∈ RowPattGet patt ↔
      ∃ r ∈ localRows Mq, j ∈ Mq.inds r ∧ (j < Mq.beg_row ∨ Mq.end_row < j) := by
    intro j
    simp only [RowPattGet]
    rw [c2 j]
    simp only [RowPattCreate, List.not_mem_nil, false_or]
  have hcov : Covered (procMatrix K beg_rows end_rows q) (RowPattGet patt) := by
    intro x hx
    obtain ⟨r, hr, hj, _⟩ := (hmem x).mp hx
    rw [hloc] at hr
    obtain ⟨pe, hpe⟩ :=
      Option.isSome_iff_exists.mp ((hrows r hr).2 x (((h5 r hr).2 x).mp hj).2)
    exact ⟨pe, MatrixRowPe_some hpe⟩
  obtain ⟨reqs, d1, _, _, _, d5, d6, _, d8⟩ :=
    SendRequests_spec (procMatrix K beg_rows end_rows q) (RowPattGet patt) hd hcov
  refine ⟨Mq, T.card, patt, reqs, h1, h2, ?_, c1, hmem, d1, ?_⟩
  · intro r hr
    rw [hloc] at hr
    exact (h5 r hr).2
  · intro m hm
    refine ⟨(d5 m hm).1, fun x hx => ⟨?_, (d5 m hm).2.2 x hx⟩⟩
    apply d8.subset
    rw [← d6]
    exact List.mem_flatten.mpr ⟨m.body, List.mem_map.mpr ⟨m, hm, rfl⟩, hx⟩

/-- C18: on process `q` of the global model, with the blocks in the order of the ranks:
every row `r` that `ConstructPatternForEachRow` stores holds only columns `j ≤ r`; the list
that `ExchangeStoredRows` passes to `SendRequests` is the columns of the local rows of `M`
outside `[beg_row, end_row]`, and each of them is `< beg_row`; every REQ goes to a rank
strictly below `q` and asks only for rows of that rank, all below `beg_row`; and rank 0
sends no REQ. -/
theorem stored_requests_go_downward (K : Type) [Zero K] (beg_rows end_rows : List Int)
    (pr : PrunedRows) (L : Nat) (q : Nat) (hord : RankOrdered beg_rows end_rows)
    (hready : ProcReady K beg_rows end_rows pr L q) :
    ∃ (Mq : Matrix K) (n : Nat) (patt : RowPatt) (reqs : List Req),
      procPattern K beg_rows end_rows pr L q = some (Mq, n) ∧
      (∀ r ∈ localRows Mq, ∀ j ∈ Mq.inds r, j ≤ r) ∧
      mergeRowsExt Mq (RowPattCreate ROWPATT_MAXLEN) (localRows Mq) = some patt ∧
      (∀ j, j ∈ RowPattGet patt ↔
        ∃ r ∈ localRows Mq, j ∈ Mq.inds r ∧ (j < Mq.beg_row ∨ Mq.end_row < j)) ∧
      (∀ x ∈ RowPattGet patt, x < Mq.beg_row) ∧
      ExchangeStoredRows_requests (procMatrix K beg_rows end_rows q) Mq =
        some (reqs, reqs.length) ∧
      procRequests K beg_rows end_rows pr L q = some (reqs, reqs.length) ∧
      (∀ m ∈ reqs, m.dest < q ∧ ∀ x ∈ m.body, x < Mq.beg_row ∧
        x ∈ localRows (procMatrix K beg_rows end_rows m.dest)) ∧
      (q = 0 → reqs = []) := by
  obtain ⟨Mq, n, patt, reqs, h1, h2, h3, h4, h5, h6, h7⟩ :=
    procRequestBodies_spec K beg_rows end_rows pr L q
      (disjoint_of_rankOrdered K beg_rows end_rows q hord) hready
  have hlow : ∀ x ∈ RowPattGet patt, x < Mq.beg_row ∧ Mq.beg_row ≤ Mq.end_row := by
    intro x hx
    obtain ⟨r, hr, hj, hout⟩ := (h5 x).mp hx
    have hle := ((h3 r hr x).mp hj).1
    have := (mem_localRows Mq r).mp hr
    omega
  have hreq : ExchangeStoredRows_requests (procMatrix K beg_rows end_rows q) Mq =
      some (reqs, reqs.length) := by
    simp only [ExchangeStoredRows_requests, h4]
    exact h6
  have hdest : ∀ m ∈ reqs, m.dest < q ∧ ∀ x ∈ m.body, x < Mq.beg_row ∧
      x ∈ localRows (procMatrix K beg_rows end_rows m.dest) := by
    intro m hm
    obtain ⟨hne, hbody⟩ := h7 m hm
    have hin : ∀ x ∈ m.body, x < Mq.beg_row ∧
        x ∈ localRows (procMatrix K beg_rows end_rows m.dest) := by
      intro x hx
      refine ⟨(hlow x (hbody x hx).1).1, ?_⟩
      exact (inBlock_procMatrix K beg_rows end_rows q m.dest x).mp
        (MatrixRowPe_some (hbody x hx).2).2
    refine ⟨?_, hin⟩
    obtain ⟨y, hy⟩ := List.exists_mem_of_ne_nil _ hne
    have hy1 := hlow y (hbody y hy).1
    have hy2 := MatrixRowPe_some (hbody y hy).2
    rw [inBlock_iff] at hy2
    have hb : Mq.beg_row = beg_rows.getD q 0 := h2.1
    have he : Mq.end_row = end_rows.getD q 0 := h2.2.1
    simp only [procMatrix, Matrix.npes] at hy2
    by_contra hge
    rcases Nat.eq_or_lt_of_le (Nat.le_of_not_lt hge) with heq | hlt
    · rw [← heq] at hy2
      omega
    · have := hord m.dest hy2.1 q hlt
      omega
  refine ⟨Mq, n, patt, reqs, h1, fun r hr j hj => ((h3 r hr j).mp hj).1, h4, h5,
    fun x hx => (hlow x hx).1, hreq, ?_, hdest, ?_⟩
  · simp only [procRequests, procPattern, h1]
    exact hreq
  · intro hq
    rw [List.eq_nil_iff_forall_not_mem]
    intro m hm
    have := (hdest m hm).1
    omega

/-- C18 witness: process 1 of two processes with rows `0..3` and `4..7`, the tridiagonal
pattern, one level. -/
theorem stored_requests_go_downward_witness :
    ∃ (Mq : Matrix ℚ) (n : Nat) (patt : RowPatt) (reqs : List Req),
      procPattern ℚ [0, 4] [3, 7] triPruned 1 1 = some (Mq, n) ∧
      (∀ r ∈ localRows Mq, ∀ j ∈ Mq.inds r, j ≤ r) ∧
      mergeRowsExt Mq (RowPattCreate ROWPATT_MAXLEN) (localRows Mq) = some patt ∧
      (∀ j, j ∈ RowPattGet patt ↔
        ∃ r ∈ localRows Mq, j ∈ Mq.inds r ∧ (j < Mq.beg_row ∨ Mq.end_row < j)) ∧
      (∀ x ∈ RowPattGet patt, x < Mq.beg_row) ∧
      ExchangeStoredRows_requests (procMatrix ℚ [0, 4] [3, 7] 1) Mq =
        some (reqs, reqs.length) ∧
      procRequests ℚ [0, 4] [3, 7] triPruned 1 1 = some (reqs, reqs.length) ∧
      (∀ m ∈ reqs, m.dest < 1 ∧ ∀ x ∈ m.body, x < Mq.beg_row ∧
        x ∈ localRows (procMatrix ℚ [0, 4] [3, 7] m.dest)) ∧
      (1 = 0 → reqs = []) :=
  stored_requests_go_downward ℚ [0, 4] [3, 7] triPruned 1 1 (by decide) (by decide)

/-! ### Two scenarios of the spec -/

/-- C12, the claim as it stands does not hold: with the quadrants numbered row by row,
`num_replies` is not 2 on each of the four processes, neither with all pruned rows at hand
nor with the pruned rows that each process holds after `ExchangePrunedRows`. -/
theorem laplace_num_replies_not_two :
    ¬ (∀ p ∈ List.range 4,
        (procPattern ℚ [0, 4, 8, 12] [3, 7, 11, 15] laplacePruned 1 p).map Prod.snd =
          some 2) ∧
    ¬ (∀ p ∈ List.range 4,
        (procPatternExchanged ℚ [0, 4, 8, 12] [3, 7, 11, 15] laplacePruned 1 p).map Prod.snd =
          some 2) := by
  decide

/-- C12 (amended): for the 5-point Laplacian on the 4×4 grid, one quadrant of 4 rows on each
of 4 processes, every nonzero kept and `L = 1`, `ConstructPatternForEachRow` returns
`num_replies = 3, 2, 1, 0` on ranks `0, 1, 2, 3`; with `L = 0` it returns `2, 1, 1, 0`;
and it returns `3, 2, 1, 0` as well on the pruned rows that each process holds after
`ExchangePrunedRows` with `L = 1`. -/
theorem laplace_num_replies :
    laplaceReplies 1 = [some 3, some 2, some 1, some 0] ∧
    laplaceReplies 0 = [some 2, some 1, some 1, some 0] ∧
    (List.range 4).map (fun p =>
      (procPatternExchanged ℚ [0, 4, 8, 12] [3, 7, 11, 15] laplacePruned 1 p).map Prod.snd) =
      [some 3, some 2, some 1, some 0] := by
  decide

/-- C13, the claim as it stands does not hold: on process 0 the stored row 2 holds the
column 0, which is not in `{r − 1, r}`. -/
theorem tridiagonal_not_bidiagonal :
    ¬ (∀ p, p < 2 → ∃ (M : Matrix ℚ) (n : Nat),
        procPattern ℚ [0, 8] [7, 15] triPruned16 1 p = some (M, n) ∧
        ∀ r ∈ localRows M, ∀ j, j ∈ M.inds r ↔ 0 ≤ j ∧ r - 1 ≤ j ∧ j ≤ r) := by
  intro h
  obtain ⟨M, n, hM, hrows⟩ := h 0 (by decide)
  have hrun : triStoredPattern 1 0 = some [(0, [0]), (1, [1, 0]), (2, [2, 1, 0]),
      (3, [3, 2, 1]), (4, [4, 3, 2]), (5, [5, 4, 3]), (6, [6, 5, 4]), (7, [7, 6, 5])] := by
    decide
  simp only [triStoredPattern, hM, Option.map_some', Option.some.injEq] at hrun
  have hloc : localRows M = [0, 1, 2, 3, 4, 5, 6, 7] := by
    have := congrArg (List.map Prod.fst) hrun
    simpa [List.map_map, Function.comp_def] using this
  have h2 : M.inds 2 = [2, 1, 0] := by
    rw [hloc] at hrun
    simp only [List.map_cons, List.map_nil, List.cons.injEq, Prod.mk.injEq, true_and] at hrun
    exact hrun.2.2.1
  have := (hrows 2 (by rw [hloc]; decide) 0).mp (by rw [h2]; decide)
  omega

/-- C13 (amended): for the tridiagonal pattern with rows `0..15`, two processes and
`num_levels = 1`, `ConstructPatternForEachRow` stores in each row `r` the columns
`r, r − 1, r − 2` that lie in `0..15`, the indices `j ≤ r` within two steps; the
lower-bidiagonal pattern `r, r − 1` is what it stores for `num_levels = 0`; and it stores
`r, r − 1, r − 2` as well on the pruned rows that each process holds after
`ExchangePrunedRows` with one level. -/
theorem tridiagonal_level_one_pattern :
    (List.range 2).map (triStoredPattern 1) =
      (List.range 2).map (fun p => some ((localRows (procMatrix ℚ [0, 8] [7, 15] p)).map
        (fun r => (r, [r, r - 1, r - 2].filter (fun j => decide (0 ≤ j)))))) ∧
    (List.range 2).map (triStoredPattern 0) =
      (List.range 2).map (fun p => some ((localRows (procMatrix ℚ [0, 8] [7, 15] p)).map
        (fun r => (r, [r, r - 1].filter (fun j => decide (0 ≤ j)))))) ∧
    (List.range 2).map (fun p =>
      (procPatternExchanged ℚ [0, 8] [7, 15] triPruned16 1 p).map
        (fun x => (localRows x.1).map (fun r => (r, x.1.inds r)))) =
      (List.range 2).map (fun p => some ((localRows (procMatrix ℚ [0, 8] [7, 15] p)).map
        (fun r => (r, [r, r - 1, r - 2].filter (fun j => decide (0 ≤ j)))))) := by
  decide

/-! ### Lookups after the insertion loop -/

theorem Finds.lookup {h : Hash} {key : Int} {s : Nat} (hf : Finds h key s) :
    HashLookup h key = (s : Int) := by
  unfold Finds at hf
  simp [HashLookup, hf]

theorem Finds.ne_notfound {h : Hash} {key : Int} {s : Nat} (hf : Finds h key s) :
    HashLookup h key ≠ HASH_NOTFOUND := by
  rw [hf.lookup]
  simp only [HASH_NOTFOUND]
  omega

/-- Filling an empty slot does not change where the probe finds a key. -/
theorem probe_set_empty (h : Hash) (key k : Int) (e s : Nat)
    (hempty : h.table.getD e none = none) :
    ∀ (fuel loc : Nat), h.probe key fuel loc = some (s, true) →
      Hash.probe { h with table := h.table.set e (some k) } key fuel loc = some (s, true) := by
  intro fuel
  induction fuel with
  | zero => intro loc hp; simp [Hash.probe] at hp
  | succ fuel ih =>
    intro loc hp
    unfold Hash.probe at hp ⊢
    cases hslot : h.table.getD loc none with
    | none => rw [hslot] at hp; simp at hp
    | some k0 =>
      have hne : e ≠ loc := by
        intro heq
        rw [heq, hslot] at hempty
        simp at hempty
      rw [hslot] at hp
      simp only at hp ⊢
      rw [getD_set_other _ _ _ _ hne, hslot]
      simp only
      by_cases hk : k0 = key
      · rw [if_pos hk] at hp ⊢
        exact hp
      · rw [if_neg hk] at hp ⊢
        exact ih _ hp

/-- After the key is put in the empty slot where its probe ended, the probe finds it
there. -/
theorem probe_set_new (h : Hash) (key : Int) (e : Nat) (he : e < h.table.length)
    (hempty : h.table.getD e none = none) :
    ∀ (fuel loc : Nat), h.probe key fuel loc = some (e, false) →
      Hash.probe { h with table := h.table.set e (some key) } key fuel loc = some (e, true) := by
  intro fuel
  induction fuel with
  | zero => intro loc hp; simp [Hash.probe] at hp
  | succ fuel ih =>
    intro loc hp
    unfold Hash.probe at hp ⊢
    cases hslot : h.table.getD loc none with
    | none =>
      rw [hslot] at hp
      simp only [Option.some.injEq, Prod.mk.injEq, and_true] at hp
      subst hp
      simp only
      rw [getD_set_same _ _ _ he]
      simp
    | some k0 =>
      have hne : e ≠ loc := by
        intro heq
        rw [heq, hslot] at hempty
        simp at hempty
      rw [hslot] at hp
      simp only at hp ⊢
      rw [getD_set_other _ _ _ _ hne, hslot]
      simp only
      by_cases hk : k0 = key
      · rw [if_pos hk] at hp
        simp at hp
      · rw [if_neg hk] at hp ⊢
        exact ih _ hp

theorem Finds.slot {h : Hash} {key : Int} {s : Nat} (hf : Finds h key s) (hpos : 0 < h.size) :
    s < h.size ∧ h.table.getD s none = some key := by
  obtain ⟨h1, h2, _⟩ := Hash.probe_some h key _ _ s true (Hash.start_lt h key hpos) hf
  exact ⟨h1, h2 rfl⟩

/-- The insertion loop on distinct keys that are not in the table: afterwards the lookup
of the `t`-th key finds a slot `s` with `local[s] = i + t` and `index[i + t] = s`; keys
found before are found in the same slot with the same `local`; and every occupied slot
either was occupied or is one of the `index[i + t]`. -/
theorem insertIndices_strong :
    ∀ (keys : List Int) (hash : Hash) (localIdx index : List Int) (i n : Nat),
      hash.table.length = hash.size → localIdx.length = hash.size →
      hash.table.countP Option.isSome ≤ n → n + keys.length < hash.size →
      keys.Nodup → (∀ k ∈ keys, ∀ s, hash.table.getD s none ≠ some k) →
      i + keys.length ≤ index.length →
      ∃ (hash' : Hash) (localIdx' index' : List Int),
        insertIndices (hash, localIdx, index) keys (i : Int) = some (hash', localIdx', index') ∧
        hash'.size = hash.size ∧ hash'.table.length = hash.size ∧
        localIdx'.length = hash.size ∧ index'.length = index.length ∧
        (∀ t, t < keys.length → ∃ s, s < hash.size ∧ Finds hash' (keys.getD t 0) s ∧
          arrGet localIdx' (s : Int) = some ((i + t : Nat) : Int) ∧
          arrGet index' ((i + t : Nat) : Int) = some (s : Int)) ∧
        (∀ key s, Finds hash key s →
          Finds hash' key s ∧ arrGet localIdx' (s : Int) = arrGet localIdx (s : Int)) ∧
        (∀ p, p < i → arrGet index' ((p : Nat) : Int) = arrGet index ((p : Nat) : Int)) ∧
        (∀ s, hash'.table.getD s none ≠ none → hash.table.getD s none ≠ none ∨
          ∃ t, t < keys.length ∧ arrGet index' ((i + t : Nat) : Int) = some (s : Int)) := by
  intro keys
  induction keys with
  | nil =>
    intro hash localIdx index i n htl hll _ _ _ _ _
    refine ⟨hash, localIdx, index, rfl, rfl, htl, hll, rfl, ?_, ?_, ?_, ?_⟩
    · intro t ht; simp at ht
    · intro key s hf; exact ⟨hf, rfl⟩
    · intro p _; rfl
    · intro s hs; exact Or.inl hs
  | cons key rest ih =>
    intro hash localIdx index i n htl hll hcount hroom hnd hnew hidx
    simp only [List.length_cons] at hroom hidx
    have hpos : 0 < hash.size := by omega
    obtain ⟨e, he, hempty⟩ := exists_empty_slot hash.table (by rw [htl]; omega)
    rw [htl] at he
    obtain ⟨⟨s, b⟩, hp⟩ :=
      Hash.probe_isSome hash key e he hempty (hash.start key) (Hash.start_lt hash key hpos)
    obtain ⟨hs, hT, hF⟩ := Hash.probe_some hash key _ _ s b (Hash.start_lt hash key hpos) hp
    have hb : b = false := by
      cases b with
      | false => rfl
      | true => exact absurd (hT rfl) (hnew key (List.mem_cons_self _ _) s)
    subst hb
    have hsempty := hF rfl
    have hset1 : arrSet localIdx (s : Int) (i : Int) = some (localIdx.set s (i : Int)) := by
      have : (0 : Int) ≤ (s : Int) ∧ (s : Int) < (localIdx.length : Int) := by
        rw [hll]; omega
      simp [arrSet, this]
    have hset2 : arrSet index (i : Int) (s : Int) = some (index.set i (s : Int)) := by
      have : (0 : Int) ≤ (i : Int) ∧ (i : Int) < (index.length : Int) := by omega
      simp [arrSet, this]
    have hcount1 : ({ hash with table := hash.table.set s (some key) } : Hash).table.countP
        Option.isSome ≤ n + 1 := by
      simp only
      rw [countP_isSome_set _ _ _ hsempty (by rw [htl]; exact hs)]
      omega
    have hnew1 : ∀ k ∈ rest, ∀ s', ({ hash with table := hash.table.set s (some key) } :
        Hash).table.getD s' none ≠ some k := by
      intro k hk s'
      simp only
      by_cases hss : s = s'
      · subst hss
        rw [getD_set_same _ _ _ (by rw [htl]; exact hs)]
        intro heq
        have : key = k := Option.some.inj heq
        subst this
        exact (List.nodup_cons.mp hnd).1 hk
      · rw [getD_set_other _ _ _ _ hss]
        exact hnew k (List.mem_cons_of_mem _ hk) s'
    obtain ⟨hash', localIdx', index', g1, g2, g3, g4, g5, g6, g7, g8, g9⟩ :=
      ih { hash with table := hash.table.set s (some key) } (localIdx.set s (i : Int))
        (index.set i (s : Int)) (i + 1) (n + 1)
        (by simp only [List.length_set]; exact htl)
        (by rw [List.length_set]; exact hll) hcount1 (by simp only; omega)
        (List.nodup_cons.mp hnd).2 hnew1 (by rw [List.length_set]; omega)
    simp only at g2 g3 g4
    rw [List.length_set] at g5
    have hfind1 : Finds { hash with table := hash.table.set s (some key) } key s :=
      probe_set_new hash key s (by rw [htl]; exact hs) hsempty _ _ hp
    have hidx_i : arrGet index' ((i : Nat) : Int) = some (s : Int) := by
      rw [g8 i (by omega)]
      exact arrGet_set_same _ _ _ (by omega)
    refine ⟨hash', localIdx', index', ?_, g2, g3, g4, g5, ?_, ?_, ?_, ?_⟩
    · simp only [insertIndices, HashInsert, hp, hset1, hset2]
      have : ((i : Int) + 1) = ((i + 1 : Nat) : Int) := by push_cast; rfl
      rw [this]
      exact g1
    · intro t ht
      cases t with
      | zero =>
        obtain ⟨f1, f2⟩ := g7 key s hfind1
        refine ⟨s, hs, by simpa using f1, ?_, by simpa using hidx_i⟩
        rw [f2]
        simpa using arrGet_set_same localIdx s (i : Int) (by rw [hll]; exact hs)
      | succ t =>
        simp only [List.length_cons] at ht
        obtain ⟨s', k1, k2, k3, k4⟩ := g6 t (by omega)
        have e1 : i + 1 + t = i + (t + 1) := by omega
        rw [e1] at k3 k4
        exact ⟨s', k1, by simpa using k2, k3, k4⟩
    · intro key0 s0 hf0
      have hslot0 := (Finds.slot hf0 hpos).2
      have hne : s ≠ s0 := by
        intro heq
        rw [heq, hslot0] at hsempty
        simp at hsempty
      have hf1 : Finds { hash with table := hash.table.set s (some key) } key0 s0 :=
        probe_set_empty hash key0 key s s0 hsempty _ _ hf0
      obtain ⟨f1, f2⟩ := g7 key0 s0 hf1
      exact ⟨f1, by rw [f2, arrGet_set_other _ _ _ _ hne]⟩
    · intro p hp'
      rw [g8 p (by omega)]
      exact arrGet_set_other _ _ _ _ (by omega)
    · intro s' hocc
      rcases g9 s' hocc with h1 | ⟨t, ht, hget⟩
      · by_cases hss : s = s'
        · subst hss
          exact Or.inr ⟨0, by simp, by simpa using hidx_i⟩
        · simp only at h1
          rw [getD_set_other _ _ _ _ hss] at h1
          exact Or.inl h1
      · refine Or.inr ⟨t + 1, by simp only [List.length_cons]; omega, ?_⟩
        have e1 : i + 1 + t = i + (t + 1) := by omega
        rw [e1] at hget
        exact hget

/-! ### The table after a row -/

theorem getD_set_none {α : Type} (l : List (Option α)) (a s : Nat) :
    (l.set a none).getD s none = if a = s then none else l.getD s none := by
  by_cases h : a = s
  · subst h
    rw [if_pos rfl]
    by_cases ha : a < l.length
    · exact getD_set_same l a none ha
    · rw [List.getD_eq_getElem?_getD, List.getElem?_eq_none (by rw [List.length_set]; omega)]
      rfl
  · rw [if_neg h]
    exact getD_set_other l a s none h

/-- `HashReset` empties the slots of the list and leaves the others. -/
theorem HashReset_getD :
    ∀ (slots : List Int) (h : Hash) (s : Nat),
      ((slots.foldl (fun (h : Hash) slot => { h with table := h.table.set slot.toNat none })
          h).size = h.size) ∧
      ((slots.foldl (fun (h : Hash) slot => { h with table := h.table.set slot.toNat none })
          h).table.length = h.table.length) ∧
      ((slots.foldl (fun (h : Hash) slot => { h with table := h.table.set slot.toNat none })
          h).table.getD s none =
        if ∃ slot ∈ slots, slot.toNat = s then none else h.table.getD s none) := by
  intro slots
  induction slots with
  | nil => intro h s; simp
  | cons a rest ih =>
    intro h s
    obtain ⟨h1, h2, h3⟩ := ih { h with table := h.table.set a.toNat none } s
    simp only [List.foldl_cons]
    refine ⟨h1, by rw [h2]; simp, ?_⟩
    rw [h3]
    simp only [getD_set_none]
    by_cases hr : ∃ slot ∈ rest, slot.toNat = s
    · have : ∃ slot ∈ a :: rest, slot.toNat = s := by
        obtain ⟨x, hx, hxs⟩ := hr
        exact ⟨x, List.mem_cons_of_mem _ hx, hxs⟩
      rw [if_pos hr, if_pos this]
    · rw [if_neg hr]
      by_cases ha : a.toNat = s
      · rw [if_pos ha, if_pos ⟨a, List.mem_cons_self _ _, ha⟩]
      · rw [if_neg ha, if_neg]
        rintro ⟨x, hx, hxs⟩
        rcases List.mem_cons.mp hx with rfl | hx'
        · exact ha hxs
        · exact hr ⟨x, hx', hxs⟩

theorem mem_take_of_arrGet (index : List Int) (t len : Nat) (x : Int) (ht : t < len)
    (h : arrGet index ((t : Nat) : Int) = some x) : x ∈ index.take len := by
  simp only [arrGet, Int.toNat_ofNat, Nat.cast_nonneg, if_true] at h
  rw [List.get?_eq_getElem?] at h
  have h2 : (index.take len)[t]? = some x := by
    rw [List.getElem?_take_of_lt ht]
    exact h
  exact List.getElem?_mem h2

/-- The insertion loop for a duplicate-free pattern `J`, from an empty table: it succeeds;
the lookup of `J[t]` finds a slot whose `local` is `t`; an index outside `J` is not found;
and `HashReset` over the recorded slots gives the empty table back. -/
theorem insertIndices_clean (J : List Int) (hash0 : Hash) (localIdx0 index0 : List Int)
    (htable : hash0.table = List.replicate hash0.size none)
    (hlocal : localIdx0.length = hash0.size) (hroom : J.length < hash0.size)
    (hindex : J.length ≤ index0.length) (hnd : J.Nodup) :
    ∃ (hash : Hash) (localIdx index : List Int),
      insertIndices (hash0, localIdx0, index0) J 0 = some (hash, localIdx, index) ∧
      hash.size = hash0.size ∧ localIdx.length = hash0.size ∧
      index.length = index0.length ∧ HashInv (J.length : Int) J hash localIdx ∧
      (∀ t, t < J.length → HashLookup hash (J.getD t 0) ≠ HASH_NOTFOUND ∧
        arrGet localIdx (HashLookup hash (J.getD t 0)) = some (t : Int)) ∧
      (∀ c, c ∉ J → HashLookup hash c = HASH_NOTFOUND) ∧
      HashReset hash J.length index = hash0 := by
  have hget0 : ∀ s, hash0.table.getD s none = none := by
    intro s
    rw [htable, List.getD_eq_getElem?_getD]
    by_cases hs : s < hash0.size
    · simp [List.getElem?_replicate, hs]
    · simp [List.getElem?_replicate, hs]
  have hinv0 : HashInv (J.length : Int) J hash0 localIdx0 := by
    refine ⟨by rw [htable, List.length_replicate], hlocal, ?_⟩
    intro s k hget
    rw [hget0 s] at hget
    simp at hget
  have hcount0 : hash0.table.countP Option.isSome ≤ 0 := by
    rw [htable, List.countP_replicate]
    simp
  obtain ⟨hash, localIdx, index, a1, a2, a3, a4, a5, a6, _, _, a9⟩ :=
    insertIndices_strong J hash0 localIdx0 index0 0 0
      (by rw [htable, List.length_replicate]) hlocal hcount0 (by omega) hnd
      (by intro k _ s; rw [hget0 s]; simp) (by omega)
  obtain ⟨hash', localIdx', index', b1, b2, _⟩ :=
    insertIndices_spec (J.length : Int) J J hash0 localIdx0 index0 0 0 hinv0 hcount0
      (by omega) (fun k hk => hk) (le_refl 0) (by omega) (by omega)
  simp only [Nat.cast_zero] at a1
  have heq : (hash', localIdx', index') = (hash, localIdx, index) :=
    Option.some.inj (b1.symm.trans a1)
  simp only [Prod.mk.injEq] at heq
  obtain ⟨e1, e2, _⟩ := heq
  subst e1 e2
  have hpos : 0 < hash'.size := by rw [a2]; omega
  refine ⟨hash', localIdx', index, a1, a2, a4, a5, b2, ?_, ?_, ?_⟩
  · intro t ht
    obtain ⟨s, _, f1, f2, _⟩ := a6 t ht
    refine ⟨f1.ne_notfound, ?_⟩
    rw [f1.lookup, f2]
    simp
  · intro c hc
    exact HashLookup_notfound _ _ hash' localIdx' b2 hpos c hc
  · obtain ⟨r1, r2, _⟩ := HashReset_getD (index.take J.length) hash' 0
    have hall : ∀ s, (HashReset hash' J.length index).table.getD s none = none := by
      intro s
      unfold HashReset
      rw [(HashReset_getD (index.take J.length) hash' s).2.2]
      split_ifs with hmem
      · rfl
      · by_contra hne
        rcases a9 s hne with h0 | ⟨t, ht, hget⟩
        · exact h0 (hget0 s)
        · simp only [Nat.zero_add] at hget
          exact hmem ⟨(s : Int), mem_take_of_arrGet index t J.length _ ht hget, by simp⟩
    have hsize : (HashReset hash' J.length index).size = hash0.size := by
      unfold HashReset
      rw [r1, a2]
    have hlen : (HashReset hash' J.length index).table.length = hash0.size := by
      unfold HashReset
      rw [r2, a3]
    have htab : (HashReset hash' J.length index).table = List.replicate hash0.size none := by
      rw [List.eq_replicate_iff]
      refine ⟨hlen, ?_⟩
      intro b hb
      obtain ⟨n, hn, hbn⟩ := List.getElem_of_mem hb
      have := hall n
      rw [List.getD_eq_getElem?_getD, List.getElem?_eq_getElem hn, hbn] at this
      exact this
    cases hr : HashReset hash' J.length index with
    | mk sz tb =>
      rw [hr] at hsize htab
      simp only at hsize htab
      cases hash0 with
      | mk sz0 tb0 =>
        simp only at htable hsize htab
        subst hsize
        rw [htab, htable]

/-! ### The entries of `ahat` -/

theorem lookup_cons_int {K : Type} (es : List (Int × K)) (a k : Int) (b : K) :
    List.lookup a ((k, b) :: es) = if a = k then some b else List.lookup a es := by
  simp only [List.lookup_cons]
  split <;> simp_all

theorem lookup_zip_none {K : Type} :
    ∀ (ind : List Int) (val : List K) (c : Int), c ∉ ind → (ind.zip val).lookup c = none := by
  intro ind
  induction ind with
  | nil => intro val c _; simp
  | cons a rest ih =>
    intro val c hc
    cases val with
    | nil => simp
    | cons v vrest =>
      have hca : c ≠ a := fun h => hc (by rw [h]; exact List.mem_cons_self _ _)
      rw [List.zip_cons_cons, lookup_cons_int, if_neg hca]
      exact ih vrest c (fun h => hc (List.mem_cons_of_mem _ h))

/-- The inner loop that fills `ahat`, entry by entry: the entry for `J[l]` of the `len`
entries at `ahatp` is the value of the stored row at column `J[l]` when that column
occurs, and is left as it was otherwise; nothing else changes. -/
theorem formAhatRow_entries {K : Type} (J : List Int) (hash : Hash) (localIdx : List Int)
    (hnd : J.Nodup)
    (hfound : ∀ t, t < J.length → HashLookup hash (J.getD t 0) ≠ HASH_NOTFOUND ∧
      arrGet localIdx (HashLookup hash (J.getD t 0)) = some (t : Int))
    (hnot : ∀ c, c ∉ J → HashLookup hash c = HASH_NOTFOUND) (off : Nat) :
    ∀ (ind2 : List Int) (val2 : List K) (ahat : List K), ind2.Nodup →
      ind2.length ≤ val2.length → off + J.length ≤ ahat.length →
      ∃ ahat' : List K, formAhatRow hash localIdx (off : Int) ahat ind2 val2 = some ahat' ∧
        ahat'.length = ahat.length ∧
        (∀ l, l < J.length → ∀ v, (ind2.zip val2).lookup (J.getD l 0) = some v →
          ahat'[off + l]? = some v) ∧
        (∀ l, l < J.length → (ind2.zip val2).lookup (J.getD l 0) = none →
          ahat'[off + l]? = ahat[off + l]?) ∧
        (∀ p, p < off ∨ off + J.length ≤ p → ahat'[p]? = ahat[p]?) := by
  intro ind2
  induction ind2 with
  | nil =>
    intro val2 ahat _ _ _
    refine ⟨ahat, by simp [formAhatRow], rfl, ?_, ?_, ?_⟩
    · intro l _ v hv; simp at hv
    · intro l _ _; rfl
    · intro p _; rfl
  | cons c rest ih =>
    intro val2 ahat hnd2 hlen hroom
    cases val2 with
    | nil => simp at hlen
    | cons v vrest =>
      simp only [List.length_cons] at hlen
      have hcr : c ∉ rest := (List.nodup_cons.mp hnd2).1
      by_cases hc : c ∈ J
      · obtain ⟨t, ht, htc⟩ := List.mem_iff_getElem.mp hc
        have htd : J.getD t 0 = c := by rw [List.getD_eq_getElem J 0 ht]; exact htc
        obtain ⟨hne, hloc⟩ := hfound t ht
        rw [htd] at hne hloc
        have hset : arrSet ahat ((off : Int) + (t : Int)) v = some (ahat.set (off + t) v) := by
          have : (0 : Int) ≤ (off : Int) + (t : Int) ∧
              (off : Int) + (t : Int) < (ahat.length : Int) := by omega
          have e : ((off : Int) + (t : Int)).toNat = off + t := by omega
          simp [arrSet, this, e]
        obtain ⟨ahat', g1, g2, g3, g4, g5⟩ := ih vrest (ahat.set (off + t) v)
          (List.nodup_cons.mp hnd2).2 (by omega) (by rw [List.length_set]; exact hroom)
        refine ⟨ahat', ?_, by rw [g2, List.length_set], ?_, ?_, ?_⟩
        · simp only [formAhatRow, hne, ne_eq, not_false_eq_true, if_true, hloc, hset]
          exact g1
        · intro l hl w hw
          rw [List.zip_cons_cons, lookup_cons_int] at hw
          by_cases hlc : J.getD l 0 = c
          · rw [if_pos hlc] at hw
            have hlt : l = t := by
              rw [List.getD_eq_getElem J 0 hl, ← htc] at hlc
              exact (List.Nodup.getElem_inj_iff hnd).mp hlc
            subst hlt
            rw [g4 l hl (by rw [hlc]; exact lookup_zip_none rest vrest c hcr)]
            rw [List.getElem?_set_self (by omega)]
            exact hw
          · rw [if_neg hlc] at hw
            exact g3 l hl w hw
        · intro l hl hw
          rw [List.zip_cons_cons, lookup_cons_int] at hw
          by_cases hlc : J.getD l 0 = c
          · rw [if_pos hlc] at hw
            simp at hw
          · rw [if_neg hlc] at hw
            rw [g4 l hl hw]
            have : off + t ≠ off + l := by
              intro h
              have : t = l := by omega
              subst this
              exact hlc htd
            rw [List.getElem?_set_ne this]
        · intro p hp
          rw [g5 p hp]
          rw [List.getElem?_set_ne (by omega)]
      · have hnf := hnot c hc
        obtain ⟨ahat', g1, g2, g3, g4, g5⟩ := ih vrest ahat (List.nodup_cons.mp hnd2).2
          (by omega) hroom
        have hJc : ∀ l, l < J.length → J.getD l 0 ≠ c := by
          intro l hl h
          apply hc
          rw [← h, List.getD_eq_getElem J 0 hl]
          exact List.getElem_mem hl
        refine ⟨ahat', ?_, g2, ?_, ?_, g5⟩
        · simp only [formAhatRow, hnf, ne_eq, not_true_eq_false, if_false]
          exact g1
        · intro l hl w hw
          rw [List.zip_cons_cons, lookup_cons_int, if_neg (hJc l hl)] at hw
          exact g3 l hl w hw
        · intro l hl hw
          rw [List.zip_cons_cons, lookup_cons_int, if_neg (hJc l hl)] at hw
          exact g4 l hl hw

/-- The loop that forms `ahat`, entry by entry: for the `t`-th row `keys[t]` of the loop
and the `l`-th index of the pattern, the entry `t * len + l` after `ahatp` is the stored
value of row `keys[t]` at column `J[l]` when the row holds that column, and is left as it
was otherwise; nothing is written outside these `keys.length * len` entries. -/
theorem formAhat_entries {K : Type} (stored_rows : StoredRows K) (J : List Int) (hash : Hash)
    (localIdx : List Int) (hnd : J.Nodup)
    (hfound : ∀ t, t < J.length → HashLookup hash (J.getD t 0) ≠ HASH_NOTFOUND ∧
      arrGet localIdx (HashLookup hash (J.getD t 0)) = some (t : Int))
    (hnot : ∀ c, c ∉ J → HashLookup hash c = HASH_NOTFOUND) :
    ∀ (keys : List Int) (ahat : List K) (off : Nat),
      off + keys.length * J.length ≤ ahat.length →
      (∀ k ∈ keys, StoredRowPresent stored_rows k ∧ (storedInd stored_rows k).Nodup) →
      ∃ ahat' : List K,
        formAhat stored_rows hash localIdx (J.length : Int) ahat keys (off : Int) =
          some ahat' ∧
        ahat'.length = ahat.length ∧
        (∀ t l, t < keys.length → l < J.length →
          ∀ v, storedEntry stored_rows (keys.getD t 0) (J.getD l 0) = some v →
            ahat'[off + t * J.length + l]? = some v) ∧
        (∀ t l, t < keys.length → l < J.length →
          storedEntry stored_rows (keys.getD t 0) (J.getD l 0) = none →
            ahat'[off + t * J.length + l]? = ahat[off + t * J.length + l]?) ∧
        (∀ p, p < off ∨ off + keys.length * J.length ≤ p → ahat'[p]? = ahat[p]?) := by
  intro keys
  induction keys with
  | nil =>
    intro ahat off _ _
    refine ⟨ahat, by simp [formAhat], rfl, ?_, ?_, ?_⟩
    · intro t l ht; simp at ht
    · intro t l ht; simp at ht
    · intro p _; rfl
  | cons key rest ih =>
    intro ahat off hroom hrows
    obtain ⟨hpres, hnd2⟩ := hrows key (List.mem_cons_self _ _)
    obtain ⟨hget, hvl⟩ := hpres.get
    simp only [List.length_cons] at hroom
    have hexp : (rest.length + 1) * J.length = rest.length * J.length + J.length := by ring
    obtain ⟨ahat1, a1, a2, a3, a4, a5⟩ :=
      formAhatRow_entries J hash localIdx hnd hfound hnot off (storedInd stored_rows key)
        (storedVal stored_rows key) ahat hnd2 (by omega) (by omega)
    obtain ⟨ahat2, b1, b2, b3, b4, b5⟩ := ih ahat1 (off + J.length)
      (by rw [a2]; omega) (fun k hk => hrows k (List.mem_cons_of_mem _ hk))
    have hentry : ∀ c, storedEntry stored_rows key c =
        ((storedInd stored_rows key).zip (storedVal stored_rows key)).lookup c := by
      intro c
      simp only [storedEntry, hget]
    refine ⟨ahat2, ?_, by rw [b2, a2], ?_, ?_, ?_⟩
    · simp only [formAhat, hget, a1]
      have : (off : Int) + (J.length : Int) = ((off + J.length : Nat) : Int) := by push_cast; rfl
      rw [this]
      exact b1
    · intro t l ht hl v hv
      cases t with
      | zero =>
        simp only [List.getD_cons_zero, hentry] at hv
        rw [b5 _ (Or.inl (by omega))]
        simpa using a3 l hl v hv
      | succ t =>
        simp only [List.length_cons] at ht
        simp only [List.getD_cons_succ] at hv
        have := b3 t l (by omega) hl v hv
        have e : off + (t + 1) * J.length + l = off + J.length + t * J.length + l := by ring
        rw [e]
        exact this
    · intro t l ht hl hv
      cases t with
      | zero =>
        simp only [List.getD_cons_zero, hentry] at hv
        rw [b5 _ (Or.inl (by omega))]
        simpa using a4 l hl hv
      | succ t =>
        simp only [List.length_cons] at ht
        simp only [List.getD_cons_succ] at hv
        have := b4 t l (by omega) hl hv
        have e : off + (t + 1) * J.length + l = off + J.length + t * J.length + l := by ring
        rw [e, this]
        apply a5
        right
        have : 0 ≤ t * J.length := Nat.zero_le _
        omega
    · intro p hp
      rw [b5 p (by
        rcases hp with h | h
        · left; omega
        · right; simp only [List.length_cons] at h; rw [hexp] at h; omega)]
      apply a5
      rcases hp with h | h
      · left; exact h
      · right
        simp only [List.length_cons] at h
        rw [hexp] at h
        have : 0 ≤ rest.length * J.length := Nat.zero_le _
        omega

/-! ### The diagonal in the pattern -/

/-- With `DEBUG` defined, a row that enters the loop body with an empty table and whose
duplicate-free pattern holds the row itself does not end in the pattern-defect abort. -/
theorem ComputeValuesRow_no_defect {K : Type} [LinearOrderedField K] (lapack : Lapack K)
    (debug : Bool) (stored_rows : StoredRows K) (st : ValState K) (row : Int)
    (htable : st.hash.table = List.replicate st.hash.size none)
    (hlocal : st.localIdx.length = st.hash.size)
    (hroom : (st.mat.inds row).length < st.hash.size)
    (hindex : (st.mat.inds row).length ≤ st.index.length)
    (hnd : (st.mat.inds row).Nodup) (hrow : row ∈ st.mat.inds row) :
    (∃ (hash : Hash) (localIdx index : List Int) (m : Int),
      insertIndices (st.hash, st.localIdx, st.index) (st.mat.inds row) 0 =
        some (hash, localIdx, index) ∧
      HashLookup hash row ≠ HASH_NOTFOUND ∧
      arrGet localIdx (HashLookup hash row) = some m ∧ 0 ≤ m ∧
      m < ((st.mat.inds row).length : Int) ∧
      arrSet (List.replicate (st.mat.inds row).length (0 : K)) m 1 =
        some ((List.replicate (st.mat.inds row).length (0 : K)).set m.toNat 1)) ∧
    ∀ row' mat, ComputeValuesRow lapack debug stored_rows st row ≠
      .error (.abort row' .patternDefect mat) := by
  obtain ⟨hash, localIdx, index, a1, _, _, _, _, a6, _, _⟩ :=
    insertIndices_clean (st.mat.inds row) st.hash st.localIdx st.index htable hlocal hroom
      hindex hnd
  obtain ⟨t, ht, htr⟩ := List.mem_iff_getElem.mp hrow
  have htd : (st.mat.inds row).getD t 0 = row := by
    rw [List.getD_eq_getElem _ 0 ht]; exact htr
  obtain ⟨hne, hloc⟩ := a6 t ht
  rw [htd] at hne hloc
  have hset : arrSet (List.replicate (st.mat.inds row).length (0 : K)) (t : Int) 1 =
      some ((List.replicate (st.mat.inds row).length (0 : K)).set t 1) := by
    have : (0 : Int) ≤ (t : Int) ∧ (t : Int) < ((st.mat.inds row).length : Int) := by omega
    simp [arrSet, this]
  refine ⟨⟨hash, localIdx, index, (t : Int), a1, hne, hloc, by omega, by omega,
    by simpa using hset⟩, ?_⟩
  intro row' mat
  by_cases hah : (st.mat.inds row).length * (st.mat.inds row).length ≤ st.ahat.length
  swap
  · simp [ComputeValuesRow, MatrixGetRow, a1, orUndefined, bind, Except.bind, hah]
  cases hform : formAhat stored_rows hash localIdx (st.mat.inds row).length
      (List.replicate ((st.mat.inds row).length * (st.mat.inds row).length) 0 ++
        st.ahat.drop ((st.mat.inds row).length * (st.mat.inds row).length))
      (st.mat.inds row) 0 with
  | none =>
    simp [ComputeValuesRow, MatrixGetRow, a1, orUndefined, bind, Except.bind, hah, hform]
  | some ahat =>
    rcases hfac : lapack.dpotrf (st.mat.inds row).length ahat with ⟨fac, info⟩
    by_cases hinfo : info = 0
    swap
    · simp [ComputeValuesRow, MatrixGetRow, a1, orUndefined, bind, Except.bind, hah, hform,
        hne, hloc, hset, hfac, hinfo]
    rcases hsol : lapack.dpotrs (st.mat.inds row).length fac
        ((List.replicate (st.mat.inds row).length (0 : K)).set t 1) with
      ⟨sol, info2⟩
    by_cases hinfo2 : info2 = 0
    swap
    · simp [ComputeValuesRow, MatrixGetRow, a1, orUndefined, bind, Except.bind, hah, hform,
        hne, hloc, hset, hfac, hinfo, hsol, hinfo2]
    cases hx : arrGet sol (t : Int) with
    | none =>
      simp [ComputeValuesRow, MatrixGetRow, a1, orUndefined, bind, Except.bind, hah, hform,
        hne, hloc, hset, hfac, hinfo, hsol, hinfo2, hx]
    | some x =>
      simp [ComputeValuesRow, MatrixGetRow, a1, orUndefined, bind, Except.bind, hah, hform,
        hne, hloc, hset, hfac, hinfo, hsol, hinfo2, hx]

/-- A row that returns leaves the table empty again and the work arrays and the structure
of the matrix as they were. -/
theorem ComputeValuesRow_ok_state {K : Type} [LinearOrderedField K] (lapack : Lapack K)
    (debug : Bool) (stored_rows : StoredRows K) (st st' : ValState K) (row : Int)
    (htable : st.hash.table = List.replicate st.hash.size none)
    (hlocal : st.localIdx.length = st.hash.size)
    (hroom : (st.mat.inds row).length < st.hash.size)
    (hindex : (st.mat.inds row).length ≤ st.index.length)
    (hnd : (st.mat.inds row).Nodup)
    (hok : ComputeValuesRow lapack debug stored_rows st row = .ok st') :
    st'.hash = st.hash ∧ st'.localIdx.length = st.localIdx.length ∧
      st'.index.length = st.index.length ∧ st'.mat.inds = st.mat.inds := by
  obtain ⟨hash, localIdx, index, a1, _, a3, a4, _, _, _, a8⟩ :=
    insertIndices_clean (st.mat.inds row) st.hash st.localIdx st.index htable hlocal hroom
      hindex hnd
  by_cases hah : (st.mat.inds row).length * (st.mat.inds row).length ≤ st.ahat.length
  swap
  · simp [ComputeValuesRow, MatrixGetRow, a1, orUndefined, bind, Except.bind, hah] at hok
  cases hform : formAhat stored_rows hash localIdx (st.mat.inds row).length
      (List.replicate ((st.mat.inds row).length * (st.mat.inds row).length) 0 ++
        st.ahat.drop ((st.mat.inds row).length * (st.mat.inds row).length))
      (st.mat.inds row) 0 with
  | none =>
    simp [ComputeValuesRow, MatrixGetRow, a1, orUndefined, bind, Except.bind, hah, hform]
      at hok
  | some ahat =>
    by_cases hdef : (debug && decide (HashLookup hash row = HASH_NOTFOUND)) = true
    · simp [ComputeValuesRow, MatrixGetRow, a1, orUndefined, bind, Except.bind, hah, hform,
        hdef] at hok
    cases hm : arrGet localIdx (HashLookup hash row) with
    | none =>
      simp [ComputeValuesRow, MatrixGetRow, a1, orUndefined, bind, Except.bind, hah, hform,
        hdef, hm] at hok
    | some m =>
      cases hset : arrSet (List.replicate (st.mat.inds row).length (0 : K)) m 1 with
      | none =>
        simp [ComputeValuesRow, MatrixGetRow, a1, orUndefined, bind, Except.bind, hah, hform,
          hdef, hm, hset] at hok
      | some rhs =>
        rcases hfac : lapack.dpotrf (st.mat.inds row).length ahat with ⟨fac, info⟩
        by_cases hinfo : info = 0
        swap
        · simp [ComputeValuesRow, MatrixGetRow, a1, orUndefined, bind, Except.bind, hah,
            hform, hdef, hm, hset, hfac, hinfo] at hok
        rcases hsol : lapack.dpotrs (st.mat.inds row).length fac rhs with ⟨sol, info2⟩
        by_cases hinfo2 : info2 = 0
        swap
        · simp [ComputeValuesRow, MatrixGetRow, a1, orUndefined, bind, Except.bind, hah,
            hform, hdef, hm, hset, hfac, hinfo, hsol, hinfo2] at hok
        cases hx : arrGet sol m with
        | none =>
          simp [ComputeValuesRow, MatrixGetRow, a1, orUndefined, bind, Except.bind, hah,
            hform, hdef, hm, hset, hfac, hinfo, hsol, hinfo2, hx] at hok
        | some x =>
          simp only [ComputeValuesRow, MatrixGetRow, a1, orUndefined, bind, Except.bind, hah,
            hform, hdef, hm, hset, hfac, hinfo, hsol, hinfo2, hx, if_true, ne_eq,
            not_true_eq_false, if_false, Bool.false_eq_true, Except.ok.injEq] at hok
          subst hok
          exact ⟨a8, by rw [a3, hlocal], a4, rfl⟩

theorem longestRow_fold {K : Type} (mat : Matrix K) :
    ∀ (rows : List Int) (m : Nat),
      m ≤ rows.foldl (fun maxlen row =>
        if (MatrixGetRow mat row).1.length > maxlen then (MatrixGetRow mat row).1.length
        else maxlen) m ∧
      ∀ r ∈ rows, (mat.inds r).length ≤ rows.foldl (fun maxlen row =>
        if (MatrixGetRow mat row).1.length > maxlen then (MatrixGetRow mat row).1.length
        else maxlen) m := by
  intro rows
  induction rows with
  | nil => intro m; simp
  | cons a rest ih =>
    intro m
    simp only [List.foldl_cons, MatrixGetRow]
    by_cases h : (mat.inds a).length > m
    · rw [if_pos h]
      obtain ⟨h1, h2⟩ := ih (mat.inds a).length
      simp only [MatrixGetRow] at h1 h2
      refine ⟨by omega, ?_⟩
      intro r hr
      rcases List.mem_cons.mp hr with rfl | hr'
      · exact h1
      · exact h2 r hr'
    · rw [if_neg h]
      obtain ⟨h1, h2⟩ := ih m
      simp only [MatrixGetRow] at h1 h2
      refine ⟨h1, ?_⟩
      intro r hr
      rcases List.mem_cons.mp hr with rfl | hr'
      · omega
      · exact h2 r hr'

/-- No local row is longer than the longest row. -/
theorem length_le_longestRow {K : Type} (mat : Matrix K) (r : Int) (hr : r ∈ localRows mat) :
    (mat.inds r).length ≤ longestRow mat :=
  (longestRow_fold mat (localRows mat) 0).2 r hr

/-- The row loop from an empty table never ends in the pattern-defect abort when every
row to come is in its own duplicate-free pattern and the arrays have room for it. -/
theorem ComputeValuesRows_no_defect {K : Type} [LinearOrderedField K] (lapack : Lapack K)
    (debug : Bool) (stored_rows : StoredRows K) :
    ∀ (rows : List Int) (st : ValState K),
      st.hash.table = List.replicate st.hash.size none →
      st.localIdx.length = st.hash.size →
      (∀ r ∈ rows, (st.mat.inds r).Nodup ∧ r ∈ st.mat.inds r ∧
        (st.mat.inds r).length < st.hash.size ∧ (st.mat.inds r).length ≤ st.index.length) →
      ∀ row' mat, ComputeValuesRows lapack debug stored_rows st rows ≠
        .error (.abort row' .patternDefect mat) := by
  intro rows
  induction rows with
  | nil =>
    intro st _ _ _ row' mat
    simp [ComputeValuesRows]
  | cons r rest ih =>
    intro st htable hlocal hrows row' mat
    obtain ⟨hnd, hr, hroom, hindex⟩ := hrows r (List.mem_cons_self _ _)
    cases hrow : ComputeValuesRow lapack debug stored_rows st r with
    | error e =>
      simp only [ComputeValuesRows, hrow]
      intro h
      have h' : e = .abort row' .patternDefect mat := by
        injection h
      rw [h'] at hrow
      exact (ComputeValuesRow_no_defect lapack debug stored_rows st r htable hlocal hroom
        hindex hnd hr).2 row' mat hrow
    | ok st1 =>
      simp only [ComputeValuesRows, hrow]
      obtain ⟨e1, e2, e3, e4⟩ :=
        ComputeValuesRow_ok_state lapack debug stored_rows st st1 r htable hlocal hroom
          hindex hnd hrow
      apply ih st1 (by rw [e1]; exact htable) (by rw [e1, e2]; exact hlocal)
      intro r' hr'
      rw [e4, e1, e3]
      exact hrows r' (List.mem_cons_of_mem _ hr')

/-- `ComputeValues` on a matrix each of whose local rows is in its own duplicate-free
pattern never ends in the pattern-defect abort. -/
theorem ComputeValues_no_defect {K : Type} [LinearOrderedField K] (lapack : Lapack K)
    (debug : Bool) (stored_rows : StoredRows K) (mat : Matrix K)
    (hrows : ∀ r ∈ localRows mat, (mat.inds r).Nodup ∧ r ∈ mat.inds r) :
    ∀ row' mat', ComputeValues lapack debug stored_rows mat ≠
      .error (.abort row' .patternDefect mat') := by
  intro row' mat'
  have h := ComputeValuesRows_no_defect lapack debug stored_rows (localRows mat)
    { hash := HashCreate (4 * longestRow mat + 1),
      index := List.replicate (4 * longestRow mat + 1) 0,
      localIdx := List.replicate (4 * longestRow mat + 1) 0,
      ahat := List.replicate (longestRow mat * longestRow mat) 0,
      mat := mat } rfl (by simp [HashCreate])
    (by
      intro r hr
      have := length_le_longestRow mat r hr
      refine ⟨(hrows r hr).1, (hrows r hr).2, ?_, ?_⟩
      · simp only [HashCreate]; omega
      · simp only [List.length_replicate]; omega) row' mat'
  unfold ComputeValues
  cases hrun : ComputeValuesRows lapack debug stored_rows
      { hash := HashCreate (4 * longestRow mat + 1),
        index := List.replicate (4 * longestRow mat + 1) 0,
        localIdx := List.replicate (4 * longestRow mat + 1) 0,
        ahat := List.replicate (longestRow mat * longestRow mat) 0,
        mat := mat } (localRows mat) with
  | error e =>
    simp only
    rw [hrun] at h
    intro heq
    injection heq with h'
    exact h (by rw [h'])
  | ok st => simp

/-- C16: when every local pruned row holds its own row index, for every `num_levels` the
column list that `ConstructPatternForEachRow` stores for a local row `r` holds `r`.  So in
`ComputeValues` on that matrix no row ends in the pattern-defect abort, with and without
`DEBUG`; and for a row `r` entered with an empty table and room in the work arrays, the
insertion loop succeeds, `HashLookup(hash, r)` is not `HASH_NOTFOUND`, and `local[loc]` is
in `[0, len)`, so that the write of the right-hand side is inside the array. -/
theorem diagonal_always_in_pattern {K : Type} [LinearOrderedField K] (pr : PrunedRows)
    (L : Nat) (M : Matrix K) (hdiag : ∀ r ∈ localRows M, r ∈ (pr.rows r).getD [])
    (hready : ∀ r ∈ localRows M, RowReady pr L M r) :
    ∃ (M' : Matrix K) (n : Nat), ConstructPatternForEachRow pr L M = some (M', n) ∧
      (∀ r ∈ localRows M, r ∈ M'.inds r) ∧
      (∀ (lapack : Lapack K) (debug : Bool) (stored_rows : StoredRows K) (row' : Int)
        (mat : Matrix K), ComputeValues lapack debug stored_rows M' ≠
          .error (.abort row' .patternDefect mat)) ∧
      (∀ r ∈ localRows M, ∀ (st : ValState K), st.mat.inds r = M'.inds r →
        st.hash.table = List.replicate st.hash.size none →
        st.localIdx.length = st.hash.size → (M'.inds r).length < st.hash.size →
        (M'.inds r).length ≤ st.index.length →
        ∃ (hash : Hash) (localIdx index : List Int) (m : Int),
          insertIndices (st.hash, st.localIdx, st.index) (M'.inds r) 0 =
            some (hash, localIdx, index) ∧
          HashLookup hash r ≠ HASH_NOTFOUND ∧
          arrGet localIdx (HashLookup hash r) = some m ∧ 0 ≤ m ∧
          m < ((M'.inds r).length : Int) ∧
          arrSet (List.replicate (M'.inds r).length (0 : K)) m 1 =
            some ((List.replicate (M'.inds r).length (0 : K)).set m.toNat 1)) := by
  obtain ⟨M', T, h1, h2, _, _, h5⟩ := ConstructPatternForEachRow_spec pr L M hready
  have hmem : ∀ r ∈ localRows M, r ∈ M'.inds r := by
    intro r hr
    rw [(h5 r hr).2 r]
    refine ⟨le_refl r, levelPattern_mono pr r (Nat.zero_le L) ?_⟩
    simp only [levelPattern, List.mem_toFinset]
    exact hdiag r hr
  have hloc : localRows M' = localRows M := localRows_congr h2
  refine ⟨M', T.card, h1, hmem, ?_, ?_⟩
  · intro lapack debug stored_rows row' mat
    exact ComputeValues_no_defect lapack debug stored_rows M'
      (fun r hr => ⟨(h5 r (hloc ▸ hr)).1, hmem r (hloc ▸ hr)⟩) row' mat
  · intro r hr st hst htable hlocal hroom hindex
    have := (ComputeValuesRow_no_defect ⟨fun _ a => (a, 0), fun _ _ b => (b, 0), fun x => x⟩ true
      ⟨M', fun _ => none⟩ st r htable
      hlocal (by rw [hst]; exact hroom) (by rw [hst]; exact hindex)
      (by rw [hst]; exact (h5 r hr).1) (by rw [hst]; exact hmem r hr)).1
    rw [hst] at this
    exact this

/-- C16 witness: process 0 of two with rows `0..3`, the tridiagonal pattern, one level. -/
theorem diagonal_always_in_pattern_witness :
    ∃ (M' : Matrix ℚ) (n : Nat), ConstructPatternForEachRow triPruned 1 twoBlocks = some (M', n) ∧
      (∀ r ∈ localRows twoBlocks, r ∈ M'.inds r) ∧
      (∀ (lapack : Lapack ℚ) (debug : Bool) (stored_rows : StoredRows ℚ) (row' : Int)
        (mat : Matrix ℚ), ComputeValues lapack debug stored_rows M' ≠
          .error (.abort row' .patternDefect mat)) ∧
      (∀ r ∈ localRows twoBlocks, ∀ (st : ValState ℚ), st.mat.inds r = M'.inds r →
        st.hash.table = List.replicate st.hash.size none →
        st.localIdx.length = st.hash.size → (M'.inds r).length < st.hash.size →
        (M'.inds r).length ≤ st.index.length →
        ∃ (hash : Hash) (localIdx index : List Int) (m : Int),
          insertIndices (st.hash, st.localIdx, st.index) (M'.inds r) 0 =
            some (hash, localIdx, index) ∧
          HashLookup hash r ≠ HASH_NOTFOUND ∧
          arrGet localIdx (HashLookup hash r) = some m ∧ 0 ≤ m ∧
          m < ((M'.inds r).length : Int) ∧
          arrSet (List.replicate (M'.inds r).length (0 : ℚ)) m 1 =
            some ((List.replicate (M'.inds r).length (0 : ℚ)).set m.toNat 1)) :=
  diagonal_always_in_pattern triPruned 1 twoBlocks (by decide) (by decide)

/-! ### The assembly of `ahat` -/

theorem zeroFill_getElem? {K : Type} [Zero K] (a : List K) (n p : Nat) (hn : n ≤ a.length) :
    (List.replicate n (0 : K) ++ a.drop n).length = a.length ∧
    (p < n → (List.replicate n (0 : K) ++ a.drop n)[p]? = some 0) ∧
    (n ≤ p → (List.replicate n (0 : K) ++ a.drop n)[p]? = a[p]?) := by
  refine ⟨?_, ?_, ?_⟩
  · simp only [List.length_append, List.length_replicate, List.length_drop]
    omega
  · intro hp
    rw [List.getElem?_append_left (by simpa using hp)]
    simp [List.getElem?_replicate, hp]
  · intro hp
    rw [List.getElem?_append_right (by simpa using hp)]
    simp only [List.length_replicate, List.getElem?_drop]
    congr 1
    omega

theorem entry_lt_square (n k l : Nat) (hk : k < n) (hl : l < n) : k * n + l < n * n := by
  calc k * n + l < k * n + n := by omega
    _ = (k + 1) * n := by ring
    _ ≤ n * n := Nat.mul_le_mul_right n (by omega)

/-- C15: for a row whose pattern `J = (j_0, …, j_{n−1})` has distinct indices, entered with
an empty table and work arrays with room, the rows of the pattern being stored with
distinct column indices: the insertion loop and the loop that forms `ahat` succeed; the
lookup of `j_l` is found with `local = l` and an index outside `J` is not found, so no
entry of a column outside `J` is written; for all `k, l < n` the entry `ahat[k·n + l]` is
`A(j_k, j_l)` when column `j_l` occurs in the stored row `j_k` and 0 otherwise; the buffer
keeps its length and its entries from `n·n` on; and `n·n` is at most the `maxlen·maxlen`
that `ComputeValues` allocates. -/
theorem ahat_assembly {K : Type} [Zero K] (stored_rows : StoredRows K) (st : ValState K)
    (row : Int)
    (htable : st.hash.table = List.replicate st.hash.size none)
    (hlocal : st.localIdx.length = st.hash.size)
    (hroom : (st.mat.inds row).length < st.hash.size)
    (hindex : (st.mat.inds row).length ≤ st.index.length)
    (hahat : (st.mat.inds row).length * (st.mat.inds row).length ≤ st.ahat.length)
    (hnd : (st.mat.inds row).Nodup)
    (hstored : ∀ j ∈ st.mat.inds row,
      StoredRowPresent stored_rows j ∧ (storedInd stored_rows j).Nodup) :
    ∃ (hash : Hash) (localIdx index : List Int) (ahat : List K),
      insertIndices (st.hash, st.localIdx, st.index) (st.mat.inds row) 0 =
        some (hash, localIdx, index) ∧
      (∀ l, l < (st.mat.inds row).length →
        HashLookup hash ((st.mat.inds row).getD l 0) ≠ HASH_NOTFOUND ∧
        arrGet localIdx (HashLookup hash ((st.mat.inds row).getD l 0)) = some (l : Int)) ∧
      (∀ c, c ∉ st.mat.inds row → HashLookup hash c = HASH_NOTFOUND) ∧
      formAhat stored_rows hash localIdx (st.mat.inds row).length
        (List.replicate ((st.mat.inds row).length * (st.mat.inds row).length) 0 ++
          st.ahat.drop ((st.mat.inds row).length * (st.mat.inds row).length))
        (st.mat.inds row) 0 = some ahat ∧
      ahat.length = st.ahat.length ∧
      (∀ k l, k < (st.mat.inds row).length → l < (st.mat.inds row).length →
        ahat[k * (st.mat.inds row).length + l]? =
          some ((storedEntry stored_rows ((st.mat.inds row).getD k 0)
            ((st.mat.inds row).getD l 0)).getD 0)) ∧
      (∀ p, (st.mat.inds row).length * (st.mat.inds row).length ≤ p →
        ahat[p]? = st.ahat[p]?) ∧
      (∀ r ∈ localRows st.mat, (st.mat.inds r).length * (st.mat.inds r).length ≤
        longestRow st.mat * longestRow st.mat) := by
  obtain ⟨hash, localIdx, index, a1, _, _, _, _, a6, a7, _⟩ :=
    insertIndices_clean (st.mat.inds row) st.hash st.localIdx st.index htable hlocal hroom
      hindex hnd
  have hz := fun p => zeroFill_getElem? st.ahat
    ((st.mat.inds row).length * (st.mat.inds row).length) p hahat
  obtain ⟨ahat, b1, b2, b3, b4, b5⟩ :=
    formAhat_entries stored_rows (st.mat.inds row) hash localIdx hnd a6 a7 (st.mat.inds row)
      (List.replicate ((st.mat.inds row).length * (st.mat.inds row).length) 0 ++
        st.ahat.drop ((st.mat.inds row).length * (st.mat.inds row).length)) 0
      (by rw [(hz 0).1]; omega) hstored
  simp only [Nat.cast_zero, Nat.zero_add] at b1 b3 b4 b5
  refine ⟨hash, localIdx, index, ahat, a1, a6, a7, b1, by rw [b2, (hz 0).1], ?_, ?_, ?_⟩
  · intro k l hk hl
    cases hentry : storedEntry stored_rows ((st.mat.inds row).getD k 0)
        ((st.mat.inds row).getD l 0) with
    | some v => simpa using b3 k l hk hl v hentry
    | none =>
      rw [b4 k l hk hl hentry, (hz _).2.1 (entry_lt_square _ k l hk hl)]
      rfl
  · intro p hp
    rw [b5 p (Or.inr hp), (hz p).2.2 hp]
  · intro r hr
    exact Nat.mul_le_mul (length_le_longestRow st.mat r hr) (length_le_longestRow st.mat r hr)

/-- C15 witness: row 5 with the pattern `5, 4` on the owner of rows `4..7` of the
tridiagonal matrix. -/
theorem ahat_assembly_witness :
    ∃ (hash : Hash) (localIdx index : List Int) (ahat : List ℚ),
      insertIndices (pairState.hash, pairState.localIdx, pairState.index)
        (pairState.mat.inds 5) 0 = some (hash, localIdx, index) ∧
      (∀ l, l < (pairState.mat.inds 5).length →
        HashLookup hash ((pairState.mat.inds 5).getD l 0) ≠ HASH_NOTFOUND ∧
        arrGet localIdx (HashLookup hash ((pairState.mat.inds 5).getD l 0)) =
          some (l : Int)) ∧
      (∀ c, c ∉ pairState.mat.inds 5 → HashLookup hash c = HASH_NOTFOUND) ∧
      formAhat triStored hash localIdx (pairState.mat.inds 5).length
        (List.replicate ((pairState.mat.inds 5).length * (pairState.mat.inds 5).length) 0 ++
          pairState.ahat.drop ((pairState.mat.inds 5).length * (pairState.mat.inds 5).length))
        (pairState.mat.inds 5) 0 = some ahat ∧
      ahat.length = pairState.ahat.length ∧
      (∀ k l, k < (pairState.mat.inds 5).length → l < (pairState.mat.inds 5).length →
        ahat[k * (pairState.mat.inds 5).length + l]? =
          some ((storedEntry triStored ((pairState.mat.inds 5).getD k 0)
            ((pairState.mat.inds 5).getD l 0)).getD 0)) ∧
      (∀ p, (pairState.mat.inds 5).length * (pairState.mat.inds 5).length ≤ p →
        ahat[p]? = pairState.ahat[p]?) ∧
      (∀ r ∈ localRows pairState.mat,
        (pairState.mat.inds r).length * (pairState.mat.inds r).length ≤
          longestRow pairState.mat * longestRow pairState.mat) :=
  ahat_assembly triStored pairState 5 (by decide) (by decide) (by decide) (by decide)
    (by decide) (by decide)
    (by
      intro j hj
      have hj' : j = 5 ∨ j = 4 := by simpa [pairState] using hj
      rcases hj' with rfl | rfl
      · exact ⟨⟨[4, 5, 6], [-1, 2, -1], rfl, rfl⟩, by decide⟩
      · exact ⟨⟨[3, 4, 5], [-1, 2, -1], rfl, rfl⟩, by decide⟩)

/-- A run of the assembly: row 5 with the pattern `5, 4`; the entries of the columns 6 and
3 of the stored rows are not written. -/
theorem ahat_assembly_run :
    (match insertIndices (pairState.hash, pairState.localIdx, pairState.index) [5, 4] 0 with
      | none => none
      | some (hash, localIdx, _) =>
        formAhat triStored hash localIdx 2 [0, 0, 0, 0] [5, 4] 0) = some [2, -1, -1, 2] := by
  decide

/-! ### Isolated rows -/

/-- The value of an isolated row: `x = 1 / a` scaled by `1 / sqrt |x|` is the positive
number whose square is `1 / a`, that is `1 / w` for the positive root `w` of `|a|`. -/
theorem isolated_value {K : Type} [LinearOrderedField K] (a s : K) (ha : 0 < a) (hs : 0 < s)
    (hss : s * s = ABS (1 / a)) :
    1 / a * (1 / s) = s ∧ s * s = 1 / a ∧ ∀ w, 0 < w → w * w = ABS a → 1 / a * (1 / s) = 1 / w := by
  have hx : 0 < 1 / a := one_div_pos.mpr ha
  have habs : ABS (1 / a) = 1 / a := by
    unfold ABS
    rw [if_neg (not_lt.mpr hx.le)]
  have habsa : ABS a = a := by
    unfold ABS
    rw [if_neg (not_lt.mpr ha.le)]
  rw [habs] at hss
  have hv : 1 / a * (1 / s) = s := by
    rw [← hss]
    field_simp
  refine ⟨hv, hss, ?_⟩
  intro w hw hww
  rw [habsa] at hww
  rw [hv]
  have hw' : 0 < 1 / w := one_div_pos.mpr hw
  have hsq : s * s = (1 / w) * (1 / w) := by
    rw [hss, ← hww]
    field_simp
  exact (mul_self_inj_of_nonneg hs.le hw'.le).mp hsq

/-- An isolated row entered with an empty table: the row returns, `ahat` is `[a]` before
the factorization, the single value written is `(1 / a) * (1 / sqrt |1 / a|)`, and the
table is empty again. -/
theorem ComputeValuesRow_isolated {K : Type} [LinearOrderedField K] (lapack : Lapack K)
    (debug : Bool) (stored_rows : StoredRows K) (st : ValState K) (row : Int) (a : K)
    (htable : st.hash.table = List.replicate st.hash.size none)
    (hlocal : st.localIdx.length = st.hash.size) (hroom : 1 < st.hash.size)
    (hindex : 1 ≤ st.index.length) (hahat : 1 ≤ st.ahat.length)
    (hpat : st.mat.inds row = [row])
    (hstored : StoredRowPresent stored_rows row ∧ (storedInd stored_rows row).Nodup)
    (hval : storedEntry stored_rows row row = some a) (hex : ExactOneByOne lapack a) :
    ∃ (hash : Hash) (localIdx index : List Int) (st' : ValState K),
      insertIndices (st.hash, st.localIdx, st.index) [row] 0 = some (hash, localIdx, index) ∧
      formAhat stored_rows hash localIdx 1 (0 :: st.ahat.drop 1) [row] 0 =
        some (a :: st.ahat.drop 1) ∧
      ComputeValuesRow lapack debug stored_rows st row = .ok st' ∧
      st'.mat = setVals st.mat row [1 / a * (1 / lapack.sqrt (ABS (1 / a)))] ∧
      st'.hash = st.hash ∧ st'.localIdx.length = st.localIdx.length ∧
      st'.index.length = st.index.length ∧ st'.ahat.length = st.ahat.length := by
  have hlen : (st.mat.inds row).length = 1 := by rw [hpat]; rfl
  obtain ⟨hash, localIdx, index, a1, _, a3, a4, _, a6, a7, a8⟩ :=
    insertIndices_clean (st.mat.inds row) st.hash st.localIdx st.index htable hlocal
      (by rw [hlen]; exact hroom) (by rw [hlen]; exact hindex) (by rw [hpat]; simp)
  obtain ⟨ahat, b1, b2, b3, _, b5⟩ :=
    formAhat_entries stored_rows (st.mat.inds row) hash localIdx (by rw [hpat]; simp) a6 a7
      (st.mat.inds row) (0 :: st.ahat.drop 1) 0
      (by rw [hlen]; simp only [List.length_cons, List.length_drop]; omega)
      (by intro k hk; rw [hpat] at hk; rw [List.mem_singleton.mp hk]; exact hstored)
  rw [hpat] at a1 a6 a8 b1 b3 b5
  simp only [List.length_singleton, Nat.cast_one, Nat.cast_zero] at a1 a6 a8 b1 b3 b5
  have h0 : ahat[0]? = some a := by
    have := b3 0 0 (by omega) (by omega) a (by simpa using hval)
    simpa using this
  have hrest : ahat = a :: st.ahat.drop 1 := by
    apply List.ext_getElem?
    intro p
    cases p with
    | zero => simpa using h0
    | succ p => simpa using b5 (p + 1) (Or.inr (by omega))
  subst hrest
  obtain ⟨hne, hloc⟩ := a6 0 (by omega)
  simp only [List.getD_cons_zero, Nat.cast_zero] at hne hloc
  obtain ⟨l, _, _, hf, hs, _, _⟩ := hex
  obtain ⟨rest', hfac, hrl⟩ := hf (st.ahat.drop 1)
  have hsol := hs rest'
  have hzero : (if 1 ≤ st.ahat.length then
      some (List.replicate 1 (0 : K) ++ st.ahat.drop 1) else none) =
      some (0 :: st.ahat.drop 1) := by
    rw [if_pos hahat]
    rfl
  refine ⟨hash, localIdx, index,
    { hash := HashReset hash 1 index, index := index, localIdx := localIdx,
      ahat := l :: rest',
      mat := setVals st.mat row [1 / a * (1 / lapack.sqrt (ABS (1 / a)))] },
    a1, b1, ?_, rfl, a8, by rw [a3, hlocal], a4, ?_⟩
  · simp only [ComputeValuesRow, MatrixGetRow, hpat, List.length_singleton, a1, orUndefined,
      bind, Except.bind, Nat.mul_one, hzero, Nat.cast_one, b1, hne, decide_False,
      Bool.and_false, Bool.false_eq_true, if_false, hloc]
    have hset : arrSet (List.replicate 1 (0 : K)) 0 1 = some [1] := by
      simp [arrSet]
    simp only [hset, hfac, ne_eq, not_true_eq_false, if_false, hsol]
    have hget : arrGet [1 / a] 0 = some (1 / a) := by
      simp [arrGet]
    simp only [hget, List.map_cons, List.map_nil]
  · simp only [List.length_cons, hrl, List.length_drop]
    omega

/-- The row loop over isolated rows: it returns, the structure is kept, and each row gets
its single value. -/
theorem ComputeValuesRows_isolated {K : Type} [LinearOrderedField K] (lapack : Lapack K)
    (debug : Bool) (stored_rows : StoredRows K) (diag : Int → K) :
    ∀ (rows : List Int) (st : ValState K),
      st.hash.table = List.replicate st.hash.size none →
      st.localIdx.length = st.hash.size → 1 < st.hash.size → 1 ≤ st.index.length →
      1 ≤ st.ahat.length → rows.Nodup →
      (∀ r ∈ rows, st.mat.inds r = [r] ∧
        (StoredRowPresent stored_rows r ∧ (storedInd stored_rows r).Nodup) ∧
        storedEntry stored_rows r r = some (diag r) ∧ ExactOneByOne lapack (diag r)) →
      ∃ st' : ValState K, ComputeValuesRows lapack debug stored_rows st rows = .ok st' ∧
        st'.mat.inds = st.mat.inds ∧
        (∀ r ∈ rows, st'.mat.vals r =
          [1 / diag r * (1 / lapack.sqrt (ABS (1 / diag r)))]) ∧
        (∀ r, r ∉ rows → st'.mat.vals r = st.mat.vals r) := by
  intro rows
  induction rows with
  | nil =>
    intro st _ _ _ _ _ _ _
    exact ⟨st, rfl, rfl, by simp, fun _ _ => rfl⟩
  | cons r rest ih =>
    intro st htable hlocal hroom hindex hahat hnd hrows
    obtain ⟨hpat, hstored, hval, hex⟩ := hrows r (List.mem_cons_self _ _)
    obtain ⟨_, _, _, st1, _, _, c3, c4, c5, c6, c7, c8⟩ :=
      ComputeValuesRow_isolated lapack debug stored_rows st r (diag r) htable hlocal hroom
        hindex hahat hpat hstored hval hex
    have hinds : st1.mat.inds = st.mat.inds := by rw [c4]; rfl
    obtain ⟨st', d1, d2, d3, d4⟩ := ih st1 (by rw [c5]; exact htable)
      (by rw [c5, c6]; exact hlocal) (by rw [c5]; exact hroom) (by rw [c7]; exact hindex)
      (by rw [c8]; exact hahat) (List.nodup_cons.mp hnd).2
      (by
        intro r' hr'
        rw [hinds]
        exact hrows r' (List.mem_cons_of_mem _ hr'))
    refine ⟨st', ?_, by rw [d2, hinds], ?_, ?_⟩
    · simp only [ComputeValuesRows, c3]
      exact d1
    · intro r' hr'
      rcases List.mem_cons.mp hr' with rfl | hr''
      · rw [d4 r' (List.nodup_cons.mp hnd).1, c4]
        simp [setVals]
      · exact d3 r' hr''
    · intro r' hr'
      rw [d4 r' (fun h => hr' (List.mem_cons_of_mem _ h)), c4]
      have : r' ≠ r := fun h => hr' (h ▸ List.mem_cons_self _ _)
      simp [setVals, Function.update_noteq this]

/-- `ComputeValues` on a matrix all of whose local rows are isolated. -/
theorem ComputeValues_isolated {K : Type} [LinearOrderedField K] (lapack : Lapack K)
    (debug : Bool) (stored_rows : StoredRows K) (mat : Matrix K) (diag : Int → K)
    (hrows : ∀ r ∈ localRows mat, mat.inds r = [r] ∧
      (StoredRowPresent stored_rows r ∧ (storedInd stored_rows r).Nodup) ∧
      storedEntry stored_rows r r = some (diag r) ∧ ExactOneByOne lapack (diag r)) :
    ∃ M' : Matrix K, ComputeValues lapack debug stored_rows mat = .ok M' ∧
      M'.inds = mat.inds ∧
      ∀ r ∈ localRows mat, M'.vals r = [1 / diag r * (1 / lapack.sqrt (ABS (1 / diag r)))] := by
  by_cases hloc : localRows mat = []
  · refine ⟨mat, ?_, rfl, by simp [hloc]⟩
    simp [ComputeValues, hloc, ComputeValuesRows]
  · obtain ⟨r0, hr0⟩ := List.exists_mem_of_ne_nil _ hloc
    have hlong : 1 ≤ longestRow mat := by
      have := length_le_longestRow mat r0 hr0
      rw [(hrows r0 hr0).1] at this
      exact this
    obtain ⟨st', e1, e2, e3, _⟩ := ComputeValuesRows_isolated lapack debug stored_rows diag
      (localRows mat)
      { hash := HashCreate (4 * longestRow mat + 1),
        index := List.replicate (4 * longestRow mat + 1) 0,
        localIdx := List.replicate (4 * longestRow mat + 1) 0,
        ahat := List.replicate (longestRow mat * longestRow mat) 0,
        mat := mat } rfl (by simp [HashCreate]) (by simp only [HashCreate]; omega)
      (by simp only [List.length_replicate]; omega)
      (by
        simp only [List.length_replicate]
        exact Nat.mul_le_mul hlong hlong)
      (localRows_nodup mat) hrows
    refine ⟨st'.mat, ?_, e2, e3⟩
    simp only [ComputeValues, e1]

theorem ExactOneByOne.pos {K : Type} [LinearOrderedField K] {lapack : Lapack K} {a : K}
    (h : ExactOneByOne lapack a) : 0 < a := by
  obtain ⟨l, hl, hll, _⟩ := h
  rw [← hll]
  exact mul_pos hl hl

/-- C14: a row `r` of `M` whose stored pattern is the single index `r`, entered with an
empty table, the stored value `a = A(r, r)` being one on which the 1×1 factorization and
solve are exact (so `a > 0`): the row loop of `ComputeValues` forms `ahat = [a]`, solves
`x = 1 / a`, scales by `1 / sqrt |x|` and writes the single value
`v = (1 / a) * (1 / sqrt |1 / a|)` to row `r`, where `v > 0`, `v * v = 1 / a`, and
`v = 1 / w` for the positive `w` with `w * w = |a|`.  And for the identity matrix, with every
local row of `M` isolated, `ComputeValues` returns and every local row of `M` is the single
diagonal entry 1. -/
theorem isolated_row_value {K : Type} [LinearOrderedField K] (lapack : Lapack K)
    (debug : Bool) (stored_rows : StoredRows K) (st : ValState K) (row : Int) (a : K)
    (htable : st.hash.table = List.replicate st.hash.size none)
    (hlocal : st.localIdx.length = st.hash.size) (hroom : 1 < st.hash.size)
    (hindex : 1 ≤ st.index.length) (hahat : 1 ≤ st.ahat.length)
    (hpat : st.mat.inds row = [row])
    (hstored : StoredRowPresent stored_rows row ∧ (storedInd stored_rows row).Nodup)
    (hval : storedEntry stored_rows row row = some a) (hex : ExactOneByOne lapack a) :
    (∃ (hash : Hash) (localIdx index : List Int) (st' : ValState K),
      insertIndices (st.hash, st.localIdx, st.index) [row] 0 = some (hash, localIdx, index) ∧
      formAhat stored_rows hash localIdx 1 (0 :: st.ahat.drop 1) [row] 0 =
        some (a :: st.ahat.drop 1) ∧
      ComputeValuesRow lapack debug stored_rows st row = .ok st' ∧
      st'.mat.inds row = [row] ∧
      st'.mat.vals row = [1 / a * (1 / lapack.sqrt (ABS (1 / a)))]) ∧
    (0 < a ∧ 0 < 1 / a * (1 / lapack.sqrt (ABS (1 / a))) ∧
      1 / a * (1 / lapack.sqrt (ABS (1 / a))) * (1 / a * (1 / lapack.sqrt (ABS (1 / a)))) =
        1 / a ∧
      ∀ w, 0 < w → w * w = ABS a → 1 / a * (1 / lapack.sqrt (ABS (1 / a))) = 1 / w) ∧
    (∀ (identity : StoredRows K) (mat : Matrix K),
      (∀ r ∈ localRows mat, mat.inds r = [r] ∧ StoredRowsGet identity r = some ([r], [1])) →
      ExactOneByOne lapack 1 →
      ∃ M' : Matrix K, ComputeValues lapack debug identity mat = .ok M' ∧
        ∀ r ∈ localRows mat, M'.inds r = [r] ∧ M'.vals r = [1]) := by
  obtain ⟨hash, localIdx, index, st', c1, c2, c3, c4, _⟩ :=
    ComputeValuesRow_isolated lapack debug stored_rows st row a htable hlocal hroom hindex
      hahat hpat hstored hval hex
  have ha := hex.pos
  obtain ⟨_, _, _, _, _, hs, hss⟩ := hex
  obtain ⟨v1, v2, v3⟩ := isolated_value a _ ha hs hss
  refine ⟨⟨hash, localIdx, index, st', c1, c2, c3, ?_, ?_⟩, ⟨ha, ?_, ?_, v3⟩, ?_⟩
  · rw [c4]
    exact hpat
  · rw [c4]
    simp [setVals]
  · rw [v1]
    exact hs
  · rw [v1]
    exact v2
  · intro identity mat hrows hex1
    obtain ⟨M', e1, e2, e3⟩ := ComputeValues_isolated lapack debug identity mat (fun _ => 1)
      (by
        intro r hr
        obtain ⟨h1, h2⟩ := hrows r hr
        refine ⟨h1, ⟨⟨[r], [1], h2, rfl⟩, ?_⟩, ?_, hex1⟩
        · simp [storedInd, h2]
        · simp [storedEntry, h2, lookup_cons_int])
    refine ⟨M', e1, ?_⟩
    intro r hr
    refine ⟨by rw [e2]; exact (hrows r hr).1, ?_⟩
    rw [e3 r hr]
    obtain ⟨_, _, _, _, _, hs1, hss1⟩ := hex1
    obtain ⟨w1, w2, _⟩ := isolated_value (1 : K) _ one_pos hs1 hss1
    rw [w1]
    have h11 : lapack.sqrt (ABS (1 / 1)) * lapack.sqrt (ABS (1 / 1)) = 1 * 1 := by
      rw [w2]; norm_num
    rw [(mul_self_inj_of_nonneg hs1.le zero_le_one).mp h11]

theorem squareLapack_exact_four : ExactOneByOne squareLapack 4 := by
  refine ⟨2, by norm_num, by norm_num, ?_, ?_, ?_, ?_⟩
  · intro rest
    exact ⟨rest, by simp [squareLapack], rfl⟩
  · intro rest
    simp only [squareLapack, List.map_cons, List.map_nil]
    norm_num
  · simp only [squareLapack, ABS]
    norm_num
  · simp only [squareLapack, ABS]
    norm_num

theorem squareLapack_exact_one : ExactOneByOne squareLapack 1 := by
  refine ⟨1, by norm_num, by norm_num, ?_, ?_, ?_, ?_⟩
  · intro rest
    refine ⟨rest, ?_, rfl⟩
    simp only [squareLapack]
    norm_num
  · intro rest
    simp only [squareLapack, List.map_cons, List.map_nil]
    norm_num
  · simp only [squareLapack, ABS]
    norm_num
  · simp only [squareLapack, ABS]
    norm_num

/-- C14 witness: row 4 with the diagonal entry 4 gets the value `(1 / 4) * (1 / (1 / 2))`,
which is `1 / 2`; and the identity on rows `4..7` gives the value 1 in every row. -/
theorem isolated_row_value_witness :
    (∃ (hash : Hash) (localIdx index : List Int) (st' : ValState ℚ),
      insertIndices (isolatedState.hash, isolatedState.localIdx, isolatedState.index) [4] 0 =
        some (hash, localIdx, index) ∧
      formAhat (diagonalStored 4) hash localIdx 1 (0 :: isolatedState.ahat.drop 1) [4] 0 =
        some (4 :: isolatedState.ahat.drop 1) ∧
      ComputeValuesRow squareLapack false (diagonalStored 4) isolatedState 4 = .ok st' ∧
      st'.mat.inds 4 = [4] ∧
      st'.mat.vals 4 = [1 / 4 * (1 / squareLapack.sqrt (ABS (1 / 4)))]) ∧
    (1 / 4 * (1 / squareLapack.sqrt (ABS (1 / 4))) = 1 / (2 : ℚ)) ∧
    (∃ M' : Matrix ℚ, ComputeValues squareLapack false (diagonalStored 1) isolatedM = .ok M' ∧
        ∀ r ∈ localRows isolatedM, M'.inds r = [r] ∧ M'.vals r = [1]) :=
  have h := isolated_row_value squareLapack false (diagonalStored 4) isolatedState 4 4
    (by decide) (by decide) (by decide) (by decide) (by decide) rfl
    ⟨⟨[4], [4], rfl, rfl⟩, by decide⟩ rfl squareLapack_exact_four
  ⟨h.1, h.2.1.2.2.2 2 (by norm_num) (by simp only [ABS]; norm_num),
    h.2.2 (diagonalStored 1) isolatedM
      (by
        intro r hr
        refine ⟨rfl, ?_⟩
        have hr' := (mem_localRows isolatedM r).mp hr
        simp only [StoredRowsGet, diagonalStored, MatrixGetRow]
        exact if_pos hr')
      squareLapack_exact_one⟩

/-! ### The exchange of pruned rows, level by level -/

/-- Parsing the rows part of a REPI message built from `owner`, with the pattern: every
requested row is bound to the owner's list, no other binding changes, and the external
indices of the requested rows are appended to the members and the frontier of `patt`. -/
theorem parsePrunedRows_patt {K : Type} (mat : Matrix K) (owner : PrunedRows)
    (S : Finset Int) :
    ∀ (buffer : List Int) (recv : PrunedRows) (patt : RowPatt),
      (∀ r ∈ buffer, (owner.rows r).isSome = true) → patt.ind.Nodup →
      (∀ j ∈ patt.ind, j ∈ S) → (∀ j ∈ repliedExternal mat owner buffer, j ∈ S) →
      S.card ≤ patt.maxlen →
      ∃ (recv' : PrunedRows) (patt' : RowPatt) (new : List Int),
        parsePrunedRows mat recv patt buffer
          (buffer.flatMap
            (fun r => (((owner.rows r).getD []).length : Int) :: (owner.rows r).getD [])) =
          some (recv', patt') ∧
        (∀ r ∈ buffer, recv'.rows r = owner.rows r) ∧
        (∀ r, r ∉ buffer → recv'.rows r = recv.rows r) ∧
        patt'.maxlen = patt.maxlen ∧ patt'.ind = patt.ind ++ new ∧
        patt'.frontier = patt.frontier ++ new ∧ patt'.ind.Nodup ∧
        (∀ j ∈ new, j ∈ repliedExternal mat owner buffer) ∧
        (∀ j ∈ repliedExternal mat owner buffer, j ∈ patt'.ind) := by
  intro buffer
  induction buffer with
  | nil =>
    intro recv patt _ hnd _ _ _
    exact ⟨recv, patt, [], by simp [parsePrunedRows], by simp, by simp, rfl, by simp, by simp,
      hnd, by simp, by simp [repliedExternal]⟩
  | cons r rest ih =>
    intro recv patt hrows hnd hpS hext hcap
    obtain ⟨ind, hind⟩ := Option.isSome_iff_exists.mp (hrows r (List.mem_cons_self _ _))
    have hsplit : ∀ j, j ∈ repliedExternal mat owner (r :: rest) ↔
        j ∈ ind.filter (fun x => decide (x < mat.beg_row) || decide (mat.end_row < x)) ∨
          j ∈ repliedExternal mat owner rest := by
      intro j
      simp only [repliedExternal, List.flatMap_cons, hind, Option.getD_some, List.filter_append,
        List.mem_append]
    have hext1 : ∀ j ∈ ind.filter
        (fun x => decide (x < mat.beg_row) || decide (mat.end_row < x)), j ∈ S :=
      fun j hj => hext j ((hsplit j).mpr (Or.inl hj))
    have hext2 : ∀ j ∈ repliedExternal mat owner rest, j ∈ S :=
      fun j hj => hext j ((hsplit j).mpr (Or.inr hj))
    obtain ⟨patt1, new1, a1, a2, a3, a4, a5, a6, a7⟩ :=
      RowPattMerge_spec S _ patt hnd hpS hext1 hcap
    have hp1S : ∀ j ∈ patt1.ind, j ∈ S := by
      intro j hj
      rw [a3] at hj
      rcases List.mem_append.mp hj with h | h
      · exact hpS j h
      · exact hext1 j (a6 j h)
    obtain ⟨recv', patt', new2, b1, b2, b3, b4, b5, b6, b7, b8, b9⟩ :=
      ih (PrunedRowsPut recv r ind.length ind) patt1
        (fun r' hr' => hrows r' (List.mem_cons_of_mem _ hr')) a5 hp1S hext2
        (by rw [a2]; exact hcap)
    refine ⟨recv', patt', new1 ++ new2, ?_, ?_, ?_, by rw [b4, a2],
      by rw [b5, a3, List.append_assoc], by rw [b6, a4, List.append_assoc], b7, ?_, ?_⟩
    · have hfm : (r :: rest).flatMap
            (fun r => (((owner.rows r).getD []).length : Int) :: (owner.rows r).getD []) =
          (ind.length : Int) :: (ind ++ rest.flatMap
            (fun r => (((owner.rows r).getD []).length : Int) :: (owner.rows r).getD [])) := by
        simp [List.flatMap_cons, hind]
      rw [hfm]
      generalize rest.flatMap
        (fun r => (((owner.rows r).getD []).length : Int) :: (owner.rows r).getD []) = X at b1 ⊢
      have hput : PrunedRowsPut recv r ind.length (ind ++ X) =
          PrunedRowsPut recv r ind.length ind := by
        simp [PrunedRowsPut]
      have hn : ¬ ((ind.length : Int) < 0 ∨ (ind ++ X).length < ind.length) := by
        simp only [List.length_append]
        omega
      simp only [parsePrunedRows, Int.toNat_ofNat, RowPattMergeExt]
      rw [if_neg hn, List.take_left, List.drop_left, a1, hput]
      exact b1
    · intro r' hr'
      rcases List.mem_cons.mp hr' with e | e
      · by_cases hin : r' ∈ rest
        · exact b2 r' hin
        · rw [b3 r' hin, e, hind]
          simp [PrunedRowsPut]
      · exact b2 r' e
    · intro r' hr'
      rw [List.mem_cons, not_or] at hr'
      rw [b3 r' hr'.2]
      simp only [PrunedRowsPut]
      rw [Function.update_noteq hr'.1]
    · intro j hj
      rw [hsplit]
      rcases List.mem_append.mp hj with h | h
      · exact Or.inl (a6 j h)
      · exact Or.inr (b8 j h)
    · intro j hj
      rcases (hsplit j).mp hj with h | h
      · rw [b5]
        exact List.mem_append_left _ (a7 j h)
      · exact b9 j h

/-- The reply of an owner received: `ReceiveReplyPrunedRows` on the message that
`SendReplyPrunedRows` builds. -/
theorem ReceiveReplyPrunedRows_patt {K : Type} (mat : Matrix K) (owner : PrunedRows)
    (S : Finset Int) (dest : Nat) (buffer : List Int) (recv : PrunedRows) (patt : RowPatt)
    (hrows : ∀ r ∈ buffer, (owner.rows r).isSome = true) (hnd : patt.ind.Nodup)
    (hpS : ∀ j ∈ patt.ind, j ∈ S) (hext : ∀ j ∈ repliedExternal mat owner buffer, j ∈ S)
    (hcap : S.card ≤ patt.maxlen) :
    ∃ (msg : List Int) (recv' : PrunedRows) (patt' : RowPatt) (new : List Int),
      (SendReplyPrunedRows dest buffer owner).map PrunedReply.indbuf = some msg ∧
      ReceiveReplyPrunedRows msg recv patt mat = some (recv', patt') ∧
      (∀ r ∈ buffer, recv'.rows r = owner.rows r) ∧
      (∀ r, r ∉ buffer → recv'.rows r = recv.rows r) ∧
      patt'.maxlen = patt.maxlen ∧ patt'.ind = patt.ind ++ new ∧
      patt'.frontier = patt.frontier ++ new ∧ patt'.ind.Nodup ∧
      (∀ j ∈ new, j ∈ repliedExternal mat owner buffer) ∧
      (∀ j ∈ repliedExternal mat owner buffer, j ∈ patt'.ind) := by
  obtain ⟨recv', patt', new, h1, h2⟩ :=
    parsePrunedRows_patt mat owner S buffer recv patt hrows hnd hpS hext hcap
  refine ⟨_, recv', patt', new, by rw [SendReplyPrunedRows_eq dest buffer owner hrows]; rfl,
    ?_, h2⟩
  simp only [ReceiveReplyPrunedRows, repiFormat, Int.toNat_ofNat, List.length_append,
    List.take_left', List.drop_left']
  rw [if_neg (by omega)]
  exact h1

theorem mem_repliedExternal {K : Type} (mat : Matrix K) (pr : PrunedRows) (buffer : List Int)
    (j : Int) :
    j ∈ repliedExternal mat pr buffer ↔
      (∃ i ∈ buffer, j ∈ (pr.rows i).getD []) ∧ (j < mat.beg_row ∨ mat.end_row < j) := by
  simp [repliedExternal, List.mem_filter, List.mem_flatMap]

/-- The receive loop of a level when each REQ is answered from the pruned rows `G`: the
rows of all REQs are bound as `G` has them, no other binding changes, and the external
indices of those rows are appended to the members and the frontier of `patt`. -/
theorem receivePruned_spec {K : Type} (env : PrunedEnv) (level : Nat) (M : Matrix K)
    (G : PrunedRows) (S : Finset Int) (me : Nat)
    (henv : ∀ m, env.reply level m = (SendReplyPrunedRows me m.body G).map PrunedReply.indbuf) :
    ∀ (reqs : List Req) (pr : PrunedRows) (patt : RowPatt),
      (∀ r ∈ reqs.flatMap Req.body, (G.rows r).isSome = true) → patt.ind.Nodup →
      (∀ j ∈ patt.ind, j ∈ S) →
      (∀ j ∈ repliedExternal M G (reqs.flatMap Req.body), j ∈ S) →
      S.card ≤ patt.maxlen →
      ∃ (pr' : PrunedRows) (patt' : RowPatt) (new : List Int),
        receivePruned env level M (pr, patt) reqs = some (pr', patt') ∧
        (∀ r ∈ reqs.flatMap Req.body, pr'.rows r = G.rows r) ∧
        (∀ r, r ∉ reqs.flatMap Req.body → pr'.rows r = pr.rows r) ∧
        patt'.maxlen = patt.maxlen ∧ patt'.ind = patt.ind ++ new ∧
        patt'.frontier = patt.frontier ++ new ∧ patt'.ind.Nodup ∧
        (∀ j ∈ new, j ∈ repliedExternal M G (reqs.flatMap Req.body)) ∧
        (∀ j ∈ repliedExternal M G (reqs.flatMap Req.body), j ∈ patt'.ind) := by
  intro reqs
  induction reqs with
  | nil =>
    intro pr patt _ hnd _ _ _
    exact ⟨pr, patt, [], rfl, by simp, by simp, rfl, by simp, by simp, hnd, by simp,
      by simp [repliedExternal]⟩
  | cons m rest ih =>
    intro pr patt hrows hnd hpS hext hcap
    have hsplit : ∀ j, j ∈ repliedExternal M G ((m :: rest).flatMap Req.body) ↔
        j ∈ repliedExternal M G m.body ∨ j ∈ repliedExternal M G (rest.flatMap Req.body) := by
      intro j
      simp only [mem_repliedExternal, List.flatMap_cons, List.mem_append]
      constructor
      · rintro ⟨⟨i, hi | hi, hj⟩, ho⟩
        · exact Or.inl ⟨⟨i, hi, hj⟩, ho⟩
        · exact Or.inr ⟨⟨i, hi, hj⟩, ho⟩
      · rintro (⟨⟨i, hi, hj⟩, ho⟩ | ⟨⟨i, hi, hj⟩, ho⟩)
        · exact ⟨⟨i, Or.inl hi, hj⟩, ho⟩
        · exact ⟨⟨i, Or.inr hi, hj⟩, ho⟩
    have hrows1 : ∀ r ∈ m.body, (G.rows r).isSome = true := by
      intro r hr
      exact hrows r (by simp only [List.flatMap_cons, List.mem_append]; exact Or.inl hr)
    have hrows2 : ∀ r ∈ rest.flatMap Req.body, (G.rows r).isSome = true := by
      intro r hr
      exact hrows r (by simp only [List.flatMap_cons, List.mem_append]; exact Or.inr hr)
    obtain ⟨msg, pr1, patt1, new1, a1, a2, a3, a4, a5, a6, a7, a8, a9, a10⟩ :=
      ReceiveReplyPrunedRows_patt M G S me m.body pr patt hrows1 hnd hpS
        (fun j hj => hext j ((hsplit j).mpr (Or.inl hj))) hcap
    have hp1S : ∀ j ∈ patt1.ind, j ∈ S := by
      intro j hj
      rw [a6] at hj
      rcases List.mem_append.mp hj with h | h
      · exact hpS j h
      · exact hext j ((hsplit j).mpr (Or.inl (a9 j h)))
    obtain ⟨pr', patt', new2, b1, b2, b3, b4, b5, b6, b7, b8, b9⟩ :=
      ih pr1 patt1 hrows2 a8 hp1S (fun j hj => hext j ((hsplit j).mpr (Or.inr hj)))
        (by rw [a5]; exact hcap)
    refine ⟨pr', patt', new1 ++ new2, ?_, ?_, ?_, by rw [b4, a5],
      by rw [b5, a6, List.append_assoc], by rw [b6, a7, List.append_assoc], b7, ?_, ?_⟩
    · simp only [receivePruned, henv m, a1, a2]
      exact b1
    · intro r hr
      simp only [List.flatMap_cons, List.mem_append] at hr
      by_cases hin : r ∈ rest.flatMap Req.body
      · exact b2 r hin
      · rw [b3 r hin]
        rcases hr with h | h
        · exact a3 r h
        · exact absurd h hin
    · intro r hr
      simp only [List.flatMap_cons, List.mem_append, not_or] at hr
      rw [b3 r hr.2, a4 r hr.1]
    · intro j hj
      rw [hsplit]
      rcases List.mem_append.mp hj with h | h
      · exact Or.inl (a9 j h)
      · exact Or.inr (b8 j h)
    · intro j hj
      rcases (hsplit j).mp hj with h | h
      · rw [b5]
        exact List.mem_append_left _ (a10 j h)
      · exact b9 j h

/-- The serve loop of a level returns when every arriving request asks for rows that are
present. -/
theorem servePruned_isSome (env : PrunedEnv) (level : Nat) (pr : PrunedRows)
    (hreq : ∀ i, ∀ r ∈ (env.request level i).2, (pr.rows r).isSome = true) :
    ∀ (n i : Nat) (sent : List PrunedReply),
      ∃ repis, servePruned env level pr n i sent = some repis ∧
        repis.length = sent.length + n := by
  intro n
  induction n with
  | zero => intro i sent; exact ⟨sent, rfl, rfl⟩
  | succ n ih =>
    intro i sent
    obtain ⟨repis, h1, h2⟩ := ih (i + 1) (sent ++
      [⟨(env.request level i).1,
        repiFormat (fun r => (pr.rows r).getD []) (env.request level i).2,
        (repiFormat (fun r => (pr.rows r).getD []) (env.request level i).2).length⟩])
    refine ⟨repis, ?_, by rw [h2]; simp; omega⟩
    simp only [servePruned, SendReplyPrunedRows_eq _ _ pr (hreq i)]
    exact h1

/-- One level of `ExchangePrunedRows` keeps the invariant. -/
theorem exchangeLevel_step {K : Type} (env : PrunedEnv) (M : Matrix K) (G pr0 : PrunedRows)
    (L : Nat) (me : Nat) (hd : DisjointBlocks M) (hready : ExchangeReady M G L)
    (henv : ∀ level m,
      env.reply level m = (SendReplyPrunedRows me m.body G).map PrunedReply.indbuf)
    (hreq : ∀ level i, ∀ r ∈ (env.request level i).2, r ∈ localRows M)
    (level l : Nat) (hl : l < L) (pr : PrunedRows) (patt : RowPatt) (tr : PrunedTrace)
    (hinv : ExchangeInv M G pr0 l pr patt tr) :
    ∃ (reqs : List Req) (repis : List PrunedReply) (pr1 : PrunedRows) (patt1 : RowPatt),
      SendRequests M (RowPattPrevLevel patt).1 = some (reqs, reqs.length) ∧
      servePruned env level pr reqs.length 0 [] = some repis ∧
      receivePruned env level M (pr, (RowPattPrevLevel patt).2) reqs = some (pr1, patt1) ∧
      ExchangeInv M G pr0 (l + 1) pr1 patt1
        { calls := tr.calls ++ [((RowPattPrevLevel patt).1, reqs.length)],
          reqs := tr.reqs ++ reqs, repis := tr.repis ++ repis } := by
  obtain ⟨i1, i1', i2, i3, i4, i5, i6, i7, i9, i10, i12, i11⟩ := hinv
  obtain ⟨hrows, hcap⟩ := hready
  have hmonoL : ∀ r x, ∀ k, k ≤ L → x ∈ levelPattern G k r → x ∈ levelPattern G L r :=
    fun r x k hk hx => levelPattern_mono G r hk hx
  have hS : ∀ r ∈ localRows M, ∀ x ∈ levelPattern G L r,
      x ∈ (localRows M).toFinset.biUnion (levelPattern G L) := by
    intro r hr x hx
    rw [Finset.mem_biUnion]
    exact ⟨r, List.mem_toFinset.mpr hr, hx⟩
  have hcov : Covered M patt.frontier := by
    intro x hx
    obtain ⟨_, r, hr, hxr⟩ := i2 x (i4 x hx)
    obtain ⟨pe, hpe⟩ := Option.isSome_iff_exists.mp ((hrows r hr).2 l hl x hxr)
    exact ⟨pe, MatrixRowPe_some hpe⟩
  obtain ⟨reqs, d1, _, _, _, _, d6, _, d8⟩ := SendRequests_spec M patt.frontier hd hcov
  have hflat : ∀ x, x ∈ reqs.flatMap Req.body ↔ x ∈ patt.frontier := by
    intro x
    have : reqs.flatMap Req.body = (reqs.map Req.body).flatten := by
      simp [List.flatMap]
    rw [this, d6]
    exact d8.mem_iff
  have hpres : ∀ x ∈ reqs.flatMap Req.body, (G.rows x).isSome = true := by
    intro x hx
    obtain ⟨_, r, hr, hxr⟩ := i2 x (i4 x ((hflat x).mp hx))
    exact (hrows r hr).1.2.1 l hl x hxr
  have hstep : ∀ j, j ∈ repliedExternal M G (reqs.flatMap Req.body) →
      (j < M.beg_row ∨ M.end_row < j) ∧ ∃ r ∈ localRows M, j ∈ levelPattern G (l + 1) r := by
    intro j hj
    obtain ⟨⟨i, hi, hji⟩, hout⟩ := (mem_repliedExternal M G _ j).mp hj
    obtain ⟨_, r, hr, hir⟩ := i2 i (i4 i ((hflat i).mp hi))
    exact ⟨hout, r, hr, (mem_levelPattern_succ G l r j).mpr (Or.inr ⟨i, hir, hji⟩)⟩
  obtain ⟨pr1, patt1, new, c1, c2, c3, c4, c5, c6, c7, c8, c9⟩ :=
    receivePruned_spec env level M G ((localRows M).toFinset.biUnion (levelPattern G L)) me
      (henv level) reqs pr (RowPattPrevLevel patt).2 hpres i1
      (by
        intro j hj
        obtain ⟨_, r, hr, hjr⟩ := i2 j hj
        exact hS r hr j (hmonoL r j l (by omega) hjr))
      (by
        intro j hj
        obtain ⟨_, r, hr, hjr⟩ := hstep j hj
        exact hS r hr j (hmonoL r j (l + 1) (by omega) hjr))
      (by simp only [RowPattPrevLevel]; rw [i1']; exact hcap)
  simp only [RowPattPrevLevel, List.nil_append] at c4 c5 c6
  obtain ⟨repis, s1, _⟩ := servePruned_isSome env level pr
    (by
      intro i r hr
      rw [i6 r (hreq level i r hr)]
      exact (hrows r (hreq level i r hr)).1.1) reqs.length 0 []
  have hnewold : ∀ x ∈ patt.ind, x ∉ new := by
    intro x hx hxn
    rw [c5] at c7
    exact (List.nodup_append.mp c7).2.2 hx hxn
  have hfront_ext : ∀ x ∈ patt.frontier, x ∉ localRows M := by
    intro x hx hloc
    have := (i2 x (i4 x hx)).1
    have := (mem_localRows M x).mp hloc
    omega
  refine ⟨reqs, repis, pr1, patt1, d1, s1, c1, c7, by rw [c4, i1'], ?_, ?_, ?_, ?_, ?_, ?_,
    ?_, ?_, ?_, ?_⟩
  · intro x hx
    rw [c5] at hx
    rcases List.mem_append.mp hx with h | h
    · obtain ⟨ho, r, hr, hxr⟩ := i2 x h
      exact ⟨ho, r, hr, levelPattern_mono G r (Nat.le_succ l) hxr⟩
    · exact hstep x (c8 x h)
  · intro r hr x hx hout
    rcases (mem_levelPattern_succ G l r x).mp hx with h | ⟨i, hi, hxi⟩
    · rw [c5]
      exact List.mem_append_left _ (i3 r hr x h hout)
    · by_cases hiloc : i ∈ localRows M
      · rw [c5]
        apply List.mem_append_left
        apply i3 i hiloc x _ hout
        apply levelPattern_mono G i (Nat.zero_le l)
        simp only [levelPattern, List.mem_toFinset]
        exact hxi
      · have hiout : i < M.beg_row ∨ M.end_row < i := by
          rw [mem_localRows] at hiloc
          omega
        have himem := i3 r hr i hi hiout
        by_cases hif : i ∈ patt.frontier
        · apply c9
          rw [mem_repliedExternal]
          exact ⟨⟨i, (hflat i).mpr hif, hxi⟩, hout⟩
        · rw [c5]
          exact List.mem_append_left _ ((i5 i himem hif).2 x hxi hout)
  · intro x hx
    rw [c6] at hx
    rw [c5]
    exact List.mem_append_right _ hx
  · intro x hx hxf
    rw [c6] at hxf
    rw [c5] at hx
    have hxi : x ∈ patt.ind := by
      rcases List.mem_append.mp hx with h | h
      · exact h
      · exact absurd h hxf
    by_cases hF : x ∈ patt.frontier
    · refine ⟨c2 x ((hflat x).mpr hF), ?_⟩
      intro j hj hout
      apply c9
      rw [mem_repliedExternal]
      exact ⟨⟨x, (hflat x).mpr hF, hj⟩, hout⟩
    · obtain ⟨e1, e2⟩ := i5 x hxi hF
      refine ⟨by rw [c3 x (fun h => hF ((hflat x).mp h))]; exact e1, ?_⟩
      intro j hj hout
      rw [c5]
      exact List.mem_append_left _ (e2 j hj hout)
  · intro r hr
    rw [c3 r (fun h => hfront_ext r ((hflat r).mp h) hr)]
    exact i6 r hr
  · intro r hr k hk x hx hout
    have hxi : x ∈ patt.ind := by
      rcases Nat.lt_succ_iff_lt_or_eq.mp hk with h | h
      · exact (i7 r hr k h x hx hout).1
      · rw [h] at hx
        exact i3 r hr x hx hout
    refine ⟨by rw [c5]; exact List.mem_append_left _ hxi, ?_⟩
    rw [c6]
    exact hnewold x hxi
  · intro x
    simp only [List.flatMap_append, List.mem_append]
    rw [i9 x, hflat x, c5, c6]
    constructor
    · rintro (⟨h1, _⟩ | h)
      · exact ⟨List.mem_append_left _ h1, hnewold x h1⟩
      · exact ⟨List.mem_append_left _ (i4 x h), hnewold x (i4 x h)⟩
    · rintro ⟨h1, h2⟩
      have hxi : x ∈ patt.ind := by
        rcases List.mem_append.mp h1 with h | h
        · exact h
        · exact absurd h h2
      by_cases hF : x ∈ patt.frontier
      · exact Or.inr hF
      · exact Or.inl ⟨hxi, hF⟩
  · intro x hx
    simp only [List.flatMap_append, List.mem_append, not_or] at hx
    rw [c3 x hx.2]
    exact i10 x hx.1
  · intro x hx
    simp only [List.flatMap_append, List.mem_append] at hx
    rcases hx with h | h
    · exact i12 x h
    · exact hpres x h
  · simp only [List.length_append, List.length_singleton, i11]

/-- The first loop of `ExchangePrunedRows`: the external indices of the local pruned rows
become the members and the frontier of the pattern. -/
theorem mergePrunedExt_spec {K : Type} (M : Matrix K) (pr : PrunedRows) (S : Finset Int) :
    ∀ (rows : List Int) (patt : RowPatt), patt.ind.Nodup → (∀ j ∈ patt.ind, j ∈ S) →
      (∀ r ∈ rows, (pr.rows r).isSome = true ∧
        ∀ j ∈ (pr.rows r).getD [], (j < M.beg_row ∨ M.end_row < j) → j ∈ S) →
      S.card ≤ patt.maxlen →
      ∃ (patt' : RowPatt) (new : List Int), mergePrunedExt M pr patt rows = some patt' ∧
        patt'.maxlen = patt.maxlen ∧ patt'.ind = patt.ind ++ new ∧
        patt'.frontier = patt.frontier ++ new ∧ patt'.ind.Nodup ∧
        (∀ j, j ∈ patt'.ind ↔ j ∈ patt.ind ∨
          ∃ r ∈ rows, j ∈ (pr.rows r).getD [] ∧ (j < M.beg_row ∨ M.end_row < j)) := by
  intro rows
  induction rows with
  | nil =>
    intro patt hnd _ _ _
    exact ⟨patt, [], rfl, rfl, by simp, by simp, hnd, by simp⟩
  | cons r rest ih =>
    intro patt hnd hpS hS hcap
    obtain ⟨hsome, hrS⟩ := hS r (List.mem_cons_self _ _)
    obtain ⟨ind, hind⟩ := Option.isSome_iff_exists.mp hsome
    rw [hind] at hrS
    simp only [Option.getD_some] at hrS
    have hmemf : ∀ j, j ∈ ind.filter
        (fun x => decide (x < M.beg_row) || decide (M.end_row < x)) ↔
        j ∈ ind ∧ (j < M.beg_row ∨ M.end_row < j) := by
      intro j
      simp [List.mem_filter]
    obtain ⟨p1, new1, a1, a2, a3, a4, a5, a6, a7⟩ :=
      RowPattMerge_spec S _ patt hnd hpS
        (fun j hj => hrS j ((hmemf j).mp hj).1 ((hmemf j).mp hj).2) hcap
    have hp1S : ∀ j ∈ p1.ind, j ∈ S := by
      intro j hj
      rw [a3] at hj
      rcases List.mem_append.mp hj with h | h
      · exact hpS j h
      · exact hrS j ((hmemf j).mp (a6 j h)).1 ((hmemf j).mp (a6 j h)).2
    obtain ⟨p2, new2, b1, b2, b3, b4, b5, b6⟩ := ih p1 a5 hp1S
      (fun r' hr' => hS r' (List.mem_cons_of_mem _ hr')) (by rw [a2]; exact hcap)
    refine ⟨p2, new1 ++ new2, ?_, by rw [b2, a2], by rw [b3, a3, List.append_assoc],
      by rw [b4, a4, List.append_assoc], b5, ?_⟩
    · simp only [mergePrunedExt, PrunedRowsGet, hind, RowPattMergeExt, a1]
      exact b1
    · intro j
      rw [b6 j, a3, List.mem_append]
      constructor
      · rintro ((h | h) | ⟨r', hr', h⟩)
        · exact Or.inl h
        · refine Or.inr ⟨r, List.mem_cons_self _ _, ?_⟩
          rw [hind]
          exact (hmemf j).mp (a6 j h)
        · exact Or.inr ⟨r', List.mem_cons_of_mem _ hr', h⟩
      · rintro (h | ⟨r', hr', h⟩)
        · exact Or.inl (Or.inl h)
        · rcases List.mem_cons.mp hr' with e | e
          · subst e
            rw [hind] at h
            have := a7 j ((hmemf j).mpr h)
            rw [a3] at this
            exact Or.inl (List.mem_append.mp this)
          · exact Or.inr ⟨r', e, h⟩

/-- The level loop of `ExchangePrunedRows` keeps the invariant. -/
theorem exchangePrunedLevels_spec {K : Type} (env : PrunedEnv) (M : Matrix K)
    (G pr0 : PrunedRows) (L : Nat) (me : Nat) (hd : DisjointBlocks M)
    (hready : ExchangeReady M G L)
    (henv : ∀ level m,
      env.reply level m = (SendReplyPrunedRows me m.body G).map PrunedReply.indbuf)
    (hreq : ∀ level i, ∀ r ∈ (env.request level i).2, r ∈ localRows M) :
    ∀ (n level l : Nat) (pr : PrunedRows) (patt : RowPatt) (tr : PrunedTrace),
      l + n ≤ L → ExchangeInv M G pr0 l pr patt tr →
      ∃ (pr' : PrunedRows) (patt' : RowPatt) (tr' : PrunedTrace),
        exchangePrunedLevels env M n level (pr, patt, tr) = some (pr', patt', tr') ∧
        ExchangeInv M G pr0 (l + n) pr' patt' tr' := by
  intro n
  induction n with
  | zero =>
    intro level l pr patt tr _ hinv
    exact ⟨pr, patt, tr, rfl, hinv⟩
  | succ n ih =>
    intro level l pr patt tr hle hinv
    obtain ⟨reqs, repis, pr1, patt1, s1, s2, s3, s4⟩ :=
      exchangeLevel_step env M G pr0 L me hd hready henv hreq level l (by omega) pr patt tr hinv
    obtain ⟨pr', patt', tr', t1, t2⟩ := ih (level + 1) (l + 1) pr1 patt1 _ (by omega) s4
    have e : l + 1 + n = l + (n + 1) := by omega
    rw [e] at t2
    refine ⟨pr', patt', tr', ?_, t2⟩
    simp only [exchangePrunedLevels, s1, s2, s3]
    exact t1

/-- Pruned rows that agree with `G` on a row and on the patterns of the levels below `n`
give the same pattern of level `n`. -/
theorem levelPattern_congr (pr G : PrunedRows) (r : Int) (hr : pr.rows r = G.rows r) :
    ∀ n : Nat, (∀ k, k < n → ∀ x ∈ levelPattern G k r, pr.rows x = G.rows x) →
      levelPattern pr n r = levelPattern G n r := by
  intro n
  induction n with
  | zero =>
    intro _
    simp only [levelPattern, hr]
  | succ n ih =>
    intro h
    have hn := ih (fun k hk => h k (by omega))
    ext j
    rw [mem_levelPattern_succ, mem_levelPattern_succ, hn]
    constructor
    · rintro (hj | ⟨i, hi, hji⟩)
      · exact Or.inl hj
      · exact Or.inr ⟨i, hi, by rw [← h n (by omega) i hi]; exact hji⟩
    · rintro (hj | ⟨i, hi, hji⟩)
      · exact Or.inl hj
      · exact Or.inr ⟨i, hi, by rw [h n (by omega) i hi]; exact hji⟩

/-- `ExchangePrunedRows` in the global model: it returns, and the invariant holds after
`L` levels. -/
theorem ExchangePrunedRows_spec {K : Type} (env : PrunedEnv) (M : Matrix K)
    (G pr0 : PrunedRows) (L : Nat) (me : Nat) (hd : DisjointBlocks M)
    (hready : ExchangeReady M G L) (hlocal : ∀ r ∈ localRows M, pr0.rows r = G.rows r)
    (henv : ∀ level m,
      env.reply level m = (SendReplyPrunedRows me m.body G).map PrunedReply.indbuf)
    (hreq : ∀ level i, ∀ r ∈ (env.request level i).2, r ∈ localRows M) :
    ∃ (pr' : PrunedRows) (patt : RowPatt) (tr : PrunedTrace),
      ExchangePrunedRows env M pr0 L = some (pr', patt, tr) ∧
      ExchangeInv M G pr0 L pr' patt tr := by
  have hS : ∀ r ∈ localRows M, ∀ x ∈ levelPattern G L r,
      x ∈ (localRows M).toFinset.biUnion (levelPattern G L) := by
    intro r hr x hx
    rw [Finset.mem_biUnion]
    exact ⟨r, List.mem_toFinset.mpr hr, hx⟩
  have hzero : ∀ r, ∀ j, j ∈ (G.rows r).getD [] ↔ j ∈ levelPattern G 0 r := by
    intro r j
    simp only [levelPattern, List.mem_toFinset]
  obtain ⟨patt0, new, a1, a2, a3, a4, a5, a6⟩ :=
    mergePrunedExt_spec M pr0 ((localRows M).toFinset.biUnion (levelPattern G L))
      (localRows M) (RowPattCreate ROWPATT_MAXLEN) (by simp [RowPattCreate])
      (by simp [RowPattCreate])
      (by
        intro r hr
        rw [hlocal r hr]
        refine ⟨(hready.1 r hr).1.1, ?_⟩
        intro j hj _
        exact hS r hr j (levelPattern_mono G r (Nat.zero_le L) ((hzero r j).mp hj)))
      (by simp only [RowPattCreate]; exact hready.2)
  simp only [RowPattCreate, List.nil_append, List.not_mem_nil, false_or] at a2 a3 a4 a6
  have hinv0 : ExchangeInv M G pr0 0 pr0 patt0 ⟨[], [], []⟩ := by
    refine ⟨a5, a2, ?_, ?_, ?_, ?_, hlocal, ?_, ?_, fun _ _ => rfl, ?_, rfl⟩
    · intro x hx
      obtain ⟨r, hr, hxr, hout⟩ := (a6 x).mp hx
      rw [hlocal r hr] at hxr
      exact ⟨hout, r, hr, (hzero r x).mp hxr⟩
    · intro r hr x hx hout
      rw [a6 x]
      refine ⟨r, hr, ?_, hout⟩
      rw [hlocal r hr]
      exact (hzero r x).mpr hx
    · intro x hx
      rw [a3]
      rw [a4] at hx
      exact hx
    · intro x hx hxf
      rw [a3] at hx
      rw [a4] at hxf
      exact absurd hx hxf
    · intro r _ k hk
      omega
    · intro x
      simp only [List.flatMap_nil, List.not_mem_nil, false_iff, not_and, not_not]
      intro hx
      rw [a3] at hx
      rw [a4]
      exact hx
    · intro x hx
      simp at hx
  obtain ⟨pr', patt', tr', b1, b2⟩ :=
    exchangePrunedLevels_spec env M G pr0 L me hd hready henv hreq L 1 0 pr0 patt0 _
      (by omega) hinv0
  rw [Nat.zero_add] at b2
  refine ⟨pr', patt', tr', ?_, b2⟩
  simp only [ExchangePrunedRows, a1]
  exact b1

/-- C17: in the global model, where every REQ is answered with the pruned rows `G` of the
owners and the process starts with its local rows of `G`: `ExchangePrunedRows` with `L`
levels returns after `L` calls of `SendRequests`; every requested row is external and is
bound as the owner has it, and no other binding changes; every index that
`ConstructPatternForEachRow` with `L` levels looks up (a local row `r` and the indices of
its patterns of the levels below `L`) is present, and is a local row or a requested row;
and `ConstructPatternForEachRow` returns, with the pattern of the pruned graph of `G`. -/
theorem fetched_pruned_rows_suffice {K : Type} [Zero K] (env : PrunedEnv) (M : Matrix K)
    (G pr0 : PrunedRows) (L : Nat) (me : Nat) (hd : DisjointBlocks M)
    (hready : ExchangeReady M G L) (hlocal : ∀ r ∈ localRows M, pr0.rows r = G.rows r)
    (henv : ∀ level m,
      env.reply level m = (SendReplyPrunedRows me m.body G).map PrunedReply.indbuf)
    (hreq : ∀ level i, ∀ r ∈ (env.request level i).2, r ∈ localRows M) :
    ∃ (pr' : PrunedRows) (patt : RowPatt) (tr : PrunedTrace),
      ExchangePrunedRows env M pr0 L = some (pr', patt, tr) ∧ tr.calls.length = L ∧
      (∀ x ∈ tr.reqs.flatMap Req.body, (x < M.beg_row ∨ M.end_row < x) ∧
        (G.rows x).isSome = true ∧ PrunedRowsGet pr' x = PrunedRowsGet G x) ∧
      (∀ x, x ∉ tr.reqs.flatMap Req.body → PrunedRowsGet pr' x = PrunedRowsGet pr0 x) ∧
      (∀ r ∈ localRows M, (PrunedRowsGet pr' r).isSome = true ∧
        ∀ k, k < L → ∀ x ∈ levelPattern pr' k r, (PrunedRowsGet pr' x).isSome = true ∧
          (x ∈ localRows M ∨ x ∈ tr.reqs.flatMap Req.body)) ∧
      (∃ (M' : Matrix K) (n : Nat), ConstructPatternForEachRow pr' L M = some (M', n) ∧
        ∀ r ∈ localRows M, ∀ j, j ∈ M'.inds r ↔ j ≤ r ∧ j ∈ levelPattern G L r) := by
  obtain ⟨pr', patt, tr, h1, hinv⟩ :=
    ExchangePrunedRows_spec env M G pr0 L me hd hready hlocal henv hreq
  obtain ⟨_, _, i2, _, _, i5, i6, i7, i9, i10, i12, i11⟩ := hinv
  have hagree : ∀ r ∈ localRows M, ∀ k, k < L → ∀ x ∈ levelPattern G k r,
      pr'.rows x = G.rows x ∧ (x ∈ localRows M ∨ x ∈ tr.reqs.flatMap Req.body) := by
    intro r hr k hk x hx
    by_cases hloc : x ∈ localRows M
    · exact ⟨i6 x hloc, Or.inl hloc⟩
    · have hout : x < M.beg_row ∨ M.end_row < x := by
        rw [mem_localRows] at hloc
        omega
      obtain ⟨m1, m2⟩ := i7 r hr k hk x hx hout
      exact ⟨(i5 x m1 m2).1, Or.inr ((i9 x).mpr ⟨m1, m2⟩)⟩
  have hpatt : ∀ r ∈ localRows M, ∀ k, k ≤ L → levelPattern pr' k r = levelPattern G k r := by
    intro r hr k hk
    exact levelPattern_congr pr' G r (i6 r hr) k
      (fun k' hk' x hx => (hagree r hr k' (by omega) x hx).1)
  have hready' : ∀ r ∈ localRows M, RowReady pr' L M r := by
    intro r hr
    obtain ⟨g1, g2, g3, g4⟩ := (hready.1 r hr).1
    refine ⟨by rw [i6 r hr]; exact g1, ?_, by rw [hpatt r hr L (le_refl L)]; exact g3,
      by rw [hpatt r hr L (le_refl L)]; exact g4⟩
    intro k hk x hx
    rw [hpatt r hr k (by omega)] at hx
    rw [(hagree r hr k hk x hx).1]
    exact g2 k hk x hx
  obtain ⟨M', T, c1, _, _, _, c5⟩ := ConstructPatternForEachRow_spec pr' L M hready'
  refine ⟨pr', patt, tr, h1, i11, ?_, i10, ?_, M', T.card, c1, ?_⟩
  · intro x hx
    obtain ⟨m1, m2⟩ := (i9 x).mp hx
    exact ⟨(i2 x m1).1, i12 x hx, (i5 x m1 m2).1⟩
  · intro r hr
    refine ⟨(hready' r hr).1, ?_⟩
    intro k hk x hx
    refine ⟨(hready' r hr).2.1 k hk x hx, ?_⟩
    rw [hpatt r hr k (by omega)] at hx
    exact (hagree r hr k hk x hx).2
  · intro r hr j
    rw [(c5 r hr).2 j, hpatt r hr L (le_refl L)]

/-- C17 witness: process 0 of two with rows `0..3` of the tridiagonal pattern, two
levels. -/
theorem fetched_pruned_rows_suffice_witness :
    ∃ (pr' : PrunedRows) (patt : RowPatt) (tr : PrunedTrace),
      ExchangePrunedRows triEnv twoBlocks triLocal 2 = some (pr', patt, tr) ∧
      tr.calls.length = 2 ∧
      (∀ x ∈ tr.reqs.flatMap Req.body, (x < twoBlocks.beg_row ∨ twoBlocks.end_row < x) ∧
        (triPruned.rows x).isSome = true ∧ PrunedRowsGet pr' x = PrunedRowsGet triPruned x) ∧
      (∀ x, x ∉ tr.reqs.flatMap Req.body → PrunedRowsGet pr' x = PrunedRowsGet triLocal x) ∧
      (∀ r ∈ localRows twoBlocks, (PrunedRowsGet pr' r).isSome = true ∧
        ∀ k, k < 2 → ∀ x ∈ levelPattern pr' k r, (PrunedRowsGet pr' x).isSome = true ∧
          (x ∈ localRows twoBlocks ∨ x ∈ tr.reqs.flatMap Req.body)) ∧
      (∃ (M' : Matrix ℚ) (n : Nat),
        ConstructPatternForEachRow pr' 2 twoBlocks = some (M', n) ∧
        ∀ r ∈ localRows twoBlocks, ∀ j, j ∈ M'.inds r ↔ j ≤ r ∧ j ∈ levelPattern triPruned 2 r) :=
  fetched_pruned_rows_suffice triEnv twoBlocks triPruned triLocal 2 0
    (disjoint_of_rankOrdered ℚ [0, 4] [3, 7] 0 (by decide)) (by decide) (by decide)
    (fun _ _ => rfl)
    (by
      intro level i r hr
      have hr3 : r = 3 := by simpa [triEnv] using hr
      subst hr3
      decide)

/-- A run of the exchange on that process: one REQ in each of the two levels, for row 4
and then for row 5, the reply to the request that arrives in each level, the members of
the pattern and the rows 3 to 6 afterwards. -/
theorem ExchangePrunedRows_run :
    (ExchangePrunedRows triEnv twoBlocks triLocal 2).map
      (fun x => (x.2.2.calls, x.2.2.reqs.map (fun m => (m.dest, m.body)),
        x.2.2.repis.map PrunedReply.indbuf)) =
      some ([([4], 1), ([5], 1)], [(1, [4]), (1, [5])],
        [[1, 3, 3, 3, 2, 4], [1, 3, 3, 3, 2, 4]]) ∧
    (ExchangePrunedRows triEnv twoBlocks triLocal 2).map
      (fun x => (RowPattGet x.2.1, ([3, 4, 5, 6] : List Int).map x.1.rows)) =
      some ([4, 5, 6], [some [3, 2, 4], some [4, 3, 5], some [5, 4, 6], none]) := by
  decide

/-! ### Sample runs -/

/-- A run of `SendRequests`: two groups, for processes 0 and 2. -/
theorem SendRequests_run : SendRequests threeBlocks [9, 1, 8, 2, 1] =
    some ([⟨0, [1, 1, 2]⟩, ⟨2, [8, 9]⟩], 2) := by decide

/-- A run of `ConstructPatternForEachRow` with two levels: the stored rows and
`num_replies`. -/
theorem ConstructPatternForEachRow_run : (ConstructPatternForEachRow triPruned 2 twoBlocks).map
    (fun r => ((localRows twoBlocks).map r.1.inds, r.2)) =
    some ([[0], [1, 0], [2, 1, 0], [3, 2, 1, 0]], 1) := by decide

/-- A run of `SendReplyPrunedRows`: the message and `sendbacksize`. -/
theorem SendReplyPrunedRows_run :
    (SendReplyPrunedRows 1 [2, 3] triPruned).map (fun r => (r.indbuf, r.sendbacksize)) =
      some ([2, 2, 3, 3, 2, 1, 3, 3, 3, 2, 4], 11) := by decide

/-- A run of `SendReplyStoredRows`: the REPI message, the length of the REPV message and
`sendbacksize`. -/
theorem SendReplyStoredRows_run :
    (SendReplyStoredRows 0 [4, 7] triStored).map
        (fun r => (r.indbuf, r.valbuf.length, r.sendbacksize)) =
      some ([2, 4, 7, 3, 3, 4, 5, 2, 6, 7], 5, 10) := by decide

/-- A run of two processes: `num_replies` and the REQs of `ExchangeStoredRows` of each. -/
theorem procRequests_run :
    (List.range 2).map (fun p => ((procPattern ℚ [0, 4] [3, 7] triPruned 1 p).map Prod.snd,
      (procRequests ℚ [0, 4] [3, 7] triPruned 1 p).map Prod.fst)) =
    [(some 1, some []), (some 0, some [⟨0, [2, 3]⟩])] := by decide

end Hypre
